import Mathlib

/-!
# plyGO: a shallow embedding of the query pipeline

The Go package `plygo` (file `plygo.go`) is embedded as pure Lean functions.

* A Go slice is a `List`; a run-time panic (index or slice bound out of range,
  hashing an unhashable map key) is the result `none`.
* A Go `int` is an `Int`.  The only places of `plygo.go` where an `int`
  computation can leave the 64-bit range are `endPos - 1` and `i += step` in
  `Slice`; they wrap around through `wrapInt`.
* A field value (`any`) is a `Value`; a record is the ordered list of its
  named fields, read by `getFieldValue`.
* The closures stored in a `Condition` read `c.field` when they are called,
  not when they are built; they are functions of that field.
* The library function `sort.Slice` is a parameter of the model (`SortSlice`),
  constrained by its documented contract (`SortSliceContract`); insertion sort
  stands for it where a chain is evaluated on a concrete input.
* A Go map with keys of type `any` is the list of its entries with distinct
  keys, read by `mapGet` and written by `mapSet`; the order of the list has no
  meaning.
* A `float64` is an exact rational and arithmetic on it is exact; the conversion
  `float64(n)` of an integer rounds to 53 significant bits (`float64OfInt`).
  The floating-point values that are no rationals (NaN, `+Inf`, `-Inf`) are the
  further values of `AnyValue`, on which the comparison of values is studied.
-/

namespace Plygo

/-! ## Go slices and integers -/

/-- Two's complement wrap-around of a 64-bit Go `int`. -/
def wrapInt (x : Int) : Int := (x + 2 ^ 63) % 2 ^ 64 - 2 ^ 63

/-- Index expression `s[i]`: `none` is the out-of-range panic. -/
def goIndex {α : Type} (s : List α) (i : Int) : Option α :=
  if i < 0 then none else s[i.toNat]?

/-- Slice expression `s[lo:hi]`, with the capacity of `s` taken to be its length:
`none` is the bounds panic. -/
def goSlice {α : Type} (s : List α) (lo hi : Int) : Option (List α) :=
  if 0 ≤ lo ∧ lo ≤ hi ∧ hi ≤ (s.length : Int) then
    some ((s.take hi.toNat).drop lo.toNat)
  else none

/-- The effect of `dst := make([]int, n); copy(dst, src)`: the first `n` elements
of `src`, padded with zeros when `src` is shorter. -/
def goCopyInt (n : Nat) (src : List Int) : List Int :=
  src.take n ++ List.replicate (n - src.length) 0

/-! ## Pipeline and the positional operators -/

/-- The struct `Pipeline[T]`. -/
structure Pipeline (α : Type) where
  data : List α
  originalIndex : List Int
  deriving DecidableEq

/-- The struct `PositionIndex`. -/
structure PositionIndex where
  Rows : List Int
  Cols : List Int
  deriving DecidableEq

/-- The empty pipeline `&Pipeline[T]{data: []T{}, originalIndex: []int{}}`. -/
def Pipeline.empty {α : Type} : Pipeline α := ⟨[], []⟩

/-- The function `From`: the data with the indices `1..len(data)`. -/
def From {α : Type} (data : List α) : Pipeline α :=
  ⟨data, (List.range data.length).map (fun (i : Nat) => (i : Int) + 1)⟩

/-- The method `normalizeIndex`. -/
def Pipeline.normalizeIndex {α : Type} (p : Pipeline α) (idx : Int) : Int :=
  if idx > 0 then idx - 1
  else if idx < 0 then (p.data.length : Int) + idx
  else -1

/-- The loop of `AtRow` over the requested indices. -/
def Pipeline.AtRow.loop {α : Type} (p : Pipeline α) :
    List Int → List α → List Int → Option (Pipeline α)
  | [], result, resultIdx => some ⟨result, resultIdx⟩
  | idx :: rest, result, resultIdx =>
    let pos := p.normalizeIndex idx
    if pos ≥ 0 ∧ pos < (p.data.length : Int) then
      match goIndex p.data pos, goIndex p.originalIndex pos with
      | some x, some k => Pipeline.AtRow.loop p rest (result ++ [x]) (resultIdx ++ [k])
      | _, _ => none
    else Pipeline.AtRow.loop p rest result resultIdx

/-- The method `AtRow`. -/
def Pipeline.AtRow {α : Type} (p : Pipeline α) (indices : List Int) : Option (Pipeline α) :=
  if indices.length = 0 then some Pipeline.empty
  else Pipeline.AtRow.loop p indices [] []

/-- The bounds computed by `RowRange` and `Slice` before they read any record:
`(startPos, endPos)` after normalisation and clamping. -/
def Pipeline.rangeBounds {α : Type} (p : Pipeline α) (start endArg : Int) : Int × Int :=
  let startPos := p.normalizeIndex start
  let endPos := if endArg = -1 then (p.data.length : Int) else p.normalizeIndex endArg
  let endPos := if endPos = -1 then (p.data.length : Int) else endPos
  let startPos := if startPos < 0 then 0 else startPos
  let endPos := if endPos > (p.data.length : Int) then (p.data.length : Int) else endPos
  (startPos, endPos)

/-- The method `RowRange`. -/
def Pipeline.RowRange {α : Type} (p : Pipeline α) (start endArg : Int) : Option (Pipeline α) :=
  let startPos := (p.rangeBounds start endArg).1
  let endPos := (p.rangeBounds start endArg).2
  if startPos ≥ endPos then some Pipeline.empty
  else
    match goSlice p.data startPos endPos, goSlice p.originalIndex startPos endPos with
    | some d, some ix => some ⟨d, goCopyInt (endPos - startPos).toNat ix⟩
    | _, _ => none

/-- The method `Tail`. -/
def Pipeline.Tail {α : Type} (p : Pipeline α) (n : Int) : Option (Pipeline α) :=
  if n ≤ 0 then some Pipeline.empty
  else if n ≥ (p.data.length : Int) then some p
  else
    let start := (p.data.length : Int) - n
    match goSlice p.data start p.data.length,
          goSlice p.originalIndex start p.originalIndex.length with
    | some d, some ix => some ⟨d, goCopyInt n.toNat ix⟩
    | _, _ => none

/-- The forward loop of `Slice`: `for i := startPos; i < endPos; i += step`.  The
first argument bounds the number of iterations. -/
def Pipeline.Slice.forward {α : Type} (p : Pipeline α) (endPos step : Int) :
    Nat → Int → List α → List Int → Option (Pipeline α)
  | 0, i, result, resultIdx =>
    if i < endPos then none else some ⟨result, resultIdx⟩
  | fuel + 1, i, result, resultIdx =>
    if i < endPos then
      match goIndex p.data i, goIndex p.originalIndex i with
      | some x, some k =>
        Pipeline.Slice.forward p endPos step fuel (wrapInt (i + step))
          (result ++ [x]) (resultIdx ++ [k])
      | _, _ => none
    else some ⟨result, resultIdx⟩

/-- The backward loop of `Slice`: `for i := endPos - 1; i >= startPos; i += step`.
The first argument bounds the number of iterations. -/
def Pipeline.Slice.backward {α : Type} (p : Pipeline α) (startPos step : Int) :
    Nat → Int → List α → List Int → Option (Pipeline α)
  | 0, i, result, resultIdx =>
    if i ≥ startPos then none else some ⟨result, resultIdx⟩
  | fuel + 1, i, result, resultIdx =>
    if i ≥ startPos then
      match goIndex p.data i, goIndex p.originalIndex i with
      | some x, some k =>
        Pipeline.Slice.backward p startPos step fuel (wrapInt (i + step))
          (result ++ [x]) (resultIdx ++ [k])
      | _, _ => none
    else some ⟨result, resultIdx⟩

/-- The method `Slice`.  Each loop reads a record in every iteration and moves by
at least one position, so `len(data) + 1` iterations are enough for it to end
(`Slice_fuel_enough`). -/
def Pipeline.Slice {α : Type} (p : Pipeline α) (start endArg step : Int) :
    Option (Pipeline α) :=
  let step := if step = 0 then 1 else step
  let startPos := (p.rangeBounds start endArg).1
  let endPos := (p.rangeBounds start endArg).2
  if step > 0 then
    Pipeline.Slice.forward p endPos step (p.data.length + 1) startPos [] []
  else
    Pipeline.Slice.backward p startPos step (p.data.length + 1) (wrapInt (endPos - 1)) [] []

/-- The method `Positions` of a pipeline. -/
def Pipeline.Positions {α : Type} (p : Pipeline α) : PositionIndex :=
  ⟨p.originalIndex, []⟩

/-- The method `Which` of a pipeline. -/
def Pipeline.Which {α : Type} (p : Pipeline α) : List Int := p.originalIndex

/-- The method `Collect` of a pipeline. -/
def Pipeline.Collect {α : Type} (p : Pipeline α) : List α := p.data

/-- The method `Limit`. -/
def Pipeline.Limit {α : Type} (p : Pipeline α) (n : Int) : Option (Pipeline α) :=
  if n ≥ (p.data.length : Int) then some p
  else
    match goSlice p.data 0 n, goSlice p.originalIndex 0 n with
    | some d, some ix => some ⟨d, ix⟩
    | _, _ => none

/-- The method `Skip`. -/
def Pipeline.Skip {α : Type} (p : Pipeline α) (n : Int) : Option (Pipeline α) :=
  if n ≥ (p.data.length : Int) then some Pipeline.empty
  else
    match goSlice p.data n p.data.length,
          goSlice p.originalIndex n p.originalIndex.length with
    | some d, some ix => some ⟨d, ix⟩
    | _, _ => none

/-! ## Field values and records -/

/-- A field value, the Go type `any`: `nil`, an integer, a floating-point number
(taken as an exact rational), a string, a boolean, or a composite value (slice
or map; the tag stands for its contents up to deep equality). -/
inductive Value where
  | nil : Value
  | int (n : Int) : Value
  | float (q : ℚ) : Value
  | str (s : String) : Value
  | bool (b : Bool) : Value
  | complex (tag : Nat) : Value
  deriving DecidableEq

/-- A record: its named fields in declaration order (a struct with exported
fields) or its entries (a string-keyed map). -/
abbrev Record := List (String × Value)

/-- The function `getFieldValue`: the value of the named field, `nil` when the
record has no such field. -/
def getFieldValue (item : Record) (fieldName : String) : Value :=
  match item.lookup fieldName with
  | some v => v
  | none => Value.nil

/-- The library function `reflect.DeepEqual` on field values: same dynamic type
and same contents. -/
def deepEqual (a b : Value) : Bool := decide (a = b)

/-- The function `compareEqual`. -/
def compareEqual (a b : Value) : Bool :=
  if a = Value.nil ∨ b = Value.nil then decide (a = b)
  else deepEqual a b

/-- The spacing of the `float64` values around the magnitude `m`: `1` up to
`1<<53`, and doubled for every further power of two.  The first argument bounds
the number of doublings; `11` of them cover every 64-bit integer. -/
def float64Ulp : Nat → Nat → Nat → Nat
  | 0, u, _ => u
  | fuel + 1, u, m => if m ≤ 2 ^ 53 * u then u else float64Ulp fuel (2 * u) m

/-- The magnitude of `float64(m)` for a 64-bit magnitude `m`: the nearest
multiple of the spacing, the one with an even quotient when two are equally
near. -/
def float64OfNat (m : Nat) : Nat :=
  let u := float64Ulp 11 1 m
  let q := m / u
  let r := m % u
  if 2 * r < u then q * u
  else if 2 * r > u then (q + 1) * u
  else if q % 2 = 0 then q * u
  else (q + 1) * u

/-- The conversion `float64(n)` of a 64-bit integer: exact up to magnitude
`1<<53`, rounded to 53 significant bits above it. -/
def float64OfInt (n : Int) : ℚ :=
  if n < 0 then -((float64OfNat n.natAbs : Nat) : ℚ) else ((float64OfNat n.natAbs : Nat) : ℚ)

/-- The function `toFloat64`: numbers convert, everything else is `0`. -/
def toFloat64 (v : Value) : ℚ :=
  match v with
  | Value.int n => float64OfInt n
  | Value.float q => q
  | _ => 0

/-- The function `compareNumeric`. -/
def compareNumeric (a b : Value) (op : String) : Bool :=
  let aVal := toFloat64 a
  let bVal := toFloat64 b
  if op = ">" then decide (aVal > bVal)
  else if op = ">=" then decide (aVal ≥ bVal)
  else if op = "<" then decide (aVal < bVal)
  else if op = "<=" then decide (aVal ≤ bVal)
  else false

/-- The function `valueKey`: the bucket key of a field value. -/
def valueKey (v : Value) : Value :=
  match v with
  | Value.nil => Value.str "<nil>"
  | Value.complex _ => Value.str "<complex>"
  | v => v

/-! ## Filters and condition groups -/

/-- The struct `filter[T]`.  The closure `fn` is a function of the field of the
`Condition` it was built on, read when the closure is called. -/
structure filter where
  fn : String → Record → Bool
  orMode : Bool

/-- The struct `ConditionGroup[T]`. -/
structure ConditionGroup where
  field : String
  filters : List filter
  orMode : Bool

/-- The function `W`. -/
def W (field : String) : ConditionGroup := ⟨field, [], false⟩

/-- The method `ConditionGroup.Equals`; `cg.field` is never assigned after `W`, so
the closure does not depend on when it is called. -/
def ConditionGroup.Equals (cg : ConditionGroup) (value : Value) : ConditionGroup :=
  { cg with filters := cg.filters ++
      [⟨fun _ item => compareEqual (getFieldValue item cg.field) value, cg.orMode⟩] }

/-- The method `ConditionGroup.GreaterThan`. -/
def ConditionGroup.GreaterThan (cg : ConditionGroup) (value : Value) : ConditionGroup :=
  { cg with filters := cg.filters ++
      [⟨fun _ item => compareNumeric (getFieldValue item cg.field) value ">", cg.orMode⟩] }

/-- The method `ConditionGroup.LessThan`. -/
def ConditionGroup.LessThan (cg : ConditionGroup) (value : Value) : ConditionGroup :=
  { cg with filters := cg.filters ++
      [⟨fun _ item => compareNumeric (getFieldValue item cg.field) value "<", cg.orMode⟩] }

/-- The method `ConditionGroup.IsTrue`. -/
def ConditionGroup.IsTrue (cg : ConditionGroup) : ConditionGroup :=
  cg.Equals (Value.bool true)

/-- The method `ConditionGroup.evaluate`: every filter holds. -/
def ConditionGroup.evaluate (cg : ConditionGroup) (item : Record) : Bool :=
  cg.filters.all (fun f => f.fn cg.field item)

/-- The loop of `Pipeline.WhereSome`: a record is appended once, at the first
group that matches it. -/
def Pipeline.WhereSome.loop (p : Pipeline Record) (conditions : List ConditionGroup) :
    List Record → Nat → List Record → List Int → Option (Pipeline Record)
  | [], _, result, resultIdx => some ⟨result, resultIdx⟩
  | item :: rest, i, result, resultIdx =>
    if conditions.any (fun cond => cond.evaluate item) then
      match goIndex p.originalIndex i with
      | some k => Pipeline.WhereSome.loop p conditions rest (i + 1) (result ++ [item]) (resultIdx ++ [k])
      | none => none
    else Pipeline.WhereSome.loop p conditions rest (i + 1) result resultIdx

/-- The method `Pipeline.WhereSome`. -/
def Pipeline.WhereSome (p : Pipeline Record) (conditions : List ConditionGroup) :
    Option (Pipeline Record) :=
  if conditions.length = 0 then some p
  else Pipeline.WhereSome.loop p conditions p.data 0 [] []

/-- The loop of `Pipeline.WhereEvery`. -/
def Pipeline.WhereEvery.loop (p : Pipeline Record) (conditions : List ConditionGroup) :
    List Record → Nat → List Record → List Int → Option (Pipeline Record)
  | [], _, result, resultIdx => some ⟨result, resultIdx⟩
  | item :: rest, i, result, resultIdx =>
    if conditions.all (fun cond => cond.evaluate item) then
      match goIndex p.originalIndex i with
      | some k => Pipeline.WhereEvery.loop p conditions rest (i + 1) (result ++ [item]) (resultIdx ++ [k])
      | none => none
    else Pipeline.WhereEvery.loop p conditions rest (i + 1) result resultIdx

/-- The method `Pipeline.WhereEvery`. -/
def Pipeline.WhereEvery (p : Pipeline Record) (conditions : List ConditionGroup) :
    Option (Pipeline Record) :=
  if conditions.length = 0 then some p
  else Pipeline.WhereEvery.loop p conditions p.data 0 [] []

/-- The loop of `Pipeline.Distinct`; `seen` holds the bucket keys met so far. -/
def Pipeline.Distinct.loop (p : Pipeline Record) (field : String) :
    List Record → Nat → List Value → List Record → List Int → Option (Pipeline Record)
  | [], _, _, result, resultIdx => some ⟨result, resultIdx⟩
  | item :: rest, i, seen, result, resultIdx =>
    let key := valueKey (getFieldValue item field)
    if key ∈ seen then Pipeline.Distinct.loop p field rest (i + 1) seen result resultIdx
    else
      match goIndex p.originalIndex i with
      | some k =>
        Pipeline.Distinct.loop p field rest (i + 1) (key :: seen) (result ++ [item]) (resultIdx ++ [k])
      | none => none

/-- The method `Pipeline.Distinct`. -/
def Pipeline.Distinct (p : Pipeline Record) (field : String) : Option (Pipeline Record) :=
  Pipeline.Distinct.loop p field p.data 0 [] [] []

/-! ## Condition -/

/-- The struct `Condition[T]`. -/
structure Condition where
  pipeline : Pipeline Record
  field : String
  filters : List filter
  orMode : Bool

/-- The method `Pipeline.Where`. -/
def Pipeline.Where (p : Pipeline Record) (field : String) : Condition :=
  ⟨p, field, [], false⟩

/-- The statements every operator method of `Condition` ends with: the closure is
appended with the current `orMode`, and `orMode` is cleared. -/
def Condition.appendFilter (c : Condition) (fn : String → Record → Bool) : Condition :=
  { c with filters := c.filters ++ [⟨fn, c.orMode⟩], orMode := false }

/-- The method `Condition.Equals`. -/
def Condition.Equals (c : Condition) (value : Value) : Condition :=
  c.appendFilter (fun field item => compareEqual (getFieldValue item field) value)

/-- The method `Condition.NotEquals`. -/
def Condition.NotEquals (c : Condition) (value : Value) : Condition :=
  c.appendFilter (fun field item => !compareEqual (getFieldValue item field) value)

/-- The method `Condition.GreaterThan`. -/
def Condition.GreaterThan (c : Condition) (value : Value) : Condition :=
  c.appendFilter (fun field item => compareNumeric (getFieldValue item field) value ">")

/-- The method `Condition.GreaterOrEqual`. -/
def Condition.GreaterOrEqual (c : Condition) (value : Value) : Condition :=
  c.appendFilter (fun field item => compareNumeric (getFieldValue item field) value ">=")

/-- The method `Condition.LessThan`. -/
def Condition.LessThan (c : Condition) (value : Value) : Condition :=
  c.appendFilter (fun field item => compareNumeric (getFieldValue item field) value "<")

/-- The method `Condition.LessOrEqual`. -/
def Condition.LessOrEqual (c : Condition) (value : Value) : Condition :=
  c.appendFilter (fun field item => compareNumeric (getFieldValue item field) value "<=")

/-- The method `Condition.Between`. -/
def Condition.Between (c : Condition) (min max : Value) : Condition :=
  c.appendFilter (fun field item =>
    compareNumeric (getFieldValue item field) min ">=" &&
      compareNumeric (getFieldValue item field) max "<=")

/-- The method `Condition.OneOf`. -/
def Condition.OneOf (c : Condition) (values : List Value) : Condition :=
  c.appendFilter (fun field item =>
    values.any (fun v => compareEqual (getFieldValue item field) v))

/-- The method `Condition.IsTrue`. -/
def Condition.IsTrue (c : Condition) : Condition := c.Equals (Value.bool true)

/-- The method `Condition.IsFalse`. -/
def Condition.IsFalse (c : Condition) : Condition := c.Equals (Value.bool false)

/-- The method `Condition.IsNull`. -/
def Condition.IsNull (c : Condition) : Condition :=
  c.appendFilter (fun field item => decide (getFieldValue item field = Value.nil))

/-- The method `Condition.And`. -/
def Condition.And (c : Condition) (field : String) : Condition :=
  { c with field := field, orMode := false }

/-- The method `Condition.Or`: the flag of the last filter is cleared, the field is
switched and the next filter is flagged. -/
def Condition.Or (c : Condition) (field : String) : Condition :=
  let filters :=
    match c.filters.getLast? with
    | some f => c.filters.dropLast ++ [{ f with orMode := false }]
    | none => c.filters
  { c with filters := filters, field := field, orMode := true }

/-- The first statement of the `orMode` branch in the first loop of
`Condition.evaluate`: when `currentGroup` is empty and `i > 0`, the previous
filter opens `currentGroup` and the last group is removed from `groups`.  The
result `none` is a panic (`groups[:len(groups)-1]` on an empty `groups`, or a
filter index out of range). -/
def Condition.evaluate.pop (filters : List filter) (i : Nat)
    (groups : List (List filter)) (currentGroup : List filter) :
    Option (List (List filter) × List filter) :=
  if currentGroup.length = 0 ∧ i > 0 then
    match filters[i - 1]?, groups with
    | some prev, _ :: _ => some (groups.dropLast, currentGroup ++ [prev])
    | _, _ => none
  else some (groups, currentGroup)

/-- The body of the first loop of `Condition.evaluate` at index `i`: the new
values of `groups` and `currentGroup`, `none` for a panic. -/
def Condition.evaluate.step (filters : List filter) (i : Nat)
    (groups : List (List filter)) (currentGroup : List filter) :
    Option (List (List filter) × List filter) :=
  match filters[i]? with
  | none => none
  | some f =>
    if f.orMode then
      match Condition.evaluate.pop filters i groups currentGroup with
      | none => none
      | some (groups, currentGroup) =>
        let currentGroup := currentGroup ++ [f]
        if i = filters.length - 1 then some (groups ++ [currentGroup], [])
        else
          match filters[i + 1]? with
          | none => none
          | some next =>
            if !next.orMode then some (groups ++ [currentGroup], [])
            else some (groups, currentGroup)
    else
      if currentGroup.length = 0 then some (groups ++ [[f]], currentGroup)
      else some (groups, currentGroup)

/-- The first loop of `Condition.evaluate`, `for i := 0; i < len(c.filters); i++`,
which builds `groups`.  The arguments are `i`, the number of iterations left,
`groups` and `currentGroup`. -/
def Condition.evaluate.grouping (filters : List filter) :
    Nat → Nat → List (List filter) → List filter → Option (List (List filter))
  | _, 0, groups, _ => some groups
  | i, left + 1, groups, currentGroup =>
    match Condition.evaluate.step filters i groups currentGroup with
    | none => none
    | some (groups, currentGroup) =>
      Condition.evaluate.grouping filters (i + 1) left groups currentGroup

/-- The second loop of `Condition.evaluate`, `for _, group := range groups`: a
group of one filter must hold, a longer group must have a filter that holds. -/
def Condition.evaluate.check (field : String) (item : Record) : List (List filter) → Bool
  | [] => true
  | [f] :: rest =>
    if !f.fn field item then false else Condition.evaluate.check field item rest
  | group :: rest =>
    if group.any (fun f => f.fn field item) then Condition.evaluate.check field item rest
    else false

/-- The method `Condition.evaluate`. -/
def Condition.evaluate (c : Condition) (item : Record) : Option Bool :=
  if c.filters.length = 0 then some true
  else
    match Condition.evaluate.grouping c.filters 0 c.filters.length [] [] with
    | none => none
    | some groups => some (Condition.evaluate.check c.field item groups)

/-- The loop of `Condition.execute`. -/
def Condition.execute.loop (c : Condition) : List Record → List Record → Option (List Record)
  | [], result => some result
  | item :: rest, result =>
    match c.evaluate item with
    | none => none
    | some true => Condition.execute.loop c rest (result ++ [item])
    | some false => Condition.execute.loop c rest result

/-- The method `Condition.execute`. -/
def Condition.execute (c : Condition) : Option (List Record) :=
  if c.filters.length = 0 then some c.pipeline.data
  else Condition.execute.loop c c.pipeline.data []

/-- The method `Condition.Collect`. -/
def Condition.Collect (c : Condition) : Option (List Record) := c.execute

/-- The index loop of `Condition.Where`: the original index of every record of the
pipeline that is deeply equal to some filtered record. -/
def Condition.Where.loop (c : Condition) (filtered : List Record) :
    List Record → Nat → List Int → Option (List Int)
  | [], _, indices => some indices
  | item :: rest, i, indices =>
    if filtered.any (fun fitem => decide (item = fitem)) then
      match goIndex c.pipeline.originalIndex i with
      | some k => Condition.Where.loop c filtered rest (i + 1) (indices ++ [k])
      | none => none
    else Condition.Where.loop c filtered rest (i + 1) indices

/-- The method `Condition.Where`: the filters so far are executed and a fresh
condition on the filtered records is returned. -/
def Condition.Where (c : Condition) (field : String) : Option Condition :=
  match c.execute with
  | none => none
  | some filtered =>
    match Condition.Where.loop c filtered c.pipeline.data 0 [] with
    | none => none
    | some indices => some ⟨⟨filtered, indices⟩, field, [], false⟩

/-- Whether a record (a struct value) can be a key of a Go map: a record holding
a slice or a map is unhashable, and using it as a key panics. -/
def hashable (item : Record) : Bool :=
  item.all (fun kv => match kv.2 with
    | Value.complex _ => false
    | _ => true)

/-- The first loop of `Condition.Positions`: `filteredMap[item] = true` for every
filtered record. -/
def Condition.Positions.build : List Record → List Record → Option (List Record)
  | [], filteredMap => some filteredMap
  | item :: rest, filteredMap =>
    if hashable item then
      Condition.Positions.build rest (if item ∈ filteredMap then filteredMap else item :: filteredMap)
    else none

/-- The second loop of `Condition.Positions`: a record found in `filteredMap`
gives its original index and is deleted from the map. -/
def Condition.Positions.loop (c : Condition) :
    List Record → Nat → List Record → List Int → Option (List Int)
  | [], _, _, indices => some indices
  | item :: rest, i, filteredMap, indices =>
    if hashable item then
      if item ∈ filteredMap then
        match goIndex c.pipeline.originalIndex i with
        | some k =>
          Condition.Positions.loop c rest (i + 1) (filteredMap.erase item) (indices ++ [k])
        | none => none
      else Condition.Positions.loop c rest (i + 1) filteredMap indices
    else none

/-- The method `Condition.Positions`. -/
def Condition.Positions (c : Condition) : Option PositionIndex :=
  match c.execute with
  | none => none
  | some filtered =>
    if filtered.length = 0 then some ⟨[], []⟩
    else
      match Condition.Positions.build filtered [] with
      | none => none
      | some filteredMap =>
        match Condition.Positions.loop c c.pipeline.data 0 filteredMap [] with
        | none => none
        | some indices => some ⟨indices, []⟩

/-- The method `Condition.Which`. -/
def Condition.Which (c : Condition) : Option (List Int) :=
  match c.Positions with
  | none => none
  | some pi => some pi.Rows

/-! ## The free combinators on condition groups -/

/-- The function `flattenConditions`: the filters of all groups in order, each with
its flag set to `orMode`.  A closure keeps reading the field of the group it
was built on. -/
def flattenConditions (conditions : List ConditionGroup) (orMode : Bool) : List filter :=
  conditions.flatMap (fun cond =>
    cond.filters.map (fun f => ⟨fun _ item => f.fn cond.field item, orMode⟩))

/-- The package-level function `WhereEvery`. -/
def WhereEvery (conditions : List ConditionGroup) : ConditionGroup :=
  ⟨"", flattenConditions conditions false, false⟩

/-- The package-level function `WhereSome`. -/
def WhereSome (conditions : List ConditionGroup) : ConditionGroup :=
  ⟨"", flattenConditions conditions true, false⟩

/-- The method `Condition.Distinct`: the filtered records are wrapped in a pipeline
without original indices, `&Pipeline[T]{data: filtered}`. -/
def Condition.Distinct (c : Condition) (field : String) : Option (Pipeline Record) :=
  match c.execute with
  | none => none
  | some filtered => (⟨filtered, []⟩ : Pipeline Record).Distinct field

/-- The method `Condition.Limit`. -/
def Condition.Limit (c : Condition) (n : Int) : Option (Pipeline Record) :=
  match c.execute with
  | none => none
  | some filtered => (⟨filtered, []⟩ : Pipeline Record).Limit n

/-! ## Comparing values and sorting -/

/-- Lexicographic order on lists of numbers. -/
def lexLess : List Nat → List Nat → Bool
  | _, [] => false
  | [], _ :: _ => true
  | a :: as, b :: bs =>
    if a < b then true
    else if b < a then false
    else lexLess as bs

/-- The Go comparison `s < t` of two strings: lexicographic on the bytes, which
for UTF-8 text is the lexicographic order on the code points. -/
def stringLess (s t : String) : Bool :=
  lexLess (s.data.map Char.toNat) (t.data.map Char.toNat)

/-- Whether a value is a string. -/
def Value.isString (v : Value) : Bool :=
  match v with
  | Value.str _ => true
  | _ => false

/-- Whether a value is a number. -/
def Value.isNumber (v : Value) : Bool :=
  match v with
  | Value.int _ => true
  | Value.float _ => true
  | _ => false

/-- The function `compareValues`. -/
def compareValues (a b : Value) : Int :=
  if a = Value.nil ∧ b = Value.nil then 0
  else if a = Value.nil then -1
  else if b = Value.nil then 1
  else
    let aVal := toFloat64 a
    let bVal := toFloat64 b
    if aVal < bVal then -1
    else if aVal > bVal then 1
    else
      match a, b with
      | Value.str sa, Value.str sb =>
        if stringLess sa sb then -1
        else if stringLess sb sa then 1
        else 0
      | _, _ => 0

/-- A `float64`: a rational, or one of the three values that are no rationals. -/
inductive Float64 where
  | nan : Float64
  | negInf : Float64
  | fin (q : ℚ) : Float64
  | posInf : Float64
  deriving DecidableEq

/-- The Go comparison `x < y` of two `float64` values, which is false whenever
one of them is NaN. -/
def Float64.lt : Float64 → Float64 → Bool
  | Float64.fin x, Float64.fin y => decide (x < y)
  | Float64.negInf, Float64.fin _ => true
  | Float64.negInf, Float64.posInf => true
  | Float64.fin _, Float64.posInf => true
  | _, _ => false

/-- A field value of any kind: a value of `Value`, or a floating-point number
that is no rational (NaN, `+Inf`, `-Inf`). -/
inductive AnyValue where
  | val (v : Value) : AnyValue
  | nan : AnyValue
  | posInf : AnyValue
  | negInf : AnyValue
  deriving DecidableEq

/-- Whether a value of any kind is a string. -/
def AnyValue.isString (a : AnyValue) : Bool :=
  match a with
  | AnyValue.val v => v.isString
  | _ => false

/-- The function `toFloat64` on the values of any kind. -/
def AnyValue.toFloat64 (a : AnyValue) : Float64 :=
  match a with
  | AnyValue.val v => Float64.fin (Plygo.toFloat64 v)
  | AnyValue.nan => Float64.nan
  | AnyValue.posInf => Float64.posInf
  | AnyValue.negInf => Float64.negInf

/-- The function `compareValues` on the values of any kind; on two values of
`Value` it is `compareValues` (`compareValues_val`). -/
def AnyValue.compareValues (a b : AnyValue) : Int :=
  if a = AnyValue.val Value.nil ∧ b = AnyValue.val Value.nil then 0
  else if a = AnyValue.val Value.nil then -1
  else if b = AnyValue.val Value.nil then 1
  else
    let aVal := a.toFloat64
    let bVal := b.toFloat64
    if aVal.lt bVal then -1
    else if bVal.lt aVal then 1
    else
      match a, b with
      | AnyValue.val (Value.str sa), AnyValue.val (Value.str sb) =>
        if stringLess sa sb then -1
        else if stringLess sb sa then 1
        else 0
      | _, _ => 0

/-- The struct `sortField`. -/
structure sortField where
  field : String
  desc : Bool
  deriving DecidableEq

/-- The struct `Sorter[T]`. -/
structure Sorter where
  pipeline : Pipeline Record
  sorts : List sortField

/-- The method `Pipeline.OrderBy`. -/
def Pipeline.OrderBy (p : Pipeline Record) (field : String) : Sorter :=
  ⟨p, [⟨field, false⟩]⟩

/-- The method `Sorter.Desc`: the last key becomes descending. -/
def Sorter.Desc (s : Sorter) : Sorter :=
  match s.sorts.getLast? with
  | some sf => { s with sorts := s.sorts.dropLast ++ [{ sf with desc := true }] }
  | none => s

/-- The method `Sorter.Asc`: the last key becomes ascending. -/
def Sorter.Asc (s : Sorter) : Sorter :=
  match s.sorts.getLast? with
  | some sf => { s with sorts := s.sorts.dropLast ++ [{ sf with desc := false }] }
  | none => s

/-- The method `Sorter.ThenBy`. -/
def Sorter.ThenBy (s : Sorter) (field : String) : Sorter :=
  { s with sorts := s.sorts ++ [⟨field, false⟩] }

/-- The closure that `Sorter.execute` gives to `sort.Slice`, as a function of the
two records `result[i]` and `result[j]`. -/
def Sorter.less (sorts : List sortField) (x y : Record) : Bool :=
  match sorts with
  | [] => false
  | sf :: rest =>
    let cmp := compareValues (getFieldValue x sf.field) (getFieldValue y sf.field)
    if cmp ≠ 0 then
      if sf.desc then decide (cmp > 0) else decide (cmp < 0)
    else Sorter.less rest x y

/-- The type of the library function `sort.Slice`, which is not part of the
repository and is a parameter of the model: it takes the comparison and the
slice and gives the sorted slice. -/
abbrev SortSlice := (Record → Record → Bool) → List Record → List Record

/-- The comparison is a strict weak ordering of the elements of `l`: irreflexive,
transitive, and with a transitive incomparability. -/
def StrictWeakOn {α : Type} (less : α → α → Bool) (l : List α) : Prop :=
  (∀ x ∈ l, less x x = false) ∧
  (∀ x ∈ l, ∀ y ∈ l, ∀ z ∈ l, less x y = true → less y z = true → less x z = true) ∧
  (∀ x ∈ l, ∀ y ∈ l, ∀ z ∈ l, less x y = false → less y z = false → less x z = false)

/-- The documented contract of `sort.Slice`: the result is a permutation of the
slice, and for a strict weak ordering no element of the result is less than an
element before it.  The documentation gives no guarantee of stability. -/
def SortSliceContract (sortSlice : SortSlice) : Prop :=
  ∀ (less : Record → Record → Bool) (l : List Record),
    (sortSlice less l).Perm l ∧
      (StrictWeakOn less l → (sortSlice less l).Pairwise (fun x y => less y x = false))

/-- Insertion of `a` into a sorted list, before the first element that is not
less than `a`. -/
def orderedInsertBy {α : Type} (less : α → α → Bool) (a : α) : List α → List α
  | [] => [a]
  | b :: l => if less b a then b :: orderedInsertBy less a l else a :: b :: l

/-- Insertion sort, the algorithm that the library runs on short slices.  It
stands for `sort.Slice` where a claim is evaluated on a concrete input. -/
def insertionSortSlice {α : Type} (less : α → α → Bool) : List α → List α
  | [] => []
  | a :: l => orderedInsertBy less a (insertionSortSlice less l)

/-- Insertion sort of the reversed slice: a sorting function within the contract
of `sort.Slice` that reverses the elements the comparison does not order. -/
def reversingSortSlice {α : Type} (less : α → α → Bool) (l : List α) : List α :=
  insertionSortSlice less l.reverse

/-- The method `Sorter.execute`. -/
def Sorter.execute (sortSlice : SortSlice) (s : Sorter) : List Record :=
  if s.sorts.length = 0 then s.pipeline.data
  else sortSlice (Sorter.less s.sorts) s.pipeline.data

/-- The method `Sorter.Collect`. -/
def Sorter.Collect (sortSlice : SortSlice) (s : Sorter) : List Record :=
  s.execute sortSlice

/-- The method `Sorter.Limit`: the sorted records are wrapped in a pipeline without
original indices, `&Pipeline[T]{data: sorted}`. -/
def Sorter.Limit (sortSlice : SortSlice) (s : Sorter) (n : Int) : Option (Pipeline Record) :=
  (⟨s.execute sortSlice, []⟩ : Pipeline Record).Limit n

/-- The method `Sorter.Skip`. -/
def Sorter.Skip (sortSlice : SortSlice) (s : Sorter) (n : Int) : Option (Pipeline Record) :=
  (⟨s.execute sortSlice, []⟩ : Pipeline Record).Skip n

/-- The method `Sorter.AtRow` (file `show.go`): `From(sorted).AtRow(indices...)`. -/
def Sorter.AtRow (sortSlice : SortSlice) (s : Sorter) (indices : List Int) :
    Option (Pipeline Record) :=
  (From (s.Collect sortSlice)).AtRow indices

/-! ## Transform and grouping -/

/-- The assignment `s[i] = x` to an element of a slice, `none` for a panic. -/
def goSet {α : Type} (s : List α) (i : Int) (x : α) : Option (List α) :=
  if 0 ≤ i ∧ i < (s.length : Int) then some (s.set i.toNat x) else none

/-- The slices a call of `Transform` works on: those of the receiver `p` and the
two slices the call allocates. -/
structure TransformState (α : Type) where
  receiver : Pipeline α
  result : List α
  resultIdx : List Int

/-- The loop of `Transform`, `for i, item := range p.data { result[i] = fn(item) }`:
the records left, the index `i` and the state, of which only `result` is written. -/
def Pipeline.Transform.loop {α : Type} (fn : α → α) :
    List α → Nat → TransformState α → Option (TransformState α)
  | [], _, s => some s
  | item :: rest, i, s =>
    match goSet s.result i (fn item) with
    | some result => Pipeline.Transform.loop fn rest (i + 1) { s with result := result }
    | none => none

/-- The body of `Transform` up to its `return`: the state after the allocations,
the `copy` of the indices and the loop, `none` for a panic.  `zero` is the zero
value of the record type, which fills `make([]T, len(p.data))`. -/
def Pipeline.Transform.run {α : Type} (zero : α) (p : Pipeline α) (fn : α → α) :
    Option (TransformState α) :=
  Pipeline.Transform.loop fn p.data 0
    ⟨p, List.replicate p.data.length zero, goCopyInt p.data.length p.originalIndex⟩

/-- The method `Transform`: the pipeline of the two slices it allocated. -/
def Pipeline.Transform {α : Type} (zero : α) (p : Pipeline α) (fn : α → α) :
    Option (Pipeline α) :=
  match Pipeline.Transform.run zero p fn with
  | some s => some ⟨s.result, s.resultIdx⟩
  | none => none

/-- The lookup `m[key]` in a Go map with keys of type `any`, `none` when the key
is absent.  A map is the list of its entries, in the order in which the keys were
first stored; the keys of the list are distinct (`mapSet` keeps them so) and the
order carries no meaning. -/
def mapGet {β : Type} : List (Value × β) → Value → Option β
  | [], _ => none
  | (k, w) :: rest, key => if k = key then some w else mapGet rest key

/-- The assignment `m[key] = v` in a Go map. -/
def mapSet {β : Type} : List (Value × β) → Value → β → List (Value × β)
  | [], key, v => [(key, v)]
  | (k, w) :: rest, key, v =>
    if k = key then (k, v) :: rest else (k, w) :: mapSet rest key v

/-- The struct `Grouping[T]`. -/
structure Grouping where
  pipeline : Pipeline Record
  field : String

/-- The method `Pipeline.GroupBy`. -/
def Pipeline.GroupBy (p : Pipeline Record) (field : String) : Grouping :=
  ⟨p, field⟩

/-- The loop of `Grouping.Count`: `result[key]++`, where an absent key reads as
`0`. -/
def Grouping.Count.loop (g : Grouping) :
    List Record → List (Value × Int) → List (Value × Int)
  | [], result => result
  | item :: rest, result =>
    let key := valueKey (getFieldValue item g.field)
    Grouping.Count.loop g rest (mapSet result key ((mapGet result key).getD 0 + 1))

/-- The method `Grouping.Count`. -/
def Grouping.Count (g : Grouping) : List (Value × Int) :=
  Grouping.Count.loop g g.pipeline.data []

/-- The loop of `Grouping.Sum`: `result[key] += val`. -/
def Grouping.Sum.loop (g : Grouping) (sumField : String) :
    List Record → List (Value × ℚ) → List (Value × ℚ)
  | [], result => result
  | item :: rest, result =>
    let key := valueKey (getFieldValue item g.field)
    let val := toFloat64 (getFieldValue item sumField)
    Grouping.Sum.loop g sumField rest (mapSet result key ((mapGet result key).getD 0 + val))

/-- The method `Grouping.Sum`. -/
def Grouping.Sum (g : Grouping) (sumField : String) : List (Value × ℚ) :=
  Grouping.Sum.loop g sumField g.pipeline.data []

/-- The first loop of `Grouping.Avg`, which fills `sums` and `counts`. -/
def Grouping.Avg.loop (g : Grouping) (avgField : String) :
    List Record → List (Value × ℚ) → List (Value × Int) →
      List (Value × ℚ) × List (Value × Int)
  | [], sums, counts => (sums, counts)
  | item :: rest, sums, counts =>
    let key := valueKey (getFieldValue item g.field)
    let val := toFloat64 (getFieldValue item avgField)
    Grouping.Avg.loop g avgField rest
      (mapSet sums key ((mapGet sums key).getD 0 + val))
      (mapSet counts key ((mapGet counts key).getD 0 + 1))

/-- The method `Grouping.Avg`: the second loop ranges over the entries of `sums`
and divides each sum by `float64(counts[key])`. -/
def Grouping.Avg (g : Grouping) (avgField : String) : List (Value × ℚ) :=
  let sums := (Grouping.Avg.loop g avgField g.pipeline.data [] []).1
  let counts := (Grouping.Avg.loop g avgField g.pipeline.data [] []).2
  sums.foldl
    (fun result (entry : Value × ℚ) =>
      mapSet result entry.1 (entry.2 / (((mapGet counts entry.1).getD 0 : Int) : ℚ)))
    []

/-- The loop of `Grouping.Min`. -/
def Grouping.Min.loop (g : Grouping) (minField : String) :
    List Record → List (Value × Value) → List (Value × Value)
  | [], result => result
  | item :: rest, result =>
    let key := valueKey (getFieldValue item g.field)
    let val := getFieldValue item minField
    match mapGet result key with
    | none => Grouping.Min.loop g minField rest (mapSet result key val)
    | some existing =>
      if compareValues val existing < 0 then
        Grouping.Min.loop g minField rest (mapSet result key val)
      else Grouping.Min.loop g minField rest result

/-- The method `Grouping.Min`. -/
def Grouping.Min (g : Grouping) (minField : String) : List (Value × Value) :=
  Grouping.Min.loop g minField g.pipeline.data []

/-- The loop of `Grouping.Max`. -/
def Grouping.Max.loop (g : Grouping) (maxField : String) :
    List Record → List (Value × Value) → List (Value × Value)
  | [], result => result
  | item :: rest, result =>
    let key := valueKey (getFieldValue item g.field)
    let val := getFieldValue item maxField
    match mapGet result key with
    | none => Grouping.Max.loop g maxField rest (mapSet result key val)
    | some existing =>
      if compareValues val existing > 0 then
        Grouping.Max.loop g maxField rest (mapSet result key val)
      else Grouping.Max.loop g maxField rest result

/-- The method `Grouping.Max`. -/
def Grouping.Max (g : Grouping) (maxField : String) : List (Value × Value) :=
  Grouping.Max.loop g maxField g.pipeline.data []

/-- The elements of a list whose key is not in `seen` and differs from the key of
every earlier element. -/
def keepFirst {α : Type} (key : α → Value) : List Value → List α → List α
  | _, [] => []
  | seen, x :: rest =>
    if key x ∈ seen then keepFirst key seen rest
    else x :: keepFirst key (key x :: seen) rest

/-- The records of a list whose bucket key for `field` is `k`, in their order. -/
def bucket (field : String) (k : Value) (data : List Record) : List Record :=
  data.filter (fun r => decide (valueKey (getFieldValue r field) = k))

/-- The keys of a map. -/
def mapKeys {β : Type} (m : List (Value × β)) : List Value := m.map Prod.fst

/-- The entry of a key after a pass over the records of its bucket, each record
updating the entry by `upd`. -/
def bucketFold {β : Type} (upd : Option β → Record → β) : List Record → Option β → Option β
  | [], acc => acc
  | item :: rest, acc => bucketFold upd rest (some (upd acc item))

/-- A pass over records in which each record updates the map entry of its key. -/
def groupFold {β : Type} (key : Record → Value) (upd : Option β → Record → β) :
    List Record → List (Value × β) → List (Value × β)
  | [], m => m
  | item :: rest, m => groupFold key upd rest (mapSet m (key item) (upd (mapGet m (key item)) item))

/-- The entry kept by `Min` and `Max` for a key: the value of the record when the
key has no entry or when the value is `better` than the entry, the entry
otherwise. -/
def pickBest (better : Value → Value → Bool) (acc : Option Value) (val : Value) : Value :=
  match acc with
  | none => val
  | some existing => if better val existing then val else existing

/-- Three employees of two departments. -/
def sampleTeam : List Record :=
  [[("Name", Value.str "Ann"), ("Dept", Value.str "Ops"), ("Pay", Value.int 10)],
   [("Name", Value.str "Bo"), ("Dept", Value.str "Dev"), ("Pay", Value.float 30)],
   [("Name", Value.str "Cy"), ("Dept", Value.str "Ops"), ("Pay", Value.int 20)]]

/-! ## Columns, projection and conditions on projected rows -/

/-- The method `FieldNames` on a pipeline of struct records: the field names of
the record type in declaration order, read off the first record; no name for an
empty pipeline. -/
def Pipeline.FieldNames (p : Pipeline Record) : List String :=
  match p.data with
  | [] => []
  | item :: _ => item.map Prod.fst

/-- The struct `Selection[T]`. -/
structure Selection where
  pipeline : Pipeline Record
  fields : List String

/-- The method `Pipeline.Select`. -/
def Pipeline.Select (p : Pipeline Record) (fields : List String) : Selection :=
  ⟨p, fields⟩

/-- The loop of `AtCol`: every index is normalised by `p.normalizeIndex`, and the
field name at the position is appended when the position is one of
`fieldNames`. -/
def Pipeline.AtCol.loop (p : Pipeline Record) (fieldNames : List String) :
    List Int → List String → Option (List String)
  | [], selectedFields => some selectedFields
  | idx :: rest, selectedFields =>
    let pos := p.normalizeIndex idx
    if pos ≥ 0 ∧ pos < (fieldNames.length : Int) then
      match goIndex fieldNames pos with
      | some name => Pipeline.AtCol.loop p fieldNames rest (selectedFields ++ [name])
      | none => none
    else Pipeline.AtCol.loop p fieldNames rest selectedFields

/-- The method `AtCol`. -/
def Pipeline.AtCol (p : Pipeline Record) (indices : List Int) : Option Selection :=
  if indices.length = 0 then some ⟨p, []⟩
  else
    match Pipeline.AtCol.loop p p.FieldNames indices [] with
    | some selectedFields => some ⟨p, selectedFields⟩
    | none => none

/-- The inner loop of `Selection.Positions`: `i+1` for the first index `i` of
`allFields` that holds `field`; the second argument is the index of the head. -/
def Selection.Positions.find (field : String) : List String → Nat → Option Int
  | [], _ => none
  | f :: rest, i =>
    if f = field then some ((i : Int) + 1) else Selection.Positions.find field rest (i + 1)

/-- The outer loop of `Selection.Positions`. -/
def Selection.Positions.loop (allFields : List String) : List String → List Int → List Int
  | [], colIndices => colIndices
  | field :: rest, colIndices =>
    match Selection.Positions.find field allFields 0 with
    | some k => Selection.Positions.loop allFields rest (colIndices ++ [k])
    | none => Selection.Positions.loop allFields rest colIndices

/-- The method `Selection.Positions`. -/
def Selection.Positions (s : Selection) : PositionIndex :=
  ⟨s.pipeline.originalIndex, Selection.Positions.loop s.pipeline.FieldNames s.fields []⟩

/-- The method `PositionIndex.IsMatrix`. -/
def PositionIndex.IsMatrix (pi : PositionIndex) : Bool := decide (pi.Cols.length > 0)

/-- The assignment `row[name] = v` to a row, a Go map with string keys: the list
of its entries with distinct keys, in the order in which the keys were stored. -/
def rowSet : Record → String → Value → Record
  | [], name, v => [(name, v)]
  | (k, w) :: rest, name, v =>
    if k = name then (k, v) :: rest else (k, w) :: rowSet rest name v

/-- The inner loop of `Selection.execute` on a struct record: `row[fieldName]` is
set for every requested name that is a field of the record. -/
def Selection.execute.row (item : Record) : List String → Record → Record
  | [], row => row
  | fieldName :: rest, row =>
    match item.lookup fieldName with
    | some v => Selection.execute.row item rest (rowSet row fieldName v)
    | none => Selection.execute.row item rest row

/-- The outer loop of `Selection.execute`, `result[i] = row`: the records left,
the index `i` and the slice `result`. -/
def Selection.execute.loop (fields : List String) :
    List Record → Nat → List Record → Option (List Record)
  | [], _, result => some result
  | item :: rest, i, result =>
    match goSet result i (Selection.execute.row item fields []) with
    | some result => Selection.execute.loop fields rest (i + 1) result
    | none => none

/-- The method `Selection.execute` on struct records; `make` fills `result` with
`nil` maps, which are empty rows. -/
def Selection.execute (s : Selection) : Option (List Record) :=
  Selection.execute.loop s.fields s.pipeline.data 0 (List.replicate s.pipeline.data.length [])

/-- The method `Selection.Collect`. -/
def Selection.Collect (s : Selection) : Option (List Record) := s.execute

/-- The struct `ConditionMap`.  Its closures read `c.field` when they are called,
as those of `Condition` do. -/
structure ConditionMap where
  pipeline : Pipeline Record
  field : String
  filters : List filter
  orMode : Bool

/-- The method `Selection.Where`. -/
def Selection.Where (s : Selection) (field : String) : Option ConditionMap :=
  match s.execute with
  | some selected => some ⟨⟨selected, []⟩, field, [], false⟩
  | none => none

/-- The method `ConditionMap.Equals`. -/
def ConditionMap.Equals (c : ConditionMap) (value : Value) : ConditionMap :=
  { c with
    filters := c.filters ++
      [⟨fun field item => compareEqual (getFieldValue item field) value, c.orMode⟩],
    orMode := false }

/-- The method `ConditionMap.GreaterThan`. -/
def ConditionMap.GreaterThan (c : ConditionMap) (value : Value) : ConditionMap :=
  { c with
    filters := c.filters ++
      [⟨fun field item => compareNumeric (getFieldValue item field) value ">", c.orMode⟩],
    orMode := false }

/-- The method `ConditionMap.Or`. -/
def ConditionMap.Or (c : ConditionMap) (field : String) : ConditionMap :=
  { c with field := field, orMode := true }

/-- The loop of `ConditionMap.execute`: a row is kept when no filter fails. -/
def ConditionMap.execute.loop (c : ConditionMap) : List Record → List Record → List Record
  | [], result => result
  | item :: rest, result =>
    if c.filters.all (fun f => f.fn c.field item) then
      ConditionMap.execute.loop c rest (result ++ [item])
    else ConditionMap.execute.loop c rest result

/-- The method `ConditionMap.execute`. -/
def ConditionMap.execute (c : ConditionMap) : List Record :=
  if c.filters.length = 0 then c.pipeline.data
  else ConditionMap.execute.loop c c.pipeline.data []

/-- The method `ConditionMap.Collect`. -/
def ConditionMap.Collect (c : ConditionMap) : List Record := c.execute

/-- The values of `groups` and `currentGroup` before iteration `i` of the first
loop of `Condition.evaluate`, `none` when an earlier iteration panics. -/
def Condition.evaluate.stateAt (filters : List filter) :
    Nat → Option (List (List filter) × List filter)
  | 0 => some ([], [])
  | i + 1 =>
    match Condition.evaluate.stateAt filters i with
    | some (groups, currentGroup) => Condition.evaluate.step filters i groups currentGroup
    | none => none

/-- Three people with five fields each. -/
def samplePeople : List Record :=
  [[("Name", Value.str "Alice"), ("Age", Value.int 30), ("City", Value.str "NYC"),
    ("Salary", Value.float 75000), ("Active", Value.bool true)],
   [("Name", Value.str "Bob"), ("Age", Value.int 25), ("City", Value.str "LA"),
    ("Salary", Value.float 60000), ("Active", Value.bool true)],
   [("Name", Value.str "Charlie"), ("Age", Value.int 35), ("City", Value.str "NYC"),
    ("Salary", Value.float 90000), ("Active", Value.bool false)]]

/-! ## Sequences of stages -/

/-- One call of a stage that maps a pipeline to a pipeline. -/
inductive Stage where
  | AtRow (indices : List Int) : Stage
  | RowRange (start endArg : Int) : Stage
  | Tail (n : Int) : Stage
  | Slice (start endArg step : Int) : Stage
  | WhereSome (conditions : List ConditionGroup) : Stage
  | WhereEvery (conditions : List ConditionGroup) : Stage
  | Distinct (field : String) : Stage
  | Limit (n : Int) : Stage
  | Skip (n : Int) : Stage

/-- The stage call on a pipeline. -/
def Stage.run (s : Stage) (p : Pipeline Record) : Option (Pipeline Record) :=
  match s with
  | Stage.AtRow indices => p.AtRow indices
  | Stage.RowRange start endArg => p.RowRange start endArg
  | Stage.Tail n => p.Tail n
  | Stage.Slice start endArg step => p.Slice start endArg step
  | Stage.WhereSome conditions => p.WhereSome conditions
  | Stage.WhereEvery conditions => p.WhereEvery conditions
  | Stage.Distinct field => p.Distinct field
  | Stage.Limit n => p.Limit n
  | Stage.Skip n => p.Skip n

/-- The count of a `Limit` or `Skip` stage is not negative. -/
def Stage.countOk (s : Stage) : Prop :=
  match s with
  | Stage.Limit n => 0 ≤ n
  | Stage.Skip n => 0 ≤ n
  | _ => True

/-- Whether the stage is a call of `Slice`. -/
def Stage.isSlice (s : Stage) : Bool :=
  match s with
  | Stage.Slice _ _ _ => true
  | _ => false

/-- The chained stage calls, left to right; a panic ends the chain. -/
def runStages : List Stage → Pipeline Record → Option (Pipeline Record)
  | [], p => some p
  | s :: rest, p =>
    match s.run p with
    | none => none
    | some q => runStages rest q

/-- The records `r` with the indices `ri` are drawn from the pipeline `p`: both
lists have the same length and every pair `(r[j], ri[j])` is a pair
`(p.data[i], p.originalIndex[i])`. -/
def Drawn {α : Type} (p : Pipeline α) (r : List α) (ri : List Int) : Prop :=
  r.length = ri.length ∧
    ∀ (j : Nat) (x : α) (k : Int), r[j]? = some x → ri[j]? = some k →
      ∃ i : Nat, p.data[i]? = some x ∧ p.originalIndex[i]? = some k

/-! ## Reference definitions of the positional operators -/

/-- The element at the 1-based position `k` of a list. -/
def atPosition {α : Type} (l : List α) (k : Nat) : Option α :=
  if k = 0 then none else l[k - 1]?

/-- The pipeline that holds, in the order of `ks`, the record at each 1-based
position of `ks` together with the original index stored at that position. -/
def Pipeline.atPositions {α : Type} (p : Pipeline α) (ks : List Nat) : Pipeline α :=
  ⟨ks.filterMap (atPosition p.data), ks.filterMap (atPosition p.originalIndex)⟩

/-- The 1-based positions `a, a+1, .., b`, none when `b < a`. -/
def positionsFromTo (a b : Int) : List Nat :=
  List.range' a.toNat (b + 1 - a).toNat

/-- The 1-based position that an index of `AtRow` selects in a pipeline of length
`n`: `idx` itself when `1 <= idx <= n`, `n+idx+1` when `-n <= idx <= -1`, nothing
for `0` and for an index out of range. -/
def AtRow.position (n : Nat) (idx : Int) : Option Nat :=
  if 1 ≤ idx ∧ idx ≤ (n : Int) then some idx.toNat
  else if -(n : Int) ≤ idx ∧ idx ≤ -1 then some ((n : Int) + idx + 1).toNat
  else none

/-- The reference definition of `AtRow`: the records at the positions selected by
the indices, in the order the indices are given. -/
def AtRow.reference {α : Type} (p : Pipeline α) (indices : List Int) : Pipeline α :=
  p.atPositions (indices.filterMap (AtRow.position p.data.length))

/-! ## Reference definition of `Slice` -/

/-- The zero-based positions `lo, lo+step, lo+2*step, ..` that are below `hi`,
among the first `n` terms. -/
def positionsUp (lo hi step : Int) (n : Nat) : List Int :=
  ((List.range n).map (fun (t : Nat) => lo + (t : Int) * step)).filter (fun i => decide (i < hi))

/-- The zero-based positions `hi-1, hi-1+step, hi-1+2*step, ..` that are at least
`lo`, among the first `n` terms. -/
def positionsDown (lo hi step : Int) (n : Nat) : List Int :=
  ((List.range n).map (fun (t : Nat) => hi - 1 + (t : Int) * step)).filter
    (fun i => decide (i ≥ lo))

/-- The reference definition of `Slice`: with `lo` and `hi` the normalised and
clamped bounds and a step of `0` read as `1`, the records and the original
indices at the positions `lo, lo+step, ..` below `hi` for a step above `0`, at
the positions `hi-1, hi-1+step, ..` down to `lo` for a step below `0`.  More
than `len(data)` terms are never within the bounds. -/
def Slice.reference {α : Type} (p : Pipeline α) (start endArg step : Int) : Pipeline α :=
  let step := if step = 0 then 1 else step
  let lo := (p.rangeBounds start endArg).1
  let hi := (p.rangeBounds start endArg).2
  let positions :=
    if step > 0 then positionsUp lo hi step p.data.length
    else positionsDown lo hi step p.data.length
  ⟨positions.filterMap (goIndex p.data), positions.filterMap (goIndex p.originalIndex)⟩

/-- The positions visited by the forward loop of `Slice` from `i` on, without
wrap-around, within `n` iterations. -/
def stepsUp (hi step : Int) : Nat → Int → List Int
  | 0, _ => []
  | n + 1, i => if i < hi then i :: stepsUp hi step n (i + step) else []

/-- The positions visited by the backward loop of `Slice` from `i` on, without
wrap-around, within `n` iterations. -/
def stepsDown (lo step : Int) : Nat → Int → List Int
  | 0, _ => []
  | n + 1, i => if i ≥ lo then i :: stepsDown lo step n (i + step) else []

/-! ## Reference definitions for filtering, positions and sort order -/

/-- The records of the pipeline for which `pred` holds, in their order, each paired
with the original index it carries. -/
def Pipeline.keepWhere {α : Type} (p : Pipeline α) (pred : α → Bool) : Pipeline α :=
  ⟨((p.data.zip p.originalIndex).filter (fun z => pred z.1)).map Prod.fst,
   ((p.data.zip p.originalIndex).filter (fun z => pred z.1)).map Prod.snd⟩

/-- The ascending list of the positions, counted from `k`, of the records that
satisfy `sat`. -/
def positionsFrom (sat : Record → Bool) : Nat → List Record → List Int
  | _, [] => []
  | k, r :: rest =>
    if sat r then (k : Int) :: positionsFrom sat (k + 1) rest
    else positionsFrom sat (k + 1) rest

/-- The record `x` may stand before the record `y` under the sort keys: at the
first key on which `compareValues` of their fields is not `0`, it is negative
for an ascending key and positive for a descending key. -/
def orderedAt (sorts : List sortField) (x y : Record) : Bool :=
  match sorts with
  | [] => true
  | sf :: rest =>
    if compareValues (getFieldValue x sf.field) (getFieldValue y sf.field) ≠ 0 then
      if sf.desc then
        decide (compareValues (getFieldValue x sf.field) (getFieldValue y sf.field) > 0)
      else decide (compareValues (getFieldValue x sf.field) (getFieldValue y sf.field) < 0)
    else orderedAt rest x y

/-- Four records with numeric `YearsExp` and `Salary`, for concrete evaluations. -/
def sampleStaff : List Record :=
  [[("YearsExp", Value.int 5), ("Salary", Value.float 70)],
    [("YearsExp", Value.int 3), ("Salary", Value.float 60)],
    [("YearsExp", Value.int 5), ("Salary", Value.float 90)],
    [("YearsExp", Value.int 3), ("Salary", Value.float 80)]]

/-! ## Reference definition of the groups of a condition -/

/-- The groups of the filters that follow an open group `current`: a filter whose
`orMode` flag is set joins the open group, any other filter closes it and
opens the next group. -/
def groupsFrom (current : List filter) : List filter → List (List filter)
  | [] => [current]
  | f :: rest =>
    if f.orMode then groupsFrom (current ++ [f]) rest
    else current :: groupsFrom [f] rest

/-- The filter list split before every filter at an index above `0` whose
`orMode` flag is false: every group is one filter followed by the maximal run
of `orMode` filters after it. -/
def splitGroups : List filter → List (List filter)
  | [] => []
  | f :: rest => groupsFrom [f] rest

/-- The reference value of a condition on a record: every group has a filter
that holds (AND of OR-groups). -/
def andOfOrGroups (field : String) (item : Record) (filters : List filter) : Bool :=
  (splitGroups filters).all (fun group => group.any (fun f => f.fn field item))

/-! ## Lemmas on slices and drawn pairs -/

theorem goIndex_natCast {α : Type} (s : List α) (i : Nat) : goIndex s (i : Int) = s[i]? := by
  simp [goIndex]

theorem goIndex_eq_some {α : Type} {s : List α} {i : Int} {x : α}
    (h : goIndex s i = some x) : 0 ≤ i ∧ s[i.toNat]? = some x := by
  unfold goIndex at h
  split at h
  · cases h
  · exact ⟨by omega, h⟩

theorem goIndex_of_lt {α : Type} (s : List α) (i : Int) (h0 : 0 ≤ i)
    (h1 : i < (s.length : Int)) : ∃ x, goIndex s i = some x ∧ s[i.toNat]? = some x := by
  have hlt : i.toNat < s.length := by omega
  refine ⟨s[i.toNat], ?_, ?_⟩
  · unfold goIndex
    rw [if_neg (by omega)]
    exact List.getElem?_eq_getElem hlt
  · exact List.getElem?_eq_getElem hlt

theorem drop_eq_cons {α : Type} {l : List α} {i : Nat} {a : α} {t : List α}
    (h : l.drop i = a :: t) : l[i]? = some a ∧ l.drop (i + 1) = t := by
  constructor
  · have := List.getElem?_drop l i 0
    rw [h] at this
    simpa using this.symm
  · have : (l.drop i).drop 1 = t := by rw [h]; rfl
    rw [List.drop_drop] at this
    rw [← this, Nat.add_comm]

theorem goCopyInt_of_length {n : Nat} {src : List Int} (h : src.length = n) :
    goCopyInt n src = src := by
  unfold goCopyInt
  rw [List.take_of_length_le (by omega)]
  simp [h]

theorem Drawn.nil {α : Type} (p : Pipeline α) : Drawn p [] [] := by
  refine ⟨rfl, ?_⟩
  intro j x k h
  simp at h

theorem Drawn.snoc {α : Type} {p : Pipeline α} {r : List α} {ri : List Int} {i : Nat}
    {x : α} {k : Int} (h : Drawn p r ri) (hx : p.data[i]? = some x)
    (hk : p.originalIndex[i]? = some k) : Drawn p (r ++ [x]) (ri ++ [k]) := by
  obtain ⟨hlen, hall⟩ := h
  refine ⟨by simp [hlen], ?_⟩
  intro j y m hy hm
  by_cases hj : j < r.length
  · rw [List.getElem?_append_left hj] at hy
    rw [List.getElem?_append_left (by omega)] at hm
    exact hall j y m hy hm
  · rw [List.getElem?_append_right (by omega)] at hy
    rw [List.getElem?_append_right (by omega)] at hm
    have hj0 : j - r.length = 0 := by
      by_contra hne
      have : ([x] : List α)[j - r.length]? = none := by
        apply List.getElem?_eq_none
        simp
        omega
      rw [this] at hy
      cases hy
    rw [hj0] at hy
    rw [← hlen, hj0] at hm
    simp at hy hm
    subst hy
    subst hm
    exact ⟨i, hx, hk⟩

theorem Drawn.refl {α : Type} (p : Pipeline α) (h : p.data.length = p.originalIndex.length) :
    Drawn p p.data p.originalIndex :=
  ⟨h, fun j _ _ hx hk => ⟨j, hx, hk⟩⟩

theorem Drawn.trans {α : Type} {p q : Pipeline α} {r : List α} {ri : List Int}
    (hpq : Drawn p q.data q.originalIndex) (hq : Drawn q r ri) : Drawn p r ri := by
  refine ⟨hq.1, ?_⟩
  intro j x k hx hk
  obtain ⟨i, hi1, hi2⟩ := hq.2 j x k hx hk
  exact hpq.2 i x k hi1 hi2

theorem goSlice_eq_some {α : Type} {s d : List α} {lo hi : Int}
    (h : goSlice s lo hi = some d) :
    0 ≤ lo ∧ lo ≤ hi ∧ hi ≤ (s.length : Int) ∧ d = (s.take hi.toNat).drop lo.toNat := by
  unfold goSlice at h
  split at h
  · rename_i hc
    injection h with h
    exact ⟨hc.1, hc.2.1, hc.2.2, h.symm⟩
  · cases h

theorem goSlice_of_bounds {α : Type} (s : List α) (lo hi : Int) (h0 : 0 ≤ lo) (h1 : lo ≤ hi)
    (h2 : hi ≤ (s.length : Int)) :
    goSlice s lo hi = some ((s.take hi.toNat).drop lo.toNat) := by
  unfold goSlice
  rw [if_pos ⟨h0, h1, h2⟩]

theorem length_take_drop {α : Type} (s : List α) (lo hi : Int) (h0 : 0 ≤ lo) (h1 : lo ≤ hi)
    (h2 : hi ≤ (s.length : Int)) :
    ((s.take hi.toNat).drop lo.toNat).length = (hi - lo).toNat := by
  simp only [List.length_drop, List.length_take]
  omega

theorem getElem?_take_drop {α : Type} {s : List α} {a b j : Nat} {x : α}
    (h : ((s.take b).drop a)[j]? = some x) : s[a + j]? = some x := by
  rw [List.getElem?_drop] at h
  rw [List.getElem?_take] at h
  split at h
  · exact h
  · cases h

theorem drawn_take_drop {α : Type} (p : Pipeline α)
    (hwf : p.data.length = p.originalIndex.length) (lo hi : Nat) :
    Drawn p ((p.data.take hi).drop lo) ((p.originalIndex.take hi).drop lo) := by
  refine ⟨by simp [hwf], ?_⟩
  intro j x k hx hk
  exact ⟨lo + j, getElem?_take_drop hx, getElem?_take_drop hk⟩

/-! ## Every stage draws its result from its input -/

theorem rangeBounds_fst_nonneg {α : Type} (p : Pipeline α) (start endArg : Int) :
    0 ≤ (p.rangeBounds start endArg).1 := by
  simp only [Pipeline.rangeBounds]
  split <;> omega

theorem rangeBounds_snd_le {α : Type} (p : Pipeline α) (start endArg : Int) :
    (p.rangeBounds start endArg).2 ≤ (p.data.length : Int) := by
  simp only [Pipeline.rangeBounds]
  split <;> omega

theorem AtRow_loop_drawn {α : Type} (p : Pipeline α)
    (hwf : p.data.length = p.originalIndex.length) :
    ∀ (idxs : List Int) (r : List α) (ri : List Int), Drawn p r ri →
      ∃ q, Pipeline.AtRow.loop p idxs r ri = some q ∧ Drawn p q.data q.originalIndex := by
  intro idxs
  induction idxs with
  | nil => intro r ri h; exact ⟨⟨r, ri⟩, rfl, h⟩
  | cons idx rest ih =>
    intro r ri h
    unfold Pipeline.AtRow.loop
    by_cases hpos : p.normalizeIndex idx ≥ 0 ∧ p.normalizeIndex idx < (p.data.length : Int)
    · obtain ⟨x, hx, hx2⟩ := goIndex_of_lt p.data _ hpos.1 hpos.2
      obtain ⟨k, hk, hk2⟩ := goIndex_of_lt p.originalIndex _ hpos.1 (by omega)
      simp only [hpos, and_self, if_true, hx, hk]
      exact ih _ _ (h.snoc hx2 hk2)
    · simp only [hpos, if_false]
      exact ih _ _ h

theorem AtRow_drawn {α : Type} (p : Pipeline α) (hwf : p.data.length = p.originalIndex.length)
    (indices : List Int) :
    ∃ q, p.AtRow indices = some q ∧ Drawn p q.data q.originalIndex := by
  unfold Pipeline.AtRow
  split
  · exact ⟨Pipeline.empty, rfl, Drawn.nil p⟩
  · exact AtRow_loop_drawn p hwf indices [] [] (Drawn.nil p)

theorem RowRange_drawn {α : Type} (p : Pipeline α)
    (hwf : p.data.length = p.originalIndex.length) (start endArg : Int) :
    ∃ q, p.RowRange start endArg = some q ∧ Drawn p q.data q.originalIndex := by
  have h0 := rangeBounds_fst_nonneg p start endArg
  have h1 := rangeBounds_snd_le p start endArg
  unfold Pipeline.RowRange
  simp only []
  split
  · exact ⟨Pipeline.empty, rfl, Drawn.nil p⟩
  · rename_i hlt
    rw [goSlice_of_bounds p.data _ _ h0 (by omega) h1,
      goSlice_of_bounds p.originalIndex _ _ h0 (by omega) (by omega)]
    simp only []
    rw [goCopyInt_of_length (length_take_drop p.originalIndex _ _ h0 (by omega) (by omega))]
    exact ⟨_, rfl, drawn_take_drop p hwf _ _⟩

theorem Tail_drawn {α : Type} (p : Pipeline α)
    (hwf : p.data.length = p.originalIndex.length) (n : Int) :
    ∃ q, p.Tail n = some q ∧ Drawn p q.data q.originalIndex := by
  unfold Pipeline.Tail
  split
  · exact ⟨Pipeline.empty, rfl, Drawn.nil p⟩
  · split
    · exact ⟨p, rfl, Drawn.refl p hwf⟩
    · simp only []
      rw [goSlice_of_bounds p.data _ _ (by omega) (by omega) (by omega),
        goSlice_of_bounds p.originalIndex _ _ (by omega) (by omega) (by omega)]
      simp only []
      rw [goCopyInt_of_length (by
        rw [length_take_drop p.originalIndex _ _ (by omega) (by omega) (by omega)]
        omega)]
      rw [← hwf]
      exact ⟨_, rfl, drawn_take_drop p hwf _ _⟩

theorem Limit_drawn {α : Type} (p : Pipeline α)
    (hwf : p.data.length = p.originalIndex.length) (n : Int) (hn : 0 ≤ n) :
    ∃ q, p.Limit n = some q ∧ Drawn p q.data q.originalIndex := by
  unfold Pipeline.Limit
  split
  · exact ⟨p, rfl, Drawn.refl p hwf⟩
  · rw [goSlice_of_bounds p.data _ _ (by omega) (by omega) (by omega),
      goSlice_of_bounds p.originalIndex _ _ (by omega) (by omega) (by omega)]
    exact ⟨_, rfl, drawn_take_drop p hwf _ _⟩

theorem Skip_drawn {α : Type} (p : Pipeline α)
    (hwf : p.data.length = p.originalIndex.length) (n : Int) (hn : 0 ≤ n) :
    ∃ q, p.Skip n = some q ∧ Drawn p q.data q.originalIndex := by
  unfold Pipeline.Skip
  split
  · exact ⟨Pipeline.empty, rfl, Drawn.nil p⟩
  · rw [goSlice_of_bounds p.data _ _ (by omega) (by omega) (by omega),
      goSlice_of_bounds p.originalIndex _ _ (by omega) (by omega) (by omega)]
    simp only []
    rw [← hwf]
    exact ⟨_, rfl, drawn_take_drop p hwf _ _⟩

theorem Slice_forward_drawn {α : Type} (p : Pipeline α) (endPos step : Int) :
    ∀ (fuel : Nat) (i : Int) (r : List α) (ri : List Int) (q : Pipeline α), Drawn p r ri →
      Pipeline.Slice.forward p endPos step fuel i r ri = some q →
      Drawn p q.data q.originalIndex := by
  intro fuel
  induction fuel with
  | zero =>
    intro i r ri q h hq
    unfold Pipeline.Slice.forward at hq
    split at hq
    · cases hq
    · injection hq with hq; subst hq; exact h
  | succ fuel ih =>
    intro i r ri q h hq
    unfold Pipeline.Slice.forward at hq
    split at hq
    · split at hq
      · rename_i x k hx hk
        exact ih _ _ _ q (h.snoc (goIndex_eq_some hx).2 (goIndex_eq_some hk).2) hq
      · cases hq
    · injection hq with hq; subst hq; exact h

theorem Slice_backward_drawn {α : Type} (p : Pipeline α) (startPos step : Int) :
    ∀ (fuel : Nat) (i : Int) (r : List α) (ri : List Int) (q : Pipeline α), Drawn p r ri →
      Pipeline.Slice.backward p startPos step fuel i r ri = some q →
      Drawn p q.data q.originalIndex := by
  intro fuel
  induction fuel with
  | zero =>
    intro i r ri q h hq
    unfold Pipeline.Slice.backward at hq
    split at hq
    · cases hq
    · injection hq with hq; subst hq; exact h
  | succ fuel ih =>
    intro i r ri q h hq
    unfold Pipeline.Slice.backward at hq
    split at hq
    · split at hq
      · rename_i x k hx hk
        exact ih _ _ _ q (h.snoc (goIndex_eq_some hx).2 (goIndex_eq_some hk).2) hq
      · cases hq
    · injection hq with hq; subst hq; exact h

theorem Slice_drawn {α : Type} (p : Pipeline α) (start endArg step : Int) (q : Pipeline α)
    (hq : p.Slice start endArg step = some q) : Drawn p q.data q.originalIndex := by
  unfold Pipeline.Slice at hq
  simp only [] at hq
  by_cases hs : (if step = 0 then 1 else step) > 0
  · rw [if_pos hs] at hq
    exact Slice_forward_drawn p _ _ _ _ _ _ q (Drawn.nil p) hq
  · rw [if_neg hs] at hq
    exact Slice_backward_drawn p _ _ _ _ _ _ q (Drawn.nil p) hq

theorem WhereSome_loop_drawn (p : Pipeline Record)
    (hwf : p.data.length = p.originalIndex.length) (conditions : List ConditionGroup) :
    ∀ (rest : List Record) (i : Nat) (r : List Record) (ri : List Int),
      p.data.drop i = rest → Drawn p r ri →
      ∃ q, Pipeline.WhereSome.loop p conditions rest i r ri = some q ∧
        Drawn p q.data q.originalIndex := by
  intro rest
  induction rest with
  | nil => intro i r ri _ h; exact ⟨⟨r, ri⟩, rfl, h⟩
  | cons item rest ih =>
    intro i r ri hd h
    obtain ⟨hi, hd2⟩ := drop_eq_cons hd
    have hlt : i < p.originalIndex.length := by
      have := (List.getElem?_eq_some.1 hi).1
      omega
    unfold Pipeline.WhereSome.loop
    split
    · rw [goIndex_natCast, List.getElem?_eq_getElem hlt]
      exact ih _ _ _ hd2 (h.snoc hi (List.getElem?_eq_getElem hlt))
    · exact ih _ _ _ hd2 h

theorem WhereEvery_loop_drawn (p : Pipeline Record)
    (hwf : p.data.length = p.originalIndex.length) (conditions : List ConditionGroup) :
    ∀ (rest : List Record) (i : Nat) (r : List Record) (ri : List Int),
      p.data.drop i = rest → Drawn p r ri →
      ∃ q, Pipeline.WhereEvery.loop p conditions rest i r ri = some q ∧
        Drawn p q.data q.originalIndex := by
  intro rest
  induction rest with
  | nil => intro i r ri _ h; exact ⟨⟨r, ri⟩, rfl, h⟩
  | cons item rest ih =>
    intro i r ri hd h
    obtain ⟨hi, hd2⟩ := drop_eq_cons hd
    have hlt : i < p.originalIndex.length := by
      have := (List.getElem?_eq_some.1 hi).1
      omega
    unfold Pipeline.WhereEvery.loop
    split
    · rw [goIndex_natCast, List.getElem?_eq_getElem hlt]
      exact ih _ _ _ hd2 (h.snoc hi (List.getElem?_eq_getElem hlt))
    · exact ih _ _ _ hd2 h

theorem Distinct_loop_drawn (p : Pipeline Record)
    (hwf : p.data.length = p.originalIndex.length) (field : String) :
    ∀ (rest : List Record) (i : Nat) (seen : List Value) (r : List Record) (ri : List Int),
      p.data.drop i = rest → Drawn p r ri →
      ∃ q, Pipeline.Distinct.loop p field rest i seen r ri = some q ∧
        Drawn p q.data q.originalIndex := by
  intro rest
  induction rest with
  | nil => intro i seen r ri _ h; exact ⟨⟨r, ri⟩, rfl, h⟩
  | cons item rest ih =>
    intro i seen r ri hd h
    obtain ⟨hi, hd2⟩ := drop_eq_cons hd
    have hlt : i < p.originalIndex.length := by
      have := (List.getElem?_eq_some.1 hi).1
      omega
    unfold Pipeline.Distinct.loop
    simp only []
    split
    · exact ih _ _ _ _ hd2 h
    · rw [goIndex_natCast, List.getElem?_eq_getElem hlt]
      exact ih _ _ _ _ hd2 (h.snoc hi (List.getElem?_eq_getElem hlt))

theorem WhereSome_drawn (p : Pipeline Record) (hwf : p.data.length = p.originalIndex.length)
    (conditions : List ConditionGroup) :
    ∃ q, p.WhereSome conditions = some q ∧ Drawn p q.data q.originalIndex := by
  unfold Pipeline.WhereSome
  split
  · exact ⟨p, rfl, Drawn.refl p hwf⟩
  · exact WhereSome_loop_drawn p hwf conditions _ 0 [] [] rfl (Drawn.nil p)

theorem WhereEvery_drawn (p : Pipeline Record) (hwf : p.data.length = p.originalIndex.length)
    (conditions : List ConditionGroup) :
    ∃ q, p.WhereEvery conditions = some q ∧ Drawn p q.data q.originalIndex := by
  unfold Pipeline.WhereEvery
  split
  · exact ⟨p, rfl, Drawn.refl p hwf⟩
  · exact WhereEvery_loop_drawn p hwf conditions _ 0 [] [] rfl (Drawn.nil p)

theorem Distinct_drawn (p : Pipeline Record) (hwf : p.data.length = p.originalIndex.length)
    (field : String) :
    ∃ q, p.Distinct field = some q ∧ Drawn p q.data q.originalIndex :=
  Distinct_loop_drawn p hwf field _ 0 [] [] [] rfl (Drawn.nil p)

theorem Stage.run_drawn (s : Stage) (p : Pipeline Record)
    (hwf : p.data.length = p.originalIndex.length) (hn : s.countOk) :
    (∃ q, s.run p = some q ∧ Drawn p q.data q.originalIndex) ∨
      (s.run p = none ∧ s.isSlice = true) := by
  cases s with
  | AtRow indices => exact Or.inl (AtRow_drawn p hwf indices)
  | RowRange start endArg => exact Or.inl (RowRange_drawn p hwf start endArg)
  | Tail n => exact Or.inl (Tail_drawn p hwf n)
  | Slice start endArg step =>
    cases hq : p.Slice start endArg step with
    | none => exact Or.inr ⟨hq, rfl⟩
    | some q => exact Or.inl ⟨q, hq, Slice_drawn p start endArg step q hq⟩
  | WhereSome conditions => exact Or.inl (WhereSome_drawn p hwf conditions)
  | WhereEvery conditions => exact Or.inl (WhereEvery_drawn p hwf conditions)
  | Distinct field => exact Or.inl (Distinct_drawn p hwf field)
  | Limit n => exact Or.inl (Limit_drawn p hwf n hn)
  | Skip n => exact Or.inl (Skip_drawn p hwf n hn)

theorem runStages_drawn (stages : List Stage) :
    ∀ p : Pipeline Record, p.data.length = p.originalIndex.length →
      (∀ s ∈ stages, s.countOk) →
      (∃ q, runStages stages p = some q ∧ Drawn p q.data q.originalIndex) ∨
        (runStages stages p = none ∧ ∃ s ∈ stages, s.isSlice = true) := by
  induction stages with
  | nil => intro p hwf _; exact Or.inl ⟨p, rfl, Drawn.refl p hwf⟩
  | cons s rest ih =>
    intro p hwf hn
    unfold runStages
    rcases Stage.run_drawn s p hwf (hn s (List.mem_cons_self s rest)) with
      ⟨q, hq, hd⟩ | ⟨hq, hs⟩
    · rw [hq]
      rcases ih q hd.1 (fun t ht => hn t (List.mem_cons_of_mem s ht)) with
        ⟨q2, hq2, hd2⟩ | ⟨hq2, t, ht, hts⟩
      · exact Or.inl ⟨q2, hq2, hd.trans hd2⟩
      · exact Or.inr ⟨hq2, t, List.mem_cons_of_mem s ht, hts⟩
    · rw [hq]
      exact Or.inr ⟨rfl, s, List.mem_cons_self s rest, hs⟩

theorem From_length {α : Type} (d : List α) :
    (From d).data.length = (From d).originalIndex.length := by
  simp [From]

theorem From_index {α : Type} {d : List α} {i : Nat} {x : α} {k : Int}
    (hx : (From d).data[i]? = some x) (hk : (From d).originalIndex[i]? = some k) :
    1 ≤ k ∧ k ≤ (d.length : Int) ∧ d[(k - 1).toNat]? = some x := by
  have hx2 : d[i]? = some x := hx
  have hi : i < d.length := (List.getElem?_eq_some.1 hx2).1
  have hk2 : (i : Int) + 1 = k := by
    simpa [From, List.getElem?_map, List.getElem?_range hi] using hk
  subst hk2
  refine ⟨by omega, by omega, ?_⟩
  have : ((i : Int) + 1 - 1).toNat = i := by omega
  rw [this]
  exact hx2

/-! ## The iteration bound of the `Slice` loops

For 64-bit arguments the loops of `Slice` end within the bound given to them:
more iterations do not change the result, so `none` is always a panic. -/

theorem wrapInt_lt (x : Int) : wrapInt x < 2 ^ 63 := by
  unfold wrapInt
  omega

theorem wrapInt_of_inRange (x : Int) (h0 : -2 ^ 63 ≤ x) (h1 : x < 2 ^ 63) : wrapInt x = x := by
  unfold wrapInt
  omega

theorem wrapInt_of_above (x : Int) (h0 : 2 ^ 63 ≤ x) (h1 : x < 2 ^ 64) : wrapInt x < 0 := by
  unfold wrapInt
  omega

theorem goIndex_neg {α : Type} (s : List α) (i : Int) (h : i < 0) : goIndex s i = none := by
  unfold goIndex
  rw [if_pos h]

theorem goIndex_of_ge {α : Type} (s : List α) (i : Int) (h : (s.length : Int) ≤ i) :
    goIndex s i = none := by
  unfold goIndex
  split
  · rfl
  · apply List.getElem?_eq_none
    omega

theorem Slice_forward_fuel {α : Type} (p : Pipeline α) (endPos step : Int)
    (hs : 0 < step) (hs2 : step < 2 ^ 63) (he : endPos ≤ (p.data.length : Int)) :
    ∀ (fuel : Nat) (i : Int) (r : List α) (ri : List Int), i < 2 ^ 63 →
      (i < 0 ∨ ((p.data.length : Int) - i).toNat ≤ fuel) →
      ∀ extra : Nat,
        Pipeline.Slice.forward p endPos step (fuel + extra) i r ri =
          Pipeline.Slice.forward p endPos step fuel i r ri := by
  intro fuel
  induction fuel with
  | zero =>
    intro i r ri _ hm extra
    cases extra with
    | zero => rfl
    | succ extra =>
      rw [Nat.zero_add]
      unfold Pipeline.Slice.forward
      by_cases hlt : i < endPos
      · rw [if_pos hlt, if_pos hlt, goIndex_neg p.data i (by omega)]
      · rw [if_neg hlt, if_neg hlt]
  | succ fuel ih =>
    intro i r ri hi hm extra
    have hadd : fuel + 1 + extra = (fuel + extra) + 1 := by omega
    rw [hadd]
    unfold Pipeline.Slice.forward
    by_cases hlt : i < endPos
    · rw [if_pos hlt, if_pos hlt]
      cases hx : goIndex p.data i with
      | none => rfl
      | some x =>
        cases hk : goIndex p.originalIndex i with
        | none => rfl
        | some k =>
          simp only []
          have h0 := (goIndex_eq_some hx).1
          apply ih _ _ _ (wrapInt_lt _)
          by_cases hw : i + step < 2 ^ 63
          · right
            rw [wrapInt_of_inRange _ (by omega) hw]
            omega
          · left
            exact wrapInt_of_above _ (by omega) (by omega)
    · rw [if_neg hlt, if_neg hlt]

theorem Slice_backward_fuel {α : Type} (p : Pipeline α) (startPos step : Int)
    (hs : step < 0) (hs2 : -2 ^ 63 ≤ step) (h0 : 0 ≤ startPos) :
    ∀ (fuel : Nat) (i : Int) (r : List α) (ri : List Int), i < 2 ^ 63 →
      ((p.data.length : Int) ≤ i ∨ (i + 1 - startPos).toNat ≤ fuel) →
      ∀ extra : Nat,
        Pipeline.Slice.backward p startPos step (fuel + extra) i r ri =
          Pipeline.Slice.backward p startPos step fuel i r ri := by
  intro fuel
  induction fuel with
  | zero =>
    intro i r ri _ hm extra
    cases extra with
    | zero => rfl
    | succ extra =>
      rw [Nat.zero_add]
      unfold Pipeline.Slice.backward
      by_cases hge : i ≥ startPos
      · rw [if_pos hge, if_pos hge, goIndex_of_ge p.data i (by omega)]
      · rw [if_neg hge, if_neg hge]
  | succ fuel ih =>
    intro i r ri hi hm extra
    have hadd : fuel + 1 + extra = (fuel + extra) + 1 := by omega
    rw [hadd]
    unfold Pipeline.Slice.backward
    by_cases hge : i ≥ startPos
    · rw [if_pos hge, if_pos hge]
      cases hx : goIndex p.data i with
      | none => rfl
      | some x =>
        cases hk : goIndex p.originalIndex i with
        | none => rfl
        | some k =>
          simp only []
          have hlt : i < (p.data.length : Int) := by
            by_contra hcon
            rw [goIndex_of_ge p.data i (by omega)] at hx
            cases hx
          apply ih _ _ _ (wrapInt_lt _)
          right
          rw [wrapInt_of_inRange _ (by omega) (by omega)]
          omega
    · rw [if_neg hge, if_neg hge]

/-- A step near the largest `int` makes the counter of the forward loop wrap to
a negative index: `Slice(2, -1, 1<<63 - 1)` over two records panics. -/
theorem Slice_wrap_example :
    (From ["A", "B"]).Slice 2 (-1) (2 ^ 63 - 1) = none := by
  decide

theorem rangeBounds_fst_lt {α : Type} (p : Pipeline α) (start endArg : Int)
    (hstart : start < 2 ^ 63) (hlen : (p.data.length : Int) < 2 ^ 63) :
    (p.rangeBounds start endArg).1 < 2 ^ 63 := by
  simp only [Pipeline.rangeBounds, Pipeline.normalizeIndex]
  split
  · omega
  · split
    · omega
    · split <;> omega

/-- The bound `len(data) + 1` used by `Slice` is enough for 64-bit arguments and
a length that fits a Go `int`: a larger bound gives the same result. -/
theorem Slice_fuel_enough {α : Type} (p : Pipeline α) (start endArg step : Int)
    (hlen : (p.data.length : Int) < 2 ^ 63) (hstart : start < 2 ^ 63)
    (hlo : -2 ^ 63 ≤ step) (hhi : step < 2 ^ 63) (extra : Nat) :
    (if (if step = 0 then 1 else step) > 0 then
        Pipeline.Slice.forward p (p.rangeBounds start endArg).2 (if step = 0 then 1 else step)
          (p.data.length + 1 + extra) (p.rangeBounds start endArg).1 [] []
      else
        Pipeline.Slice.backward p (p.rangeBounds start endArg).1 (if step = 0 then 1 else step)
          (p.data.length + 1 + extra) (wrapInt ((p.rangeBounds start endArg).2 - 1)) [] []) =
      p.Slice start endArg step := by
  have h0 := rangeBounds_fst_nonneg p start endArg
  have h1 := rangeBounds_snd_le p start endArg
  have h2 := rangeBounds_fst_lt p start endArg hstart hlen
  unfold Pipeline.Slice
  simp only []
  by_cases hpos : (if step = 0 then 1 else step) > 0
  · rw [if_pos hpos, if_pos hpos]
    exact Slice_forward_fuel p _ _ hpos (by split <;> omega) h1 _ _ _ _ h2
      (Or.inr (by omega)) extra
  · rw [if_neg hpos, if_neg hpos]
    exact Slice_backward_fuel p _ _ (by split at hpos <;> omega) (by split <;> omega) h0 _ _ _ _
      (wrapInt_lt _) (by
        by_cases hc : (p.data.length : Int) ≤ wrapInt ((p.rangeBounds start endArg).2 - 1)
        · exact Or.inl hc
        · right
          omega) extra

/-! ## Claims -/

/-- C1 (index invariant).  A chain of the stages `AtRow`, `RowRange`, `Tail`,
`Slice`, `WhereSome`, `WhereEvery`, `Distinct`, `Limit(n)` and `Skip(n)` with
`n >= 0`, applied to `From(d)`, returns a pipeline whose `data` and
`originalIndex` have the same length and in which every `originalIndex[i]` lies
in `1..len(d)` with `data[i]` the record `d[originalIndex[i]-1]`.  The chain
returns such a pipeline unless a `Slice` call in it panics. -/
theorem C1_index_invariant (d : List Record) (stages : List Stage)
    (hn : ∀ s ∈ stages, s.countOk) :
    (∃ p, runStages stages (From d) = some p ∧
        p.data.length = p.originalIndex.length ∧
        ∀ (i : Nat) (x : Record) (k : Int),
          p.data[i]? = some x → p.originalIndex[i]? = some k →
            1 ≤ k ∧ k ≤ (d.length : Int) ∧ d[(k - 1).toNat]? = some x) ∨
      (runStages stages (From d) = none ∧ ∃ s ∈ stages, s.isSlice = true) := by
  rcases runStages_drawn stages (From d) (From_length d) hn with ⟨q, hq, hd⟩ | hnone
  · refine Or.inl ⟨q, hq, hd.1, ?_⟩
    intro i x k hx hk
    obtain ⟨j, hj1, hj2⟩ := hd.2 i x k hx hk
    exact From_index hj1 hj2
  · exact Or.inr hnone

/-- C1 at a concrete chain: three records through `AtRow(3, 1)`, `Skip(1)` and
`Limit(5)`. -/
theorem C1_index_invariant_witness :
    (∀ s ∈ [Stage.AtRow [3, 1], Stage.Skip 1, Stage.Limit 5], s.countOk) ∧
    ((∃ p, runStages [Stage.AtRow [3, 1], Stage.Skip 1, Stage.Limit 5]
          (From [[("Name", Value.str "A")], [("Name", Value.str "B")],
            [("Name", Value.str "C")]]) = some p ∧
        p.data.length = p.originalIndex.length ∧
        ∀ (i : Nat) (x : Record) (k : Int),
          p.data[i]? = some x → p.originalIndex[i]? = some k →
            1 ≤ k ∧ k ≤ (([[("Name", Value.str "A")], [("Name", Value.str "B")],
              [("Name", Value.str "C")]] : List Record).length : Int) ∧
            ([[("Name", Value.str "A")], [("Name", Value.str "B")],
              [("Name", Value.str "C")]] : List Record)[(k - 1).toNat]? = some x) ∨
      (runStages [Stage.AtRow [3, 1], Stage.Skip 1, Stage.Limit 5]
          (From [[("Name", Value.str "A")], [("Name", Value.str "B")],
            [("Name", Value.str "C")]]) = none ∧
        ∃ s ∈ [Stage.AtRow [3, 1], Stage.Skip 1, Stage.Limit 5], s.isSlice = true)) :=
  have h : ∀ s ∈ [Stage.AtRow [3, 1], Stage.Skip 1, Stage.Limit 5], s.countOk := by
    intro s hs
    simp only [List.mem_cons, List.mem_singleton, List.not_mem_nil, or_false] at hs
    rcases hs with rfl | rfl | rfl <;> simp [Stage.countOk]
  ⟨h, C1_index_invariant _ _ h⟩

theorem AtRow.position_of_inRange {α : Type} (p : Pipeline α) (idx : Int)
    (h : p.normalizeIndex idx ≥ 0 ∧ p.normalizeIndex idx < (p.data.length : Int)) :
    AtRow.position p.data.length idx = some ((p.normalizeIndex idx).toNat + 1) := by
  unfold Pipeline.normalizeIndex at h ⊢
  unfold AtRow.position
  by_cases h1 : idx > 0
  · rw [if_pos h1] at h
    rw [if_pos h1, if_pos (by omega)]
    congr 1
    omega
  · rw [if_neg h1] at h
    rw [if_neg h1]
    by_cases h2 : idx < 0
    · rw [if_pos h2] at h
      rw [if_pos h2, if_neg (by omega), if_pos (by omega)]
      congr 1
      omega
    · rw [if_neg h2] at h
      omega

theorem AtRow.position_of_not_inRange {α : Type} (p : Pipeline α) (idx : Int)
    (h : ¬ (p.normalizeIndex idx ≥ 0 ∧ p.normalizeIndex idx < (p.data.length : Int))) :
    AtRow.position p.data.length idx = none := by
  unfold Pipeline.normalizeIndex at h
  unfold AtRow.position
  by_cases h1 : idx > 0
  · rw [if_pos h1] at h
    rw [if_neg (by omega), if_neg (by omega)]
  · rw [if_neg h1] at h
    by_cases h2 : idx < 0
    · rw [if_pos h2] at h
      rw [if_neg (by omega), if_neg (by omega)]
    · rw [if_neg (by omega), if_neg (by omega)]

theorem atPosition_succ {α : Type} (l : List α) (k : Nat) : atPosition l (k + 1) = l[k]? := by
  simp [atPosition]

theorem AtRow_loop_eq {α : Type} (p : Pipeline α)
    (hwf : p.data.length = p.originalIndex.length) :
    ∀ (idxs : List Int) (r : List α) (ri : List Int),
      Pipeline.AtRow.loop p idxs r ri =
        some ⟨r ++ (AtRow.reference p idxs).data, ri ++ (AtRow.reference p idxs).originalIndex⟩ := by
  intro idxs
  induction idxs with
  | nil => intro r ri; simp [Pipeline.AtRow.loop, AtRow.reference, Pipeline.atPositions]
  | cons idx rest ih =>
    intro r ri
    unfold Pipeline.AtRow.loop
    by_cases hpos : p.normalizeIndex idx ≥ 0 ∧ p.normalizeIndex idx < (p.data.length : Int)
    · obtain ⟨x, hx, hx2⟩ := goIndex_of_lt p.data _ hpos.1 hpos.2
      obtain ⟨k, hk, hk2⟩ := goIndex_of_lt p.originalIndex _ hpos.1 (by omega)
      simp only [hpos, and_self, if_true, hx, hk]
      rw [ih]
      simp only [AtRow.reference, Pipeline.atPositions, List.filterMap_cons,
        AtRow.position_of_inRange p idx hpos, atPosition_succ, hx2, hk2, List.append_assoc,
        List.singleton_append]
    · simp only [hpos, if_false]
      rw [ih]
      simp only [AtRow.reference, Pipeline.atPositions, List.filterMap_cons,
        AtRow.position_of_not_inRange p idx hpos]

/-- C2 (AtRow equals its reference definition).  On a pipeline whose `data` and
`originalIndex` have the same length, `AtRow(indices...)` returns, in the order
of the indices and with duplicates kept, the record at position `idx` for
`1 <= idx <= n`, at position `n+idx+1` for `-n <= idx <= -1`, and nothing for
`0` or an index out of range, each with the original index stored at that
position; the empty index list gives the empty pipeline. -/
theorem C2_atRow_reference {α : Type} (p : Pipeline α) (indices : List Int)
    (hwf : p.data.length = p.originalIndex.length) :
    p.AtRow indices = some (AtRow.reference p indices) ∧
      p.AtRow [] = some ⟨[], []⟩ := by
  refine ⟨?_, rfl⟩
  unfold Pipeline.AtRow
  split
  · rename_i h
    have : indices = [] := List.eq_nil_of_length_eq_zero h
    subst this
    rfl
  · rw [AtRow_loop_eq p hwf]
    simp

/-- C2 at a concrete pipeline: `AtRow(3, 1, -1, 0, 7, 1)` over three records. -/
theorem C2_atRow_reference_witness :
    (From ["A", "B", "C"]).data.length = (From ["A", "B", "C"]).originalIndex.length ∧
    ((From ["A", "B", "C"]).AtRow [3, 1, -1, 0, 7, 1] =
        some (AtRow.reference (From ["A", "B", "C"]) [3, 1, -1, 0, 7, 1]) ∧
      (From ["A", "B", "C"]).AtRow [] = some ⟨[], []⟩) ∧
    AtRow.reference (From ["A", "B", "C"]) [3, 1, -1, 0, 7, 1] =
      ⟨["C", "A", "C", "A"], [3, 1, 3, 1]⟩ :=
  ⟨by decide, C2_atRow_reference (From ["A", "B", "C"]) [3, 1, -1, 0, 7, 1] (by decide),
    by decide⟩

theorem filterMap_atPosition_range {α : Type} (l : List α) :
    ∀ (c a : Nat), 1 ≤ a → a - 1 + c ≤ l.length →
      (List.range' a c).filterMap (atPosition l) = (l.take (a - 1 + c)).drop (a - 1) := by
  intro c
  induction c with
  | zero =>
    intro a _ _
    simp only [List.range', List.filterMap_nil, Nat.add_zero]
    symm
    apply List.drop_eq_nil_of_le
    simp
  | succ c ih =>
    intro a ha hlen
    have hlt : a - 1 < (l.take (a - 1 + (c + 1))).length := by
      simp only [List.length_take]
      omega
    rw [List.range'_succ, List.filterMap_cons]
    have hlt2 : a - 1 < l.length := by omega
    have hat : atPosition l a = some l[a - 1] := by
      unfold atPosition
      rw [if_neg (by omega)]
      exact List.getElem?_eq_getElem hlt2
    rw [hat]
    simp only []
    rw [ih (a + 1) (by omega) (by omega), List.drop_eq_getElem_cons hlt]
    congr 1
    · simp [List.getElem_take]
    · have h1 : a + 1 - 1 + c = a - 1 + (c + 1) := by omega
      have h2 : a + 1 - 1 = a - 1 + 1 := by omega
      rw [h1, h2]

theorem rangeBounds_of_pos {α : Type} (p : Pipeline α) (start endArg : Int)
    (hs : 1 ≤ start) (he : 1 ≤ endArg) :
    p.rangeBounds start endArg = (start - 1, min (endArg - 1) (p.data.length : Int)) := by
  simp only [Pipeline.rangeBounds, Pipeline.normalizeIndex]
  rw [if_pos (by omega : start > 0), if_neg (by omega : ¬ endArg = -1),
    if_pos (by omega : endArg > 0), if_neg (by omega : ¬ endArg - 1 = -1),
    if_neg (by omega : ¬ start - 1 < 0)]
  congr 1
  split <;> omega

theorem rangeBounds_toEnd {α : Type} (p : Pipeline α) (start : Int) (hs : 1 ≤ start) :
    p.rangeBounds start (-1) = (start - 1, (p.data.length : Int)) := by
  simp only [Pipeline.rangeBounds, Pipeline.normalizeIndex]
  rw [if_pos (by omega : start > 0), if_neg (by omega : ¬ start - 1 < 0)]
  simp

theorem RowRange_eq_atPositions {α : Type} (p : Pipeline α) (start endArg : Int)
    (hwf : p.data.length = p.originalIndex.length) (hs : 1 ≤ start)
    (hb : (p.rangeBounds start endArg).1 = start - 1) :
    p.RowRange start endArg =
      some (p.atPositions (positionsFromTo start (p.rangeBounds start endArg).2)) := by
  have h1 := rangeBounds_snd_le p start endArg
  unfold Pipeline.RowRange
  simp only []
  rw [hb]
  generalize (p.rangeBounds start endArg).2 = e at h1 ⊢
  by_cases hlt : start - 1 ≥ e
  · rw [if_pos hlt]
    have : (e + 1 - start).toNat = 0 := by omega
    simp [Pipeline.atPositions, positionsFromTo, this, Pipeline.empty]
  · rw [if_neg hlt]
    rw [goSlice_of_bounds p.data _ _ (by omega) (by omega) h1,
      goSlice_of_bounds p.originalIndex _ _ (by omega) (by omega) (by omega)]
    simp only []
    rw [goCopyInt_of_length (length_take_drop p.originalIndex _ _ (by omega) (by omega) (by omega))]
    have ha : start.toNat - 1 = (start - 1).toNat := by omega
    have hc : start.toNat - 1 + (e + 1 - start).toNat = e.toNat := by omega
    simp only [Pipeline.atPositions, positionsFromTo]
    rw [filterMap_atPosition_range p.data _ _ (by omega) (by omega),
      filterMap_atPosition_range p.originalIndex _ _ (by omega) (by omega), hc, ha]

theorem length_atPositions_toEnd {α : Type} (l : List α) (start : Int) (hs : 1 ≤ start)
    (hn : start ≤ (l.length : Int)) :
    ((positionsFromTo start (l.length : Int)).filterMap (atPosition l)).length =
      ((l.length : Int) - start + 1).toNat := by
  unfold positionsFromTo
  rw [filterMap_atPosition_range l _ _ (by omega) (by omega)]
  simp only [List.length_drop, List.length_take]
  omega

/-- C3 (RowRange is half-open over 1-based positions).  On a pipeline of length
`n` whose `data` and `originalIndex` have the same length, with `start >= 1`:
`RowRange(start, end)` with `end >= 1` returns the records at the positions
`start..min(end-1, n)` in order, which is the empty pipeline when
`start >= end` or `start > n`; `RowRange(start, -1)` returns the records at the
positions `start..n`, which are `n-start+1` records when `start <= n`; every
record comes with the original index stored at its position. -/
theorem C3_rowRange_halfOpen {α : Type} (p : Pipeline α) (start endArg : Int)
    (hwf : p.data.length = p.originalIndex.length) (hs : 1 ≤ start) :
    (1 ≤ endArg →
      p.RowRange start endArg =
        some (p.atPositions (positionsFromTo start (min (endArg - 1) (p.data.length : Int)))) ∧
      (start ≥ endArg ∨ start > (p.data.length : Int) →
        p.RowRange start endArg = some ⟨[], []⟩)) ∧
    p.RowRange start (-1) =
      some (p.atPositions (positionsFromTo start (p.data.length : Int))) ∧
    (start ≤ (p.data.length : Int) →
      (p.atPositions (positionsFromTo start (p.data.length : Int))).data.length =
          ((p.data.length : Int) - start + 1).toNat ∧
        (p.atPositions (positionsFromTo start (p.data.length : Int))).originalIndex.length =
          ((p.data.length : Int) - start + 1).toNat) := by
  refine ⟨?_, ?_, ?_⟩
  · intro he
    have hb := rangeBounds_of_pos p start endArg hs he
    have hr := RowRange_eq_atPositions p start endArg hwf hs (by rw [hb])
    rw [hb] at hr
    refine ⟨hr, ?_⟩
    intro hempty
    rw [hr]
    have : (min (endArg - 1) (p.data.length : Int) + 1 - start).toNat = 0 := by omega
    simp [Pipeline.atPositions, positionsFromTo, this]
  · have hb := rangeBounds_toEnd p start hs
    have hr := RowRange_eq_atPositions p start (-1) hwf hs (by rw [hb])
    rw [hb] at hr
    exact hr
  · intro hn
    refine ⟨length_atPositions_toEnd p.data start hs hn, ?_⟩
    have := length_atPositions_toEnd p.originalIndex start hs (by omega)
    rw [hwf]
    exact this

/-- C3 at a concrete pipeline: `RowRange(2, 4)` and `RowRange(2, -1)` over five
records. -/
theorem C3_rowRange_halfOpen_witness :
    (From ["A", "B", "C", "D", "E"]).data.length =
      (From ["A", "B", "C", "D", "E"]).originalIndex.length ∧ (1 : Int) ≤ 2 ∧
    (From ["A", "B", "C", "D", "E"]).RowRange 2 4 = some ⟨["B", "C"], [2, 3]⟩ ∧
    (From ["A", "B", "C", "D", "E"]).RowRange 2 (-1) =
      some ⟨["B", "C", "D", "E"], [2, 3, 4, 5]⟩ :=
  have h := C3_rowRange_halfOpen (From ["A", "B", "C", "D", "E"]) 2 4 (by decide) (by decide)
  ⟨by decide, by decide, (h.1 (by decide)).1.trans (by decide), h.2.1.trans (by decide)⟩

/-! ## The grouping pass of `Condition.evaluate` -/

theorem getElem?_split {α : Type} (pre : List α) (f : α) (rest : List α) :
    (pre ++ f :: rest)[pre.length]? = some f := by
  rw [List.getElem?_append_right (Nat.le_refl _)]
  simp

theorem getElem?_split_succ {α : Type} (pre : List α) (f g : α) (rest : List α) :
    (pre ++ f :: g :: rest)[pre.length + 1]? = some g := by
  rw [List.getElem?_append_right (by omega)]
  simp

theorem getElem?_split_pred {α : Type} (pre : List α) (prev f : α) (rest : List α) :
    (pre ++ [prev] ++ f :: rest)[(pre ++ [prev]).length - 1]? = some prev := by
  rw [List.append_assoc, List.length_append, List.length_singleton, Nat.add_sub_cancel,
    List.getElem?_append_right (Nat.le_refl _)]
  simp

theorem check_eq_all (field : String) (item : Record) :
    ∀ groups : List (List filter),
      Condition.evaluate.check field item groups =
        groups.all (fun group => group.any (fun f => f.fn field item)) := by
  intro groups
  induction groups with
  | nil => rfl
  | cons group rest ih =>
    match group with
    | [] => simp [Condition.evaluate.check, ih]
    | [f] =>
      simp only [Condition.evaluate.check, ih, List.all_cons, List.any_cons, List.any_nil,
        Bool.or_false]
      cases f.fn field item <;> simp
    | f :: g :: tl =>
      simp only [Condition.evaluate.check, ih, List.all_cons]
      cases (f :: g :: tl).any (fun f => f.fn field item) <;> simp

theorem pop_of_not (filters : List filter) (i : Nat) (groups : List (List filter))
    (cur : List filter) (hnopop : ¬ (cur.length = 0 ∧ i > 0)) :
    Condition.evaluate.pop filters i groups cur = some (groups, cur) := by
  unfold Condition.evaluate.pop
  rw [if_neg hnopop]

theorem pop_of_single (pre : List filter) (prev f : filter) (rest : List filter)
    (g0 : List (List filter)) :
    Condition.evaluate.pop (pre ++ [prev] ++ f :: rest) (pre ++ [prev]).length
      (g0 ++ [[prev]]) [] = some (g0, [prev]) := by
  unfold Condition.evaluate.pop
  rw [if_pos ⟨rfl, by simp⟩, getElem?_split_pred]
  cases g0 with
  | nil => rfl
  | cons hd tl =>
    simp only [List.cons_append, List.nil_append]
    rw [← List.cons_append, List.dropLast_concat]

theorem step_or_last (pre : List filter) (f : filter) (hf : f.orMode = true)
    (groups : List (List filter)) (cur : List filter)
    (hnopop : ¬ (cur.length = 0 ∧ pre.length > 0)) :
    Condition.evaluate.step (pre ++ [f]) pre.length groups cur =
      some (groups ++ [cur ++ [f]], []) := by
  unfold Condition.evaluate.step
  simp only [getElem?_split, hf, if_true, pop_of_not _ _ _ _ hnopop]
  simp

theorem step_or_next (pre : List filter) (f g : filter) (tl : List filter)
    (hf : f.orMode = true) (groups : List (List filter)) (cur : List filter)
    (hnopop : ¬ (cur.length = 0 ∧ pre.length > 0)) :
    Condition.evaluate.step (pre ++ f :: g :: tl) pre.length groups cur =
      if g.orMode then some (groups, cur ++ [f]) else some (groups ++ [cur ++ [f]], []) := by
  unfold Condition.evaluate.step
  have hne : ¬ (pre.length = (pre ++ f :: g :: tl).length - 1) := by
    simp only [List.length_append, List.length_cons]
    omega
  simp only [getElem?_split, hf, if_true, pop_of_not _ _ _ _ hnopop, hne, if_false,
    getElem?_split_succ]
  cases g.orMode <;> simp

theorem step_notOr (pre : List filter) (f : filter) (rest : List filter)
    (hf : f.orMode = false) (groups : List (List filter)) :
    Condition.evaluate.step (pre ++ f :: rest) pre.length groups [] =
      some (groups ++ [[f]], []) := by
  unfold Condition.evaluate.step
  simp only [getElem?_split, hf, Bool.false_eq_true, if_false, List.length_nil, if_true]

theorem step_pop_last (pre : List filter) (prev f : filter) (hf : f.orMode = true)
    (g0 : List (List filter)) :
    Condition.evaluate.step (pre ++ [prev] ++ [f]) (pre ++ [prev]).length (g0 ++ [[prev]]) [] =
      some (g0 ++ [[prev, f]], []) := by
  unfold Condition.evaluate.step
  simp only [getElem?_split, hf, if_true, pop_of_single]
  simp

theorem step_pop_next (pre : List filter) (prev f g : filter) (tl : List filter)
    (hf : f.orMode = true) (g0 : List (List filter)) :
    Condition.evaluate.step (pre ++ [prev] ++ f :: g :: tl) (pre ++ [prev]).length
        (g0 ++ [[prev]]) [] =
      if g.orMode then some (g0, [prev, f]) else some (g0 ++ [[prev, f]], []) := by
  unfold Condition.evaluate.step
  have hne : ¬ ((pre ++ [prev]).length = (pre ++ [prev] ++ f :: g :: tl).length - 1) := by
    simp only [List.length_append, List.length_cons]
    omega
  simp only [getElem?_split, hf, if_true, pop_of_single, hne, if_false, getElem?_split_succ]
  cases g.orMode <;> simp

theorem grouping_of_step {filters : List filter} {i left : Nat}
    {groups g : List (List filter)} {cur c : List filter}
    (h : Condition.evaluate.step filters i groups cur = some (g, c)) :
    Condition.evaluate.grouping filters i (left + 1) groups cur =
      Condition.evaluate.grouping filters (i + 1) left g c := by
  conv => lhs; unfold Condition.evaluate.grouping
  rw [h]

theorem grouping_zero (filters : List filter) (i : Nat) (groups : List (List filter))
    (cur : List filter) : Condition.evaluate.grouping filters i 0 groups cur = some groups := by
  unfold Condition.evaluate.grouping
  rfl

theorem groupsFrom_or (cur : List filter) (f : filter) (rest : List filter)
    (hf : f.orMode = true) : groupsFrom cur (f :: rest) = groupsFrom (cur ++ [f]) rest := by
  simp [groupsFrom, hf]

theorem groupsFrom_notOr (cur : List filter) (f : filter) (rest : List filter)
    (hf : f.orMode = false) : groupsFrom cur (f :: rest) = cur :: groupsFrom [f] rest := by
  simp [groupsFrom, hf]

/-- The state of the grouping loop before index `len(pre)`, in its three shapes:
inside a run of `orMode` filters, right after a filter without the flag, and
right after a closed group. -/
theorem grouping_spec : ∀ (suf pre : List filter),
    (∀ (groups : List (List filter)) (cur : List filter), cur ≠ [] →
      suf.head?.map filter.orMode = some true →
      Condition.evaluate.grouping (pre ++ suf) pre.length suf.length groups cur =
        some (groups ++ groupsFrom cur suf)) ∧
    (∀ (g0 : List (List filter)) (pre0 : List filter) (prev : filter), pre = pre0 ++ [prev] →
      Condition.evaluate.grouping (pre ++ suf) pre.length suf.length (g0 ++ [[prev]]) [] =
        some (g0 ++ groupsFrom [prev] suf)) ∧
    (∀ (groups : List (List filter)), suf.head?.map filter.orMode ≠ some true →
      Condition.evaluate.grouping (pre ++ suf) pre.length suf.length groups [] =
        some (groups ++ splitGroups suf)) := by
  intro suf
  induction suf with
  | nil =>
    intro pre
    refine ⟨?_, ?_, ?_⟩
    · intro groups cur _ h
      simp at h
    · intro g0 pre0 prev _
      simp [grouping_zero, groupsFrom]
    · intro groups _
      simp [grouping_zero, splitGroups]
  | cons f rest ih =>
    intro pre
    have hassoc : pre ++ f :: rest = (pre ++ [f]) ++ rest := by simp
    have hlen : (pre ++ [f]).length = pre.length + 1 := by simp
    obtain ⟨ihA, ihB, ihC⟩ := ih (pre ++ [f])
    rw [← hassoc, hlen] at ihA ihB ihC
    refine ⟨?_, ?_, ?_⟩
    · intro groups cur hcur hhead
      have hf : f.orMode = true := by simpa using hhead
      have hnopop : ¬ (cur.length = 0 ∧ pre.length > 0) := by
        intro h
        exact hcur (List.eq_nil_of_length_eq_zero h.1)
      rw [groupsFrom_or cur f rest hf]
      cases rest with
      | nil =>
        rw [List.length_singleton, grouping_of_step (step_or_last pre f hf groups cur hnopop),
          grouping_zero]
        simp [groupsFrom]
      | cons g tl =>
        rw [List.length_cons]
        by_cases hg : g.orMode = true
        · rw [grouping_of_step ((step_or_next pre f g tl hf groups cur hnopop).trans (if_pos hg))]
          exact ihA groups (cur ++ [f]) (by simp) (by simp [hg])
        · rw [grouping_of_step ((step_or_next pre f g tl hf groups cur hnopop).trans (if_neg hg))]
          rw [ihC (groups ++ [cur ++ [f]]) (by simp [hg])]
          simp [splitGroups, groupsFrom_notOr _ g tl (by simpa using hg)]
    · intro g0 pre0 prev hpre
      subst hpre
      by_cases hf : f.orMode = true
      · rw [groupsFrom_or [prev] f rest hf]
        cases rest with
        | nil =>
          rw [List.length_singleton, grouping_of_step (step_pop_last pre0 prev f hf g0),
            grouping_zero]
          simp [groupsFrom]
        | cons g tl =>
          rw [List.length_cons]
          by_cases hg : g.orMode = true
          · rw [grouping_of_step ((step_pop_next pre0 prev f g tl hf g0).trans (if_pos hg))]
            exact ihA g0 [prev, f] (by simp) (by simp [hg])
          · rw [grouping_of_step ((step_pop_next pre0 prev f g tl hf g0).trans (if_neg hg))]
            rw [ihC (g0 ++ [[prev, f]]) (by simp [hg])]
            simp [splitGroups, groupsFrom_notOr _ g tl (by simpa using hg)]
      · have hf2 : f.orMode = false := by simpa using hf
        rw [List.length_cons, grouping_of_step (step_notOr _ f rest hf2 _)]
        rw [ihB (g0 ++ [[prev]]) (pre0 ++ [prev]) f rfl, groupsFrom_notOr _ f rest hf2]
        simp
    · intro groups hhead
      have hf2 : f.orMode = false := by simpa using hhead
      rw [List.length_cons, grouping_of_step (step_notOr _ f rest hf2 _)]
      rw [ihB groups pre f rfl]
      simp [splitGroups]

theorem grouping_start (filters : List filter) :
    Condition.evaluate.grouping filters 0 filters.length [] [] = some (splitGroups filters) := by
  cases filters with
  | nil => simp [grouping_zero, splitGroups]
  | cons f rest =>
    by_cases hf : f.orMode = true
    · have hnopop : ¬ (([] : List filter).length = 0 ∧ ([] : List filter).length > 0) := by simp
      cases rest with
      | nil =>
        have h := @grouping_of_step _ _ 0 _ _ _ _ (step_or_last [] f hf [] [] hnopop)
        simp only [List.nil_append, List.length_nil, Nat.zero_add] at h
        rw [List.length_singleton, h, grouping_zero]
        simp [splitGroups, groupsFrom]
      | cons g tl =>
        obtain ⟨ihA, _, ihC⟩ := grouping_spec (g :: tl) [f]
        simp only [List.singleton_append, List.length_singleton, List.length_cons,
          List.length_nil, Nat.zero_add] at ihA ihC
        by_cases hg : g.orMode = true
        · have h := @grouping_of_step _ _ (tl.length + 1) _ _ _ _
            ((step_or_next [] f g tl hf [] [] hnopop).trans (if_pos hg))
          simp only [List.nil_append, List.length_nil, Nat.zero_add] at h
          rw [List.length_cons, List.length_cons, h, ihA [] [f] (by simp) (by simp [hg])]
          simp [splitGroups]
        · have h := @grouping_of_step _ _ (tl.length + 1) _ _ _ _
            ((step_or_next [] f g tl hf [] [] hnopop).trans (if_neg hg))
          simp only [List.nil_append, List.length_nil, Nat.zero_add] at h
          rw [List.length_cons, List.length_cons, h, ihC [[f]] (by simp [hg])]
          simp [splitGroups, groupsFrom_notOr _ g tl (by simpa using hg)]
    · have h := (grouping_spec (f :: rest) []).2.2 [] (by simpa using hf)
      simpa using h

theorem evaluate_eq (c : Condition) (item : Record) :
    c.evaluate item = some (andOfOrGroups c.field item c.filters) := by
  unfold Condition.evaluate
  split
  · rename_i h
    rw [List.eq_nil_of_length_eq_zero h]
    rfl
  · rw [grouping_start]
    simp only [check_eq_all]
    rfl

/-- C5 (evaluate is an AND of OR-groups).  For every list of filters with any
`orMode` flags and every record, `Condition.evaluate` returns true exactly
when, after the list is split before every filter at an index above `0` whose
flag is false, every group has a filter that is true on the record; with no
filters it returns true. -/
theorem C5_evaluate_and_of_or_groups (c : Condition) (item : Record) :
    c.evaluate item =
        some ((splitGroups c.filters).all
          (fun group => group.any (fun f => f.fn c.field item))) ∧
      (c.filters = [] → c.evaluate item = some true) := by
  refine ⟨evaluate_eq c item, ?_⟩
  intro h
  rw [evaluate_eq, h]
  rfl

/-! ## Executing a condition -/

theorem compareEqual_eq (a b : Value) : compareEqual a b = decide (a = b) := by
  unfold compareEqual deepEqual
  split <;> rfl

theorem execute_loop_eq (c : Condition) :
    ∀ (rest result : List Record),
      Condition.execute.loop c rest result =
        some (result ++ rest.filter (fun item => andOfOrGroups c.field item c.filters)) := by
  intro rest
  induction rest with
  | nil => intro result; simp [Condition.execute.loop]
  | cons item rest ih =>
    intro result
    unfold Condition.execute.loop
    rw [evaluate_eq]
    cases h : andOfOrGroups c.field item c.filters
    · simp only []
      rw [ih, List.filter_cons_of_neg (by simp [h])]
    · simp only []
      rw [ih, List.filter_cons_of_pos (by simp [h])]
      simp

theorem execute_eq (c : Condition) :
    c.execute =
      some (c.pipeline.data.filter (fun item => andOfOrGroups c.field item c.filters)) := by
  unfold Condition.execute
  split
  · rename_i h
    rw [List.eq_nil_of_length_eq_zero h]
    simp [andOfOrGroups, splitGroups]
  · rw [execute_loop_eq]
    simp

/-- C6 (two-way OR on one field is a union).  For every input list and values
`a`, `b`, `From(data).Where(f).Equals(a).Or(f).Equals(b).Collect()` is the
sub-list of the records whose field `f` equals `a` or equals `b`, in the
original order. -/
theorem C6_or_union (data : List Record) (f : String) (a b : Value) :
    (((((From data).Where f).Equals a).Or f).Equals b).Collect =
      some (data.filter
        (fun r => decide (getFieldValue r f = a ∨ getFieldValue r f = b))) := by
  unfold Condition.Collect
  rw [execute_eq]
  simp [Pipeline.Where, Condition.Equals, Condition.Or, Condition.appendFilter, andOfOrGroups,
    splitGroups, groupsFrom, From, compareEqual_eq]

theorem Where_loop_some (c : Condition)
    (hwf : c.pipeline.data.length = c.pipeline.originalIndex.length) (filtered : List Record) :
    ∀ (rest : List Record) (i : Nat) (indices : List Int), c.pipeline.data.drop i = rest →
      ∃ ix, Condition.Where.loop c filtered rest i indices = some ix := by
  intro rest
  induction rest with
  | nil => intro i indices _; exact ⟨indices, rfl⟩
  | cons item rest ih =>
    intro i indices hd
    obtain ⟨hi, hd2⟩ := drop_eq_cons hd
    have hlt : i < c.pipeline.originalIndex.length := by
      have := (List.getElem?_eq_some.1 hi).1
      omega
    unfold Condition.Where.loop
    split
    · rw [goIndex_natCast, List.getElem?_eq_getElem hlt]
      exact ih _ _ hd2
    · exact ih _ _ hd2

theorem Where_eq (c : Condition)
    (hwf : c.pipeline.data.length = c.pipeline.originalIndex.length) (field : String) :
    ∃ ix, c.Where field =
      some ⟨⟨c.pipeline.data.filter (fun item => andOfOrGroups c.field item c.filters), ix⟩,
        field, [], false⟩ := by
  obtain ⟨ix, hix⟩ := Where_loop_some c hwf
    (c.pipeline.data.filter (fun item => andOfOrGroups c.field item c.filters))
    c.pipeline.data 0 [] rfl
  refine ⟨ix, ?_⟩
  unfold Condition.Where
  rw [execute_eq]
  simp only []
  rw [hix]

/-- What the code returns for a chain of three OR-joined filters on one field:
`Or` clears the flag of the filter before it, so the first filter is a group
of its own and the record must satisfy it as well as one of the other two. -/
theorem three_way_or_collect (data : List Record) (f : String) (a b c : Value) :
    (((((((From data).Where f).Equals a).Or f).Equals b).Or f).Equals c).Collect =
      some (data.filter (fun r => decide (getFieldValue r f = a ∧
        (getFieldValue r f = b ∨ getFieldValue r f = c)))) := by
  unfold Condition.Collect
  rw [execute_eq]
  simp [Pipeline.Where, Condition.Equals, Condition.Or, Condition.appendFilter, andOfOrGroups,
    splitGroups, groupsFrom, From, compareEqual_eq]

/-- C7 (a chain of three OR-joined filters), at the failing input: over the one
record with `City = "NYC"`,
`Where("City").Equals("NYC").Or("City").Equals("LA").Or("City").Equals("SF")`
collects nothing, although the field of the record equals the first value. -/
theorem C7_three_way_or_failing :
    (((((((From [[("City", Value.str "NYC")]]).Where "City").Equals (Value.str "NYC")).Or
        "City").Equals (Value.str "LA")).Or "City").Equals (Value.str "SF")).Collect = some [] ∧
    ([[("City", Value.str "NYC")]] : List Record).filter
        (fun r => decide (getFieldValue r "City" = Value.str "NYC" ∨
          getFieldValue r "City" = Value.str "LA" ∨
          getFieldValue r "City" = Value.str "SF")) =
      [[("City", Value.str "NYC")]] := by
  constructor
  · rw [three_way_or_collect]
    decide
  · decide

/-- What the code returns for `Where(f1).GreaterThan(v).And(f2).IsTrue()`: the
closure of `GreaterThan` reads the field of the condition when it is called,
which is `f2` by then, so both filters test `f2`. -/
theorem inline_and_collect (data : List Record) (f1 f2 : String) (v : Value) :
    (((((From data).Where f1).GreaterThan v).And f2).IsTrue).Collect =
      some (data.filter (fun r => compareNumeric (getFieldValue r f2) v ">" &&
        decide (getFieldValue r f2 = Value.bool true))) := by
  unfold Condition.Collect
  rw [execute_eq]
  simp [Pipeline.Where, Condition.GreaterThan, Condition.IsTrue, Condition.Equals,
    Condition.And, Condition.appendFilter, andOfOrGroups, splitGroups, groupsFrom, From,
    compareEqual_eq]

/-- C8 (`And` switches the field only for later filters), at the failing input:
over the one record with `Age = 35` and `Active = true`,
`Where("Age").GreaterThan(30).And("Active").IsTrue()` collects nothing, although
the record has `Age > 30` and `Active == true`. -/
theorem C8_inline_and_failing :
    (((((From [[("Age", Value.int 35), ("Active", Value.bool true)]]).Where
        "Age").GreaterThan (Value.int 30)).And "Active").IsTrue).Collect = some [] ∧
    ([[("Age", Value.int 35), ("Active", Value.bool true)]] : List Record).filter
        (fun r => compareNumeric (getFieldValue r "Age") (Value.int 30) ">" &&
          decide (getFieldValue r "Active" = Value.bool true)) =
      [[("Age", Value.int 35), ("Active", Value.bool true)]] := by
  constructor
  · rw [inline_and_collect]
    decide
  · decide

/-- What the code returns for `Where(a).Op1.Where(b).Op2.Or(c).Op3`: the first
operator is executed on field `a` by the second `Where`; the closure of `Op2`
reads the field of the condition when it is called, which is `c` by then. -/
theorem mixed_chain_collect (data : List Record) (a b c : String)
    (op1 op2 op3 : String → Record → Bool) :
    ((((From data).Where a).appendFilter op1).Where b).bind
        (fun c2 => (((c2.appendFilter op2).Or c).appendFilter op3).Collect) =
      some (data.filter (fun r => op1 a r && (op2 c r || op3 c r))) := by
  obtain ⟨ix, hix⟩ := Where_eq (((From data).Where a).appendFilter op1) (From_length data) b
  rw [hix]
  simp only [Option.bind, Condition.Collect]
  rw [execute_eq]
  simp [Pipeline.Where, Condition.Or, Condition.appendFilter, andOfOrGroups,
    splitGroups, groupsFrom, From, List.filter_filter, Bool.and_comm]

/-- C9 (mixed AND/OR chain over different fields), at the failing input: over the
one record with `A = 1`, `B = 1`, `C = 0`,
`Where("A").Equals(1).Where("B").Equals(1).Or("C").Equals(5)` collects nothing,
although the record has `A == 1` and `B == 1`. -/
theorem C9_mixed_chain_failing :
    ((((From [[("A", Value.int 1), ("B", Value.int 1), ("C", Value.int 0)]]).Where
          "A").Equals (Value.int 1)).Where "B").bind
        (fun c2 => (((c2.Equals (Value.int 1)).Or "C").Equals (Value.int 5)).Collect)
      = some [] ∧
    ([[("A", Value.int 1), ("B", Value.int 1), ("C", Value.int 0)]] : List Record).filter
        (fun r => compareEqual (getFieldValue r "A") (Value.int 1) &&
          (compareEqual (getFieldValue r "B") (Value.int 1) ||
            compareEqual (getFieldValue r "C") (Value.int 5))) =
      [[("A", Value.int 1), ("B", Value.int 1), ("C", Value.int 0)]] := by
  constructor
  · decide
  · decide

/-- C10 (chained `Where` calls are a conjunction that keeps the order).  For
every input list and all operators `P`, `Q` (the closures they append),
`From(data).Where(a).P.Where(b).Q.Collect()` is the sub-list of `data`, in the
original order, of the records that satisfy `P` on field `a` and `Q` on field
`b`; a condition with no filters collects its data unchanged. -/
theorem C10_chained_where (data : List Record) (a b : String)
    (P Q : String → Record → Bool) :
    ((((From data).Where a).appendFilter P).Where b).bind
        (fun c2 => (c2.appendFilter Q).Collect) =
      some (data.filter (fun r => P a r && Q b r)) ∧
    ∀ (p : Pipeline Record) (field : String) (orMode : Bool),
      Condition.Collect ⟨p, field, [], orMode⟩ = some p.data := by
  constructor
  · obtain ⟨ix, hix⟩ := Where_eq (((From data).Where a).appendFilter P) (From_length data) b
    rw [hix]
    simp only [Option.bind, Condition.Collect]
    rw [execute_eq]
    simp [Pipeline.Where, Condition.appendFilter, andOfOrGroups,
      splitGroups, groupsFrom, From, List.filter_filter, Bool.and_comm]
  · intro p field orMode
    rfl

/-- C4 (round trip via positions), at the failing input: over two equal records
with `Age = 35`, `Where("Age").GreaterThan(30).Which()` is `[1]`, because
`Positions` deletes a record from its map at the first match, so
`AtRow(1).Collect()` holds one record while `Collect()` of the condition
holds two. -/
theorem C4_round_trip_failing :
    (((From [[("Age", Value.int 35)], [("Age", Value.int 35)]]).Where "Age").GreaterThan
        (Value.int 30)).Which = some [1] ∧
    ((From [[("Age", Value.int 35)], [("Age", Value.int 35)]]).AtRow [1]).map
        Pipeline.Collect = some [[("Age", Value.int 35)]] ∧
    (((From [[("Age", Value.int 35)], [("Age", Value.int 35)]]).Where "Age").GreaterThan
        (Value.int 30)).Collect =
      some [[("Age", Value.int 35)], [("Age", Value.int 35)]] := by
  refine ⟨by decide, by decide, by decide⟩

/-! ## The comparison of values -/

theorem lexLess_irrefl : ∀ l : List Nat, lexLess l l = false
  | [] => rfl
  | a :: l => by simp [lexLess, lexLess_irrefl l]

theorem lexLess_asymm : ∀ l m : List Nat, lexLess l m = true → lexLess m l = false
  | _, [], h => by simp [lexLess] at h
  | [], _ :: _, _ => by simp [lexLess]
  | a :: l, b :: m, h => by
    simp only [lexLess] at h ⊢
    by_cases hab : a < b
    · rw [if_neg (by omega), if_pos hab]
    · rw [if_neg hab] at h
      by_cases hba : b < a
      · rw [if_pos hba] at h
        cases h
      · rw [if_neg hba] at h
        rw [if_neg hba, if_neg hab]
        exact lexLess_asymm l m h

theorem lexLess_negTrans : ∀ l m k : List Nat,
    lexLess m l = false → lexLess k m = false → lexLess k l = false
  | [], _, k, _, _ => by cases k <;> rfl
  | a :: l, [], k, h, _ => by simp [lexLess] at h
  | a :: l, b :: m, [], _, h => by simp [lexLess] at h
  | a :: l, b :: m, c :: k, h1, h2 => by
    simp only [lexLess] at h1 h2 ⊢
    by_cases hba : b < a
    · rw [if_pos hba] at h1
      cases h1
    · rw [if_neg hba] at h1
      by_cases hcb : c < b
      · rw [if_pos hcb] at h2
        cases h2
      · rw [if_neg hcb] at h2
        by_cases hab : a < b
        · rw [if_neg (by omega), if_pos (by omega)]
        · rw [if_neg hab] at h1
          by_cases hbc : b < c
          · rw [if_neg (by omega), if_pos (by omega)]
          · rw [if_neg hbc] at h2
            rw [if_neg (by omega), if_neg (by omega)]
            exact lexLess_negTrans l m k h1 h2

theorem stringLess_asymm (s t : String) (h : stringLess s t = true) : stringLess t s = false :=
  lexLess_asymm _ _ h

theorem stringLess_negTrans (s t u : String) (h1 : stringLess t s = false)
    (h2 : stringLess u t = false) : stringLess u s = false :=
  lexLess_negTrans _ _ _ h1 h2

theorem compareValues_nil_left (x : Value) (hx : x ≠ Value.nil) :
    compareValues Value.nil x = -1 := by
  unfold compareValues
  simp [hx]

theorem compareValues_nil_right (x : Value) (hx : x ≠ Value.nil) :
    compareValues x Value.nil = 1 := by
  unfold compareValues
  simp [hx]

theorem compareValues_of_lt (a b : Value) (ha : a ≠ Value.nil) (hb : b ≠ Value.nil)
    (h : toFloat64 a < toFloat64 b) : compareValues a b = -1 := by
  unfold compareValues
  simp [ha, hb, h]

theorem compareValues_of_gt (a b : Value) (ha : a ≠ Value.nil) (hb : b ≠ Value.nil)
    (h : toFloat64 b < toFloat64 a) : compareValues a b = 1 := by
  unfold compareValues
  simp [ha, hb, h, not_lt_of_lt h]

theorem compareValues_str (sa sb : String) :
    compareValues (Value.str sa) (Value.str sb) =
      if stringLess sa sb then -1 else if stringLess sb sa then 1 else 0 := by
  unfold compareValues
  simp [toFloat64]

theorem compareValues_of_eq_notStr (a b : Value) (ha : a ≠ Value.nil) (hb : b ≠ Value.nil)
    (h : toFloat64 a = toFloat64 b) (hs : ¬ (a.isString = true ∧ b.isString = true)) :
    compareValues a b = 0 := by
  unfold compareValues
  cases a <;> cases b <;> simp_all [toFloat64, Value.isString]

theorem compareValues_antisymm (a b : Value) : compareValues a b = -compareValues b a := by
  by_cases ha : a = Value.nil
  · by_cases hb : b = Value.nil
    · subst ha; subst hb; rfl
    · subst ha
      rw [compareValues_nil_left b hb, compareValues_nil_right b hb]
  · by_cases hb : b = Value.nil
    · subst hb
      rw [compareValues_nil_left a ha, compareValues_nil_right a ha]
      rfl
    · rcases lt_trichotomy (toFloat64 a) (toFloat64 b) with h | h | h
      · rw [compareValues_of_lt a b ha hb h, compareValues_of_gt b a hb ha h]
      · by_cases hs : a.isString = true ∧ b.isString = true
        · cases a <;> cases b <;> simp [Value.isString] at hs
          rename_i sa sb
          rw [compareValues_str, compareValues_str]
          cases h1 : stringLess sa sb
          · cases h2 : stringLess sb sa <;> simp
          · rw [stringLess_asymm sa sb h1]
            simp
        · rw [compareValues_of_eq_notStr a b ha hb h hs,
            compareValues_of_eq_notStr b a hb ha h.symm (fun hc => hs ⟨hc.2, hc.1⟩)]
          rfl
      · rw [compareValues_of_gt a b ha hb h, compareValues_of_lt b a hb ha h]
        rfl

theorem compareValues_str_le (sa sb : String) :
    compareValues (Value.str sa) (Value.str sb) ≤ 0 ↔ stringLess sb sa = false := by
  rw [compareValues_str]
  cases h1 : stringLess sa sb
  · cases h2 : stringLess sb sa <;> simp
  · rw [stringLess_asymm sa sb h1]
    simp

theorem compareValues_le_float (a b : Value) (ha : a ≠ Value.nil) (hb : b ≠ Value.nil)
    (h : compareValues a b ≤ 0) : toFloat64 a ≤ toFloat64 b := by
  by_contra hlt
  rw [compareValues_of_gt a b ha hb (lt_of_not_le hlt)] at h
  omega

theorem compareValues_trans (a b c : Value)
    (hex : ¬ (a.isString = true ∧ c.isString = true ∧ b.isString = false ∧
      b ≠ Value.nil ∧ toFloat64 b = 0))
    (hab : compareValues a b ≤ 0) (hbc : compareValues b c ≤ 0) : compareValues a c ≤ 0 := by
  by_cases ha : a = Value.nil
  · subst ha
    by_cases hc : c = Value.nil
    · subst hc; decide
    · rw [compareValues_nil_left c hc]; decide
  · by_cases hb : b = Value.nil
    · subst hb
      rw [compareValues_nil_right a ha] at hab
      omega
    · by_cases hc : c = Value.nil
      · subst hc
        rw [compareValues_nil_right b hb] at hbc
        omega
      · have h1 := compareValues_le_float a b ha hb hab
        have h2 := compareValues_le_float b c hb hc hbc
        rcases lt_or_eq_of_le (le_trans h1 h2) with hlt | heq
        · rw [compareValues_of_lt a c ha hc hlt]; decide
        · have hab2 : toFloat64 a = toFloat64 b := le_antisymm h1 (by rw [heq]; exact h2)
          by_cases hs : a.isString = true ∧ c.isString = true
          · cases a <;> cases c <;> simp [Value.isString] at hs
            rename_i sa sc
            cases b with
            | str sb =>
              rw [compareValues_str_le] at hab hbc ⊢
              exact stringLess_negTrans sa sb sc hab hbc
            | nil => exact absurd rfl hb
            | int n =>
              exact absurd ⟨rfl, rfl, rfl, hb, by rw [← hab2]; rfl⟩ hex
            | float q =>
              exact absurd ⟨rfl, rfl, rfl, hb, by rw [← hab2]; rfl⟩ hex
            | bool v =>
              exact absurd ⟨rfl, rfl, rfl, hb, rfl⟩ hex
            | complex t =>
              exact absurd ⟨rfl, rfl, rfl, hb, rfl⟩ hex
          · rw [compareValues_of_eq_notStr a c ha hc heq hs]

/-- On two values of `Value` the comparison of values of any kind is
`compareValues`. -/
theorem compareValues_val (x y : Value) :
    AnyValue.compareValues (AnyValue.val x) (AnyValue.val y) = compareValues x y := by
  unfold AnyValue.compareValues compareValues
  cases x <;> cases y <;> simp [AnyValue.toFloat64, Float64.lt]

theorem compareValues_any_nil_left (x : AnyValue) :
    AnyValue.compareValues (AnyValue.val Value.nil) x =
      if x = AnyValue.val Value.nil then 0 else -1 := by
  unfold AnyValue.compareValues
  by_cases h : x = AnyValue.val Value.nil <;> simp [h]

theorem compareValues_any_nil_right (x : AnyValue) :
    AnyValue.compareValues x (AnyValue.val Value.nil) =
      if x = AnyValue.val Value.nil then 0 else 1 := by
  unfold AnyValue.compareValues
  by_cases h : x = AnyValue.val Value.nil <;> simp [h]

/-- NaN compares equal to every value but `nil`. -/
theorem compareValues_nan_left (x : AnyValue) :
    AnyValue.compareValues AnyValue.nan x = if x = AnyValue.val Value.nil then 1 else 0 := by
  unfold AnyValue.compareValues
  rcases x with v | _ | _ | _
  · cases v <;> simp [AnyValue.toFloat64, Float64.lt]
  · simp [AnyValue.toFloat64, Float64.lt]
  · simp [AnyValue.toFloat64, Float64.lt]
  · simp [AnyValue.toFloat64, Float64.lt]

theorem compareValues_nan_right (x : AnyValue) :
    AnyValue.compareValues x AnyValue.nan = if x = AnyValue.val Value.nil then -1 else 0 := by
  unfold AnyValue.compareValues
  rcases x with v | _ | _ | _
  · cases v <;> simp [AnyValue.toFloat64, Float64.lt]
  · simp [AnyValue.toFloat64, Float64.lt]
  · simp [AnyValue.toFloat64, Float64.lt]
  · simp [AnyValue.toFloat64, Float64.lt]

theorem compareValues_posInf_left (x : AnyValue) :
    AnyValue.compareValues AnyValue.posInf x =
      if x = AnyValue.posInf ∨ x = AnyValue.nan then 0 else 1 := by
  unfold AnyValue.compareValues
  rcases x with v | _ | _ | _
  · cases v <;> simp [AnyValue.toFloat64, Float64.lt]
  · simp [AnyValue.toFloat64, Float64.lt]
  · simp [AnyValue.toFloat64, Float64.lt]
  · simp [AnyValue.toFloat64, Float64.lt]

theorem compareValues_posInf_right (x : AnyValue) :
    AnyValue.compareValues x AnyValue.posInf =
      if x = AnyValue.posInf ∨ x = AnyValue.nan then 0 else -1 := by
  unfold AnyValue.compareValues
  rcases x with v | _ | _ | _
  · cases v <;> simp [AnyValue.toFloat64, Float64.lt]
  · simp [AnyValue.toFloat64, Float64.lt]
  · simp [AnyValue.toFloat64, Float64.lt]
  · simp [AnyValue.toFloat64, Float64.lt]

theorem compareValues_negInf_left (x : AnyValue) :
    AnyValue.compareValues AnyValue.negInf x =
      if x = AnyValue.val Value.nil then 1
      else if x = AnyValue.negInf ∨ x = AnyValue.nan then 0 else -1 := by
  unfold AnyValue.compareValues
  rcases x with v | _ | _ | _
  · cases v <;> simp [AnyValue.toFloat64, Float64.lt]
  · simp [AnyValue.toFloat64, Float64.lt]
  · simp [AnyValue.toFloat64, Float64.lt]
  · simp [AnyValue.toFloat64, Float64.lt]

theorem compareValues_negInf_right (x : AnyValue) :
    AnyValue.compareValues x AnyValue.negInf =
      if x = AnyValue.val Value.nil then -1
      else if x = AnyValue.negInf ∨ x = AnyValue.nan then 0 else 1 := by
  unfold AnyValue.compareValues
  rcases x with v | _ | _ | _
  · cases v <;> simp [AnyValue.toFloat64, Float64.lt]
  · simp [AnyValue.toFloat64, Float64.lt]
  · simp [AnyValue.toFloat64, Float64.lt]
  · simp [AnyValue.toFloat64, Float64.lt]

theorem compareValues_any_antisymm (a b : AnyValue) :
    AnyValue.compareValues a b = -AnyValue.compareValues b a := by
  rcases a with va | _ | _ | _
  · rcases b with vb | _ | _ | _
    · rw [compareValues_val, compareValues_val]
      exact compareValues_antisymm va vb
    · rw [compareValues_nan_left, compareValues_nan_right]
      split <;> rfl
    · rw [compareValues_posInf_left, compareValues_posInf_right]
      split <;> rfl
    · rw [compareValues_negInf_left, compareValues_negInf_right]
      split
      · rfl
      · split <;> rfl
  · rw [compareValues_nan_left, compareValues_nan_right]
    split <;> rfl
  · rw [compareValues_posInf_left, compareValues_posInf_right]
    split <;> rfl
  · rw [compareValues_negInf_left, compareValues_negInf_right]
    split
    · rfl
    · split <;> rfl

/-- The comparison of values of any kind is transitive, unless the middle value
is NaN, or the outer values are strings and the middle value is a non-nil value
that is no string and converts to `0`. -/
theorem compareValues_any_trans (a b c : AnyValue) (hnan : b ≠ AnyValue.nan)
    (hex : ¬ (a.isString = true ∧ c.isString = true ∧ b.isString = false ∧
      b ≠ AnyValue.val Value.nil ∧ b.toFloat64 = Float64.fin 0))
    (hab : AnyValue.compareValues a b ≤ 0) (hbc : AnyValue.compareValues b c ≤ 0) :
    AnyValue.compareValues a c ≤ 0 := by
  rcases a with va | _ | _ | _
  · rcases c with vc | _ | _ | _
    · rcases b with vb | _ | _ | _
      · rw [compareValues_val] at hab hbc ⊢
        refine compareValues_trans va vb vc ?_ hab hbc
        intro h
        apply hex
        refine ⟨h.1, h.2.1, h.2.2.1, ?_, ?_⟩
        · intro hc
          exact h.2.2.2.1 (AnyValue.val.inj hc)
        · simp only [AnyValue.toFloat64, h.2.2.2.2]
      · exact absurd rfl hnan
      · rw [compareValues_posInf_left] at hbc
        simp at hbc
      · rw [compareValues_negInf_right] at hab
        by_cases hva : va = Value.nil
        · subst hva
          rw [compareValues_any_nil_left]
          split <;> decide
        · have h1 : ¬ AnyValue.val va = AnyValue.val Value.nil := fun hc =>
            hva (AnyValue.val.inj hc)
          simp [h1] at hab
    · rw [compareValues_nan_right]
      split <;> decide
    · rw [compareValues_posInf_right]
      split <;> decide
    · rw [compareValues_negInf_right] at hbc ⊢
      rcases b with vb | _ | _ | _
      · by_cases hvb : vb = Value.nil
        · subst hvb
          rw [compareValues_any_nil_right] at hab
          by_cases hva : AnyValue.val va = AnyValue.val Value.nil
          · simp [hva]
          · simp [hva] at hab
        · have h1 : ¬ AnyValue.val vb = AnyValue.val Value.nil := fun hc =>
            hvb (AnyValue.val.inj hc)
          simp [h1] at hbc
      · exact absurd rfl hnan
      · simp at hbc
      · rw [compareValues_negInf_right] at hab
        exact hab
  · rw [compareValues_nan_left]
    by_cases hc : c = AnyValue.val Value.nil
    · subst hc
      rw [compareValues_any_nil_right] at hbc
      by_cases hb : b = AnyValue.val Value.nil
      · subst hb
        rw [compareValues_nan_left] at hab
        simp at hab
      · simp [hb] at hbc
    · simp [hc]
  · rw [compareValues_posInf_left] at hab
    by_cases hb : b = AnyValue.posInf ∨ b = AnyValue.nan
    · rcases hb with hb | hb
      · subst hb
        exact hbc
      · exact absurd hb hnan
    · simp [hb] at hab
  · rw [compareValues_negInf_left]
    by_cases hc : c = AnyValue.val Value.nil
    · subst hc
      rw [compareValues_any_nil_right] at hbc
      by_cases hb : b = AnyValue.val Value.nil
      · subst hb
        rw [compareValues_negInf_left] at hab
        simp at hab
      · simp [hb] at hbc
    · rw [if_neg hc]
      split <;> decide

/-- Claim C20, counterexamples to the transitivity as stated.  The number `0`
compares equal to every string, so `"b" <= 0` and `0 <= "a"` hold while
`compareValues("b", "a") == 1`; and NaN compares equal to every number, so
`1.0 <= NaN` and `NaN <= 0.0` hold while `compareValues(1.0, 0.0) == 1`. -/
theorem C20_transitivity_counterexample :
    (compareValues (Value.str "b") (Value.int 0) ≤ 0 ∧
      compareValues (Value.int 0) (Value.str "a") ≤ 0 ∧
      ¬ (compareValues (Value.str "b") (Value.str "a") ≤ 0)) ∧
    (AnyValue.compareValues (AnyValue.val (Value.float 1)) AnyValue.nan ≤ 0 ∧
      AnyValue.compareValues AnyValue.nan (AnyValue.val (Value.float 0)) ≤ 0 ∧
      ¬ (AnyValue.compareValues (AnyValue.val (Value.float 1))
        (AnyValue.val (Value.float 0)) ≤ 0)) := by
  decide

/-- Claim C20, amended.  For all values `a`, `b`, `c` of any kind, the
floating-point NaN and infinities included:
`compareValues(a,b) == -compareValues(b,a)`; `compareValues(nil, a) == -1` for
a non-nil `a`; and `compareValues(a,b) <= 0` with `compareValues(b,c) <= 0`
gives `compareValues(a,c) <= 0`, except when `b` is NaN, and except when `a` and
`c` are strings while `b` is a non-nil value that is no string and converts to
`0` (the number `0`, a boolean, a composite value).  On the values of `Value`
the comparison is the function `compareValues` of the other sections. -/
theorem C20_compareValues_order (a b c : AnyValue) :
    AnyValue.compareValues a b = -AnyValue.compareValues b a ∧
      (a ≠ AnyValue.val Value.nil →
        AnyValue.compareValues (AnyValue.val Value.nil) a = -1) ∧
      (b ≠ AnyValue.nan →
        ¬ (a.isString = true ∧ c.isString = true ∧ b.isString = false ∧
          b ≠ AnyValue.val Value.nil ∧ b.toFloat64 = Float64.fin 0) →
        AnyValue.compareValues a b ≤ 0 → AnyValue.compareValues b c ≤ 0 →
        AnyValue.compareValues a c ≤ 0) ∧
      (∀ x y : Value,
        AnyValue.compareValues (AnyValue.val x) (AnyValue.val y) = compareValues x y) := by
  refine ⟨compareValues_any_antisymm a b, ?_, compareValues_any_trans a b c, compareValues_val⟩
  intro ha
  rw [compareValues_any_nil_left, if_neg ha]

/-- The amended claim C20 at concrete values that mix strings, a number and an
infinity: `"a" <= "b" <= 3.0` and `"a" <= 3.0 <= +Inf`. -/
theorem C20_compareValues_order_witness :
    (AnyValue.val (Value.str "a") ≠ AnyValue.val Value.nil ∧
      AnyValue.compareValues (AnyValue.val Value.nil) (AnyValue.val (Value.str "a")) = -1) ∧
    (AnyValue.val (Value.str "b") ≠ AnyValue.nan ∧
      AnyValue.compareValues (AnyValue.val (Value.str "a")) (AnyValue.val (Value.str "b")) ≤ 0 ∧
      AnyValue.compareValues (AnyValue.val (Value.str "b")) (AnyValue.val (Value.float 3)) ≤ 0 ∧
      AnyValue.compareValues (AnyValue.val (Value.str "a")) (AnyValue.val (Value.float 3)) ≤ 0) ∧
    (AnyValue.val (Value.float 3) ≠ AnyValue.nan ∧
      AnyValue.compareValues (AnyValue.val (Value.str "a")) (AnyValue.val (Value.float 3)) ≤ 0 ∧
      AnyValue.compareValues (AnyValue.val (Value.float 3)) AnyValue.posInf ≤ 0 ∧
      AnyValue.compareValues (AnyValue.val (Value.str "a")) AnyValue.posInf ≤ 0) :=
  ⟨⟨by decide,
      (C20_compareValues_order (AnyValue.val (Value.str "a")) (AnyValue.val (Value.str "b"))
        (AnyValue.val (Value.float 3))).2.1 (by decide)⟩,
    ⟨by decide, by decide, by decide,
      (C20_compareValues_order (AnyValue.val (Value.str "a")) (AnyValue.val (Value.str "b"))
        (AnyValue.val (Value.float 3))).2.2.1 (by decide) (by decide) (by decide) (by decide)⟩,
    ⟨by decide, by decide, by decide,
      (C20_compareValues_order (AnyValue.val (Value.str "a")) (AnyValue.val (Value.float 3))
        AnyValue.posInf).2.2.1 (by decide) (by decide) (by decide) (by decide)⟩⟩

/-! ## Filtering by condition groups -/

theorem map_fst_filter_zip {α β : Type} (pred : α → Bool) :
    ∀ (d : List α) (ix : List β), d.length = ix.length →
      ((d.zip ix).filter (fun z => pred z.1)).map Prod.fst = d.filter pred := by
  intro d
  induction d with
  | nil => intro ix _; simp
  | cons x d ih =>
    intro ix hlen
    cases ix with
    | nil => simp at hlen
    | cons k ix =>
      have h := ih ix (by simpa using hlen)
      simp only [List.zip_cons_cons, List.filter_cons]
      cases pred x <;> simp [h]

theorem WhereSome_loop_eq (p : Pipeline Record)
    (hwf : p.data.length = p.originalIndex.length) (conditions : List ConditionGroup) :
    ∀ (rest : List Record) (i : Nat) (r : List Record) (ri : List Int),
      p.data.drop i = rest →
      Pipeline.WhereSome.loop p conditions rest i r ri =
        some ⟨r ++ ((rest.zip (p.originalIndex.drop i)).filter
            (fun z => conditions.any (fun cond => cond.evaluate z.1))).map Prod.fst,
          ri ++ ((rest.zip (p.originalIndex.drop i)).filter
            (fun z => conditions.any (fun cond => cond.evaluate z.1))).map Prod.snd⟩ := by
  intro rest
  induction rest with
  | nil => intro i r ri _; simp [Pipeline.WhereSome.loop]
  | cons item rest ih =>
    intro i r ri hd
    obtain ⟨hi, hd2⟩ := drop_eq_cons hd
    have hlt : i < p.originalIndex.length := by
      have := (List.getElem?_eq_some.1 hi).1
      omega
    unfold Pipeline.WhereSome.loop
    rw [List.drop_eq_getElem_cons hlt, List.zip_cons_cons, List.filter_cons]
    by_cases hc : conditions.any (fun cond => cond.evaluate item) = true
    · rw [if_pos hc, goIndex_natCast, List.getElem?_eq_getElem hlt]
      simp only [hc, if_true]
      rw [ih _ _ _ hd2]
      simp
    · rw [if_neg hc]
      simp only [hc, if_false]
      rw [ih _ _ _ hd2]
      simp

theorem WhereEvery_loop_eq (p : Pipeline Record)
    (hwf : p.data.length = p.originalIndex.length) (conditions : List ConditionGroup) :
    ∀ (rest : List Record) (i : Nat) (r : List Record) (ri : List Int),
      p.data.drop i = rest →
      Pipeline.WhereEvery.loop p conditions rest i r ri =
        some ⟨r ++ ((rest.zip (p.originalIndex.drop i)).filter
            (fun z => conditions.all (fun cond => cond.evaluate z.1))).map Prod.fst,
          ri ++ ((rest.zip (p.originalIndex.drop i)).filter
            (fun z => conditions.all (fun cond => cond.evaluate z.1))).map Prod.snd⟩ := by
  intro rest
  induction rest with
  | nil => intro i r ri _; simp [Pipeline.WhereEvery.loop]
  | cons item rest ih =>
    intro i r ri hd
    obtain ⟨hi, hd2⟩ := drop_eq_cons hd
    have hlt : i < p.originalIndex.length := by
      have := (List.getElem?_eq_some.1 hi).1
      omega
    unfold Pipeline.WhereEvery.loop
    rw [List.drop_eq_getElem_cons hlt, List.zip_cons_cons, List.filter_cons]
    by_cases hc : conditions.all (fun cond => cond.evaluate item) = true
    · rw [if_pos hc, goIndex_natCast, List.getElem?_eq_getElem hlt]
      simp only [hc, if_true]
      rw [ih _ _ _ hd2]
      simp
    · rw [if_neg hc]
      simp only [hc, if_false]
      rw [ih _ _ _ hd2]
      simp

/-- C12 (`Pipeline.WhereSome`).  On a pipeline whose `data` and `originalIndex`
have the same length and for a non-empty list of groups, `WhereSome` returns
the records for which all filters of at least one group hold, in the original
order and each once (the data is the filtered data), each paired with the
original index it carries. -/
theorem C12_pipeline_whereSome (p : Pipeline Record) (conditions : List ConditionGroup)
    (hwf : p.data.length = p.originalIndex.length) (hne : conditions ≠ []) :
    p.WhereSome conditions =
        some (p.keepWhere (fun item =>
          conditions.any (fun g => g.filters.all (fun f => f.fn g.field item)))) ∧
      (p.keepWhere (fun item =>
          conditions.any (fun g => g.filters.all (fun f => f.fn g.field item)))).data =
        p.data.filter (fun item =>
          conditions.any (fun g => g.filters.all (fun f => f.fn g.field item))) := by
  constructor
  · unfold Pipeline.WhereSome
    rw [if_neg (by
      intro h
      exact hne (List.eq_nil_of_length_eq_zero h))]
    rw [WhereSome_loop_eq p hwf conditions p.data 0 [] [] rfl]
    rfl
  · exact map_fst_filter_zip
      (fun item => conditions.any (fun g => g.filters.all (fun f => f.fn g.field item)))
      p.data p.originalIndex hwf

/-- C12 at a concrete pipeline: the first record matches both groups and is kept
once. -/
theorem C12_pipeline_whereSome_witness :
    (From [[("City", Value.str "NYC"), ("Active", Value.bool true)],
        [("City", Value.str "SF"), ("Active", Value.bool false)],
        [("City", Value.str "LA"), ("Active", Value.bool true)]]).data.length =
      (From [[("City", Value.str "NYC"), ("Active", Value.bool true)],
        [("City", Value.str "SF"), ("Active", Value.bool false)],
        [("City", Value.str "LA"), ("Active", Value.bool true)]]).originalIndex.length ∧
    [(W "City").Equals (Value.str "NYC"), (W "Active").IsTrue] ≠ [] ∧
    (From [[("City", Value.str "NYC"), ("Active", Value.bool true)],
        [("City", Value.str "SF"), ("Active", Value.bool false)],
        [("City", Value.str "LA"), ("Active", Value.bool true)]]).WhereSome
        [(W "City").Equals (Value.str "NYC"), (W "Active").IsTrue] =
      some ⟨[[("City", Value.str "NYC"), ("Active", Value.bool true)],
          [("City", Value.str "LA"), ("Active", Value.bool true)]], [1, 3]⟩ :=
  ⟨by decide, List.cons_ne_nil _ _,
    (C12_pipeline_whereSome _ _ (by decide) (List.cons_ne_nil _ _)).1.trans (by decide)⟩

/-- C13 (`Pipeline.WhereEvery`).  On a pipeline whose `data` and `originalIndex`
have the same length and for a non-empty list of groups, `WhereEvery` returns
the records for which all filters of every group hold, in the original order
(the data is the filtered data), each paired with the original index it
carries. -/
theorem C13_pipeline_whereEvery (p : Pipeline Record) (conditions : List ConditionGroup)
    (hwf : p.data.length = p.originalIndex.length) (hne : conditions ≠ []) :
    p.WhereEvery conditions =
        some (p.keepWhere (fun item =>
          conditions.all (fun g => g.filters.all (fun f => f.fn g.field item)))) ∧
      (p.keepWhere (fun item =>
          conditions.all (fun g => g.filters.all (fun f => f.fn g.field item)))).data =
        p.data.filter (fun item =>
          conditions.all (fun g => g.filters.all (fun f => f.fn g.field item))) := by
  constructor
  · unfold Pipeline.WhereEvery
    rw [if_neg (by
      intro h
      exact hne (List.eq_nil_of_length_eq_zero h))]
    rw [WhereEvery_loop_eq p hwf conditions p.data 0 [] [] rfl]
    rfl
  · exact map_fst_filter_zip
      (fun item => conditions.all (fun g => g.filters.all (fun f => f.fn g.field item)))
      p.data p.originalIndex hwf

/-- C13 at a concrete pipeline: only the first record has `Age > 25` and
`Active == true`. -/
theorem C13_pipeline_whereEvery_witness :
    (From [[("Age", Value.int 30), ("Active", Value.bool true)],
        [("Age", Value.int 25), ("Active", Value.bool true)],
        [("Age", Value.int 35), ("Active", Value.bool false)]]).data.length =
      (From [[("Age", Value.int 30), ("Active", Value.bool true)],
        [("Age", Value.int 25), ("Active", Value.bool true)],
        [("Age", Value.int 35), ("Active", Value.bool false)]]).originalIndex.length ∧
    [(W "Age").GreaterThan (Value.int 25), (W "Active").IsTrue] ≠ [] ∧
    (From [[("Age", Value.int 30), ("Active", Value.bool true)],
        [("Age", Value.int 25), ("Active", Value.bool true)],
        [("Age", Value.int 35), ("Active", Value.bool false)]]).WhereEvery
        [(W "Age").GreaterThan (Value.int 25), (W "Active").IsTrue] =
      some ⟨[[("Age", Value.int 30), ("Active", Value.bool true)]], [1]⟩ :=
  ⟨by decide, List.cons_ne_nil _ _,
    (C13_pipeline_whereEvery _ _ (by decide) (List.cons_ne_nil _ _)).1.trans (by decide)⟩

/-- What the package-level combinators return: both groups hold all filters of all
the groups given, and `ConditionGroup.evaluate` does not read the `orMode`
flag, so both are true exactly when every group holds. -/
theorem free_combinators_evaluate (conditions : List ConditionGroup) (item : Record) :
    (WhereSome conditions).evaluate item = conditions.all (fun g => g.evaluate item) ∧
      (WhereEvery conditions).evaluate item = conditions.all (fun g => g.evaluate item) := by
  constructor <;>
  · simp only [WhereSome, WhereEvery, ConditionGroup.evaluate, flattenConditions]
    induction conditions with
    | nil => rfl
    | cons g rest ih =>
      simp only [List.flatMap_cons, List.all_append, List.all_cons, ih, List.all_map]
      rfl

/-- C14 (the free combinator `WhereSome`), at the failing input: on the record with
`City = "NYC"` the group `WhereSome(W("City").Equals("NYC"),
W("City").Equals("LA"))` evaluates to false although its first group holds;
`WhereEvery` of the same groups is false as the claim says. -/
theorem C14_free_whereSome_failing :
    (WhereSome [(W "City").Equals (Value.str "NYC"),
        (W "City").Equals (Value.str "LA")]).evaluate [("City", Value.str "NYC")] = false ∧
      ((W "City").Equals (Value.str "NYC")).evaluate [("City", Value.str "NYC")] = true ∧
      (WhereEvery [(W "City").Equals (Value.str "NYC"),
        (W "City").Equals (Value.str "LA")]).evaluate [("City", Value.str "NYC")] = false := by
  decide

/-! ## Pipelines built without original indices -/

theorem goSlice_nil_of_pos (n hi : Int) (hn : 0 < n) (hhi : n ≤ hi) :
    goSlice ([] : List Int) n hi = none ∧ goSlice ([] : List Int) 0 n = none := by
  unfold goSlice
  constructor
  · rw [if_neg]
    simp only [List.length_nil, Nat.cast_zero]
    omega
  · rw [if_neg]
    simp only [List.length_nil, Nat.cast_zero]
    omega

/-- What `Limit` and `Skip` do on a pipeline without original indices: a count
strictly between `0` and the number of records panics in the slice
expression on `originalIndex`. -/
theorem Limit_Skip_without_indices (d : List Record) (n : Int) (h0 : 0 < n)
    (hn : n < (d.length : Int)) :
    (⟨d, []⟩ : Pipeline Record).Limit n = none ∧ (⟨d, []⟩ : Pipeline Record).Skip n = none := by
  constructor
  · unfold Pipeline.Limit
    rw [if_neg (by simp only [ge_iff_le]; omega), (goSlice_nil_of_pos n n h0 (le_refl n)).2,
      goSlice_of_bounds d 0 n (le_refl 0) (by omega) (by omega)]
  · unfold Pipeline.Skip
    rw [if_neg (by simp only [ge_iff_le]; omega)]
    simp only [List.length_nil, Nat.cast_zero]
    rw [goSlice_of_bounds d n _ (by omega) (by omega) (le_refl _)]
    have : goSlice ([] : List Int) n 0 = none := by
      unfold goSlice
      rw [if_neg]
      omega
    rw [this]

/-- What `Sorter.Limit` and `Sorter.Skip` return for every sorting function that
keeps the length: a panic for a count strictly between `0` and the number of
records. -/
theorem Sorter_Limit_Skip_panic (sortSlice : SortSlice) (s : Sorter) (n : Int) (h0 : 0 < n)
    (hn : n < ((s.execute sortSlice).length : Int)) :
    s.Limit sortSlice n = none ∧ s.Skip sortSlice n = none :=
  Limit_Skip_without_indices (s.execute sortSlice) n h0 hn

/-- C18 (pagination after a sort), at the failing input: over two records,
`OrderBy("v").Desc().Limit(1)` and `OrderBy("v").Desc().Skip(1)` panic, because
the sorted records are wrapped in a pipeline without original indices and
`originalIndex[:1]`, `originalIndex[1:]` are out of range; `Limit(0)`,
`Limit(2)` and `Skip(0)` return. -/
theorem C18_sorted_pagination_failing :
    Sorter.Limit insertionSortSlice
        ((From [[("v", Value.int 1)], [("v", Value.int 2)]]).OrderBy "v").Desc 1 = none ∧
      Sorter.Skip insertionSortSlice
        ((From [[("v", Value.int 1)], [("v", Value.int 2)]]).OrderBy "v").Desc 1 = none ∧
      (Sorter.Limit insertionSortSlice
        ((From [[("v", Value.int 1)], [("v", Value.int 2)]]).OrderBy "v").Desc 2).map
          Pipeline.Collect = some [[("v", Value.int 2)], [("v", Value.int 1)]] ∧
      (Sorter.Limit insertionSortSlice
        ((From [[("v", Value.int 1)], [("v", Value.int 2)]]).OrderBy "v").Desc 0).map
          Pipeline.Collect = some [] ∧
      (Sorter.Skip insertionSortSlice
        ((From [[("v", Value.int 1)], [("v", Value.int 2)]]).OrderBy "v").Desc 0).map
          Pipeline.Collect = some [[("v", Value.int 2)], [("v", Value.int 1)]] := by
  decide

/-- What `Condition.Distinct` returns when a record passes the filters: a panic,
because the first record is new to `seen` and `originalIndex[0]` is read from
a pipeline without original indices. -/
theorem Condition_Distinct_panic (c : Condition) (field : String) (x : Record)
    (rest : List Record) (h : c.execute = some (x :: rest)) : c.Distinct field = none := by
  unfold Condition.Distinct
  rw [h]
  simp [Pipeline.Distinct, Pipeline.Distinct.loop, goIndex]

/-- C19 (`Distinct` after a filter), at the failing input: over one record with
`Active = true`, `Where("Active").IsTrue().Distinct("Dept")` panics, while
`Pipeline.Distinct("Dept")` on a pipeline holding the filtered record returns
it. -/
theorem C19_distinct_after_filter_failing :
    (((From [[("Active", Value.bool true), ("Dept", Value.str "Eng")]]).Where
        "Active").IsTrue).Distinct "Dept" = none ∧
      (((From [[("Active", Value.bool true), ("Dept", Value.str "Eng")]]).Where
        "Active").IsTrue).Collect =
        some [[("Active", Value.bool true), ("Dept", Value.str "Eng")]] ∧
      ((From [[("Active", Value.bool true), ("Dept", Value.str "Eng")]]).Distinct
        "Dept").map Pipeline.Collect =
        some [[("Active", Value.bool true), ("Dept", Value.str "Eng")]] := by
  decide

/-! ## Sorting functions within the contract of `sort.Slice` -/

theorem orderedInsertBy_perm {α : Type} (less : α → α → Bool) (a : α) :
    ∀ l : List α, (orderedInsertBy less a l).Perm (a :: l) := by
  intro l
  induction l with
  | nil => exact List.Perm.refl _
  | cons b l ih =>
    unfold orderedInsertBy
    split
    · exact ((List.Perm.cons b ih).trans (List.Perm.swap a b l))
    · exact List.Perm.refl _

theorem insertionSortSlice_perm {α : Type} (less : α → α → Bool) :
    ∀ l : List α, (insertionSortSlice less l).Perm l := by
  intro l
  induction l with
  | nil => exact List.Perm.refl _
  | cons a l ih =>
    unfold insertionSortSlice
    exact (orderedInsertBy_perm less a _).trans (List.Perm.cons a ih)

theorem StrictWeakOn.mono {α : Type} {less : α → α → Bool} {l m : List α}
    (h : StrictWeakOn less l) (hsub : ∀ x ∈ m, x ∈ l) : StrictWeakOn less m :=
  ⟨fun x hx => h.1 x (hsub x hx),
    fun x hx y hy z hz => h.2.1 x (hsub x hx) y (hsub y hy) z (hsub z hz),
    fun x hx y hy z hz => h.2.2 x (hsub x hx) y (hsub y hy) z (hsub z hz)⟩

theorem orderedInsertBy_sorted {α : Type} (less : α → α → Bool) (a : α) :
    ∀ l : List α, StrictWeakOn less (a :: l) →
      l.Pairwise (fun x y => less y x = false) →
      (orderedInsertBy less a l).Pairwise (fun x y => less y x = false) := by
  intro l
  induction l with
  | nil =>
    intro _ _
    simp [orderedInsertBy]
  | cons b l ih =>
    intro hswo hsorted
    have hb := List.pairwise_cons.1 hsorted
    unfold orderedInsertBy
    by_cases hba : less b a = true
    · rw [if_pos hba]
      refine List.pairwise_cons.2 ⟨?_, ?_⟩
      · intro z hz
        have hz2 := (orderedInsertBy_perm less a l).mem_iff.1 hz
        rcases List.mem_cons.1 hz2 with rfl | hzl
        · cases hab : less z b
          · rfl
          · have := hswo.2.1 b (by simp) z (by simp) b (by simp) hba hab
            rw [hswo.1 b (by simp)] at this
            cases this
        · exact hb.1 z hzl
      · exact ih (hswo.mono (by
          intro x hx
          rcases List.mem_cons.1 hx with rfl | hx
          · simp
          · simp [hx])) hb.2
    · rw [if_neg hba]
      have hba2 : less b a = false := by simpa using hba
      refine List.pairwise_cons.2 ⟨?_, hsorted⟩
      intro z hz
      rcases List.mem_cons.1 hz with rfl | hzl
      · exact hba2
      · exact hswo.2.2 z (by simp [hzl]) b (by simp) a (by simp) (hb.1 z hzl) hba2

theorem insertionSortSlice_sorted {α : Type} (less : α → α → Bool) :
    ∀ l : List α, StrictWeakOn less l →
      (insertionSortSlice less l).Pairwise (fun x y => less y x = false) := by
  intro l
  induction l with
  | nil => intro _; simp [insertionSortSlice]
  | cons a l ih =>
    intro hswo
    unfold insertionSortSlice
    apply orderedInsertBy_sorted
    · exact hswo.mono (by
        intro x hx
        rcases List.mem_cons.1 hx with rfl | hx
        · simp
        · exact List.mem_cons_of_mem _ ((insertionSortSlice_perm less l).mem_iff.1 hx))
    · exact ih (hswo.mono (fun x hx => List.mem_cons_of_mem _ hx))

theorem insertionSortSlice_contract : SortSliceContract insertionSortSlice :=
  fun less l => ⟨insertionSortSlice_perm less l, insertionSortSlice_sorted less l⟩

theorem reversingSortSlice_contract : SortSliceContract reversingSortSlice :=
  fun less l =>
    ⟨(insertionSortSlice_perm less l.reverse).trans (List.reverse_perm l),
      fun h => insertionSortSlice_sorted less l.reverse
        (h.mono (fun _ hx => List.mem_reverse.1 hx))⟩

theorem Sorter_execute_length (sortSlice : SortSlice) (hc : SortSliceContract sortSlice)
    (s : Sorter) : (s.execute sortSlice).length = s.pipeline.data.length := by
  unfold Sorter.execute
  split
  · rfl
  · exact (hc _ _).1.length_eq

/-! ## Row selection after a sort -/

theorem From_AtRow_single {α : Type} (d : List α) (k : Int) (h1 : 1 ≤ k)
    (h2 : k ≤ (d.length : Int)) :
    ∃ x, d[(k - 1).toNat]? = some x ∧ (From d).AtRow [k] = some ⟨[x], [k]⟩ := by
  have hlt : (k - 1).toNat < d.length := by omega
  refine ⟨d[(k - 1).toNat], List.getElem?_eq_getElem hlt, ?_⟩
  have hloop := AtRow_loop_eq (From d) (From_length d) [k] [] []
  unfold Pipeline.AtRow
  rw [if_neg (by simp), hloop]
  have hpos : AtRow.position (From d).data.length k = some k.toNat := by
    unfold AtRow.position
    rw [if_pos ⟨h1, h2⟩]
  have hk : k.toNat - 1 = (k - 1).toNat := by omega
  have hk0 : ¬ k.toNat = 0 := by omega
  have hdata : atPosition (From d).data k.toNat = some d[(k - 1).toNat] := by
    unfold atPosition
    rw [if_neg hk0, hk]
    exact List.getElem?_eq_getElem hlt
  have hidx : atPosition (From d).originalIndex k.toNat = some k := by
    unfold atPosition
    rw [if_neg hk0, hk]
    simp only [From, List.getElem?_map, List.getElem?_range hlt, Option.map_some']
    congr 1
    omega
  simp only [AtRow.reference, Pipeline.atPositions, List.filterMap_cons, List.filterMap_nil,
    hpos, hdata, hidx, List.nil_append]

/-- Claim C17, failing input.  Over `d = [{v: 2}, {v: 1}]`,
`From(d).OrderBy("v").AtRow(1)` returns the record `{v: 1}`, which stands at
position 2 of `d` and not at position 1, with the index list `[1]`: the sort
has lost the original indices. -/
theorem C17_sorted_atRow_failing :
    Sorter.AtRow insertionSortSlice
        ((From [[("v", Value.int 2)], [("v", Value.int 1)]]).OrderBy "v") [1] =
      some ⟨[[("v", Value.int 1)]], [1]⟩ ∧
    ([[("v", Value.int 2)], [("v", Value.int 1)]] : List Record)[1]? =
      some [("v", Value.int 1)] ∧
    ([[("v", Value.int 2)], [("v", Value.int 1)]] : List Record)[0]? ≠
      some [("v", Value.int 1)] := by
  decide

/-- What `Sorter.AtRow` returns in general: for every input list `d`, field `f`
and row index `k` in `1..len(d)`, `From(d).OrderBy(f).AtRow(k)` holds the `k`-th
record of the sorted order and `Which()` is the one-element list `[k]`, the
position of that record in the sorted order, because `Sorter.AtRow` numbers the
sorted records anew with `From`. -/
theorem Sorter_AtRow_renumbers (sortSlice : SortSlice) (hc : SortSliceContract sortSlice)
    (d : List Record) (f : String) (k : Int) (h1 : 1 ≤ k) (h2 : k ≤ (d.length : Int)) :
    ∃ x, (Sorter.Collect sortSlice ((From d).OrderBy f))[(k - 1).toNat]? = some x ∧
      Sorter.AtRow sortSlice ((From d).OrderBy f) [k] = some ⟨[x], [k]⟩ ∧
      (Sorter.AtRow sortSlice ((From d).OrderBy f) [k]).map Pipeline.Which = some [k] := by
  have hlen : (Sorter.Collect sortSlice ((From d).OrderBy f)).length = d.length :=
    Sorter_execute_length sortSlice hc _
  obtain ⟨x, hx, hat⟩ :=
    From_AtRow_single (Sorter.Collect sortSlice ((From d).OrderBy f)) k h1 (by omega)
  refine ⟨x, hx, hat, ?_⟩
  unfold Sorter.AtRow
  rw [hat]
  rfl

/-- The second row of three records sorted by `v`. -/
theorem Sorter_AtRow_renumbers_example :
    SortSliceContract insertionSortSlice ∧ (1 : Int) ≤ 2 ∧
    (2 : Int) ≤ (([[("v", Value.int 3)], [("v", Value.int 1)], [("v", Value.int 2)]] :
      List Record).length : Int) ∧
    ∃ x, (Sorter.Collect insertionSortSlice
        ((From [[("v", Value.int 3)], [("v", Value.int 1)], [("v", Value.int 2)]]).OrderBy
          "v"))[((2 : Int) - 1).toNat]? = some x ∧
      Sorter.AtRow insertionSortSlice
        ((From [[("v", Value.int 3)], [("v", Value.int 1)], [("v", Value.int 2)]]).OrderBy
          "v") [2] = some ⟨[x], [2]⟩ ∧
      (Sorter.AtRow insertionSortSlice
        ((From [[("v", Value.int 3)], [("v", Value.int 1)], [("v", Value.int 2)]]).OrderBy
          "v") [2]).map Pipeline.Which = some [2] :=
  ⟨insertionSortSlice_contract, by decide, by decide,
    Sorter_AtRow_renumbers insertionSortSlice insertionSortSlice_contract
      [[("v", Value.int 3)], [("v", Value.int 1)], [("v", Value.int 2)]] "v" 2
      (by decide) (by decide)⟩

/-! ## The order of the sorted records -/

theorem isNumber_ne_nil {v : Value} (h : v.isNumber = true) : v ≠ Value.nil := by
  intro hv
  subst hv
  simp [Value.isNumber] at h

theorem isNumber_not_isString {v : Value} (h : v.isNumber = true) : ¬ v.isString = true := by
  cases v <;> simp [Value.isNumber, Value.isString] at h ⊢

theorem compareValues_numeric (a b : Value) (ha : a.isNumber = true) (hb : b.isNumber = true) :
    compareValues a b =
      if toFloat64 a < toFloat64 b then -1 else if toFloat64 b < toFloat64 a then 1 else 0 := by
  rcases lt_trichotomy (toFloat64 a) (toFloat64 b) with h | h | h
  · rw [compareValues_of_lt a b (isNumber_ne_nil ha) (isNumber_ne_nil hb) h, if_pos h]
  · rw [compareValues_of_eq_notStr a b (isNumber_ne_nil ha) (isNumber_ne_nil hb) h
      (fun hc => isNumber_not_isString ha hc.1), h]
    simp
  · rw [compareValues_of_gt a b (isNumber_ne_nil ha) (isNumber_ne_nil hb) h,
      if_neg (not_lt_of_lt h), if_pos h]

theorem Sorter_less_cons_numeric (sf : sortField) (rest : List sortField) (x y : Record)
    (hx : (getFieldValue x sf.field).isNumber = true)
    (hy : (getFieldValue y sf.field).isNumber = true) :
    Sorter.less (sf :: rest) x y =
      if toFloat64 (getFieldValue x sf.field) < toFloat64 (getFieldValue y sf.field) then
        !sf.desc
      else if toFloat64 (getFieldValue y sf.field) < toFloat64 (getFieldValue x sf.field) then
        sf.desc
      else Sorter.less rest x y := by
  conv => lhs; unfold Sorter.less
  simp only []
  rw [compareValues_numeric _ _ hx hy]
  by_cases h1 : toFloat64 (getFieldValue x sf.field) < toFloat64 (getFieldValue y sf.field)
  · simp only [h1, if_true]
    cases sf.desc <;> simp
  · simp only [h1, if_false]
    by_cases h2 : toFloat64 (getFieldValue y sf.field) < toFloat64 (getFieldValue x sf.field)
    · simp only [h2, if_true]
      cases sf.desc <;> simp
    · simp only [h2, if_false]
      simp

theorem Sorter_less_irrefl (sorts : List sortField) (x : Record) :
    (∀ sf ∈ sorts, (getFieldValue x sf.field).isNumber = true) →
      Sorter.less sorts x x = false := by
  induction sorts with
  | nil => intro _; rfl
  | cons sf rest ih =>
    intro h
    rw [Sorter_less_cons_numeric sf rest x x (h sf (by simp)) (h sf (by simp)),
      if_neg (lt_irrefl _), if_neg (lt_irrefl _)]
    exact ih (fun t ht => h t (List.mem_cons_of_mem _ ht))

theorem Sorter_less_trans (sorts : List sortField) (x y z : Record) :
    (∀ sf ∈ sorts, (getFieldValue x sf.field).isNumber = true) →
    (∀ sf ∈ sorts, (getFieldValue y sf.field).isNumber = true) →
    (∀ sf ∈ sorts, (getFieldValue z sf.field).isNumber = true) →
    Sorter.less sorts x y = true → Sorter.less sorts y z = true →
      Sorter.less sorts x z = true := by
  induction sorts with
  | nil => intro _ _ _ h; simp [Sorter.less] at h
  | cons sf rest ih =>
    intro hx hy hz
    rw [Sorter_less_cons_numeric sf rest x y (hx sf (by simp)) (hy sf (by simp)),
      Sorter_less_cons_numeric sf rest y z (hy sf (by simp)) (hz sf (by simp)),
      Sorter_less_cons_numeric sf rest x z (hx sf (by simp)) (hz sf (by simp))]
    have ih2 := ih (fun t ht => hx t (List.mem_cons_of_mem _ ht))
      (fun t ht => hy t (List.mem_cons_of_mem _ ht))
      (fun t ht => hz t (List.mem_cons_of_mem _ ht))
    intro h1 h2
    cases hd : sf.desc <;> simp only [hd, Bool.not_false, Bool.not_true] at h1 h2 ⊢ <;>
      split_ifs at h1 h2 ⊢ <;>
      first
        | rfl
        | exact ih2 h1 h2
        | (exfalso; linarith)

theorem Sorter_less_negTrans (sorts : List sortField) (x y z : Record) :
    (∀ sf ∈ sorts, (getFieldValue x sf.field).isNumber = true) →
    (∀ sf ∈ sorts, (getFieldValue y sf.field).isNumber = true) →
    (∀ sf ∈ sorts, (getFieldValue z sf.field).isNumber = true) →
    Sorter.less sorts x y = false → Sorter.less sorts y z = false →
      Sorter.less sorts x z = false := by
  induction sorts with
  | nil => intro _ _ _ _ _; rfl
  | cons sf rest ih =>
    intro hx hy hz
    rw [Sorter_less_cons_numeric sf rest x y (hx sf (by simp)) (hy sf (by simp)),
      Sorter_less_cons_numeric sf rest y z (hy sf (by simp)) (hz sf (by simp)),
      Sorter_less_cons_numeric sf rest x z (hx sf (by simp)) (hz sf (by simp))]
    have ih2 := ih (fun t ht => hx t (List.mem_cons_of_mem _ ht))
      (fun t ht => hy t (List.mem_cons_of_mem _ ht))
      (fun t ht => hz t (List.mem_cons_of_mem _ ht))
    intro h1 h2
    cases hd : sf.desc <;> simp only [hd, Bool.not_false, Bool.not_true] at h1 h2 ⊢ <;>
      split_ifs at h1 h2 ⊢ <;>
      first
        | rfl
        | exact ih2 h1 h2
        | (exfalso; linarith)

theorem Sorter_less_strictWeakOn (sorts : List sortField) (data : List Record)
    (hnum : ∀ r ∈ data, ∀ sf ∈ sorts, (getFieldValue r sf.field).isNumber = true) :
    StrictWeakOn (Sorter.less sorts) data :=
  ⟨fun x hx => Sorter_less_irrefl sorts x (hnum x hx),
    fun x hx y hy z hz => Sorter_less_trans sorts x y z (hnum x hx) (hnum y hy) (hnum z hz),
    fun x hx y hy z hz => Sorter_less_negTrans sorts x y z (hnum x hx) (hnum y hy) (hnum z hz)⟩

theorem orderedAt_of_not_less (sorts : List sortField) (x y : Record) :
    Sorter.less sorts y x = false → orderedAt sorts x y = true := by
  induction sorts with
  | nil => intro _; rfl
  | cons sf rest ih =>
    unfold Sorter.less orderedAt
    simp only []
    rw [compareValues_antisymm (getFieldValue y sf.field) (getFieldValue x sf.field)]
    generalize compareValues (getFieldValue x sf.field) (getFieldValue y sf.field) = c
    by_cases hc : c = 0
    · subst hc
      simp only [neg_zero, ne_eq, not_true_eq_false, if_false]
      exact ih
    · have hc2 : -c ≠ 0 := by omega
      simp only [ne_eq, hc, hc2, not_false_eq_true, if_true]
      cases sf.desc
      · simp only [Bool.false_eq_true, if_false, decide_eq_false_iff_not, decide_eq_true_eq]
        omega
      · simp only [if_true, decide_eq_false_iff_not, decide_eq_true_eq]
        omega

/-- C15 (multi-key sort order).  For every sorting function within the contract
of `sort.Slice` and every sorter whose sort fields hold numbers in all
records, the list returned by `Collect()` is a permutation of the data in
which every record may stand before every later one, in particular before the
next one: at the first key on which `compareValues` of the two records is not
`0`, it is negative for an ascending key and positive for a descending key.
The chain `OrderBy(k1)[.Desc()].ThenBy(k2)[.Desc()]` builds the keys `k1`,
`k2` with `Desc()` applied to the key before it, and for the single
descending key `f` the order says `compareValues(x.f, y.f) >= 0`. -/
theorem C15_sort_order (sortSlice : SortSlice) (hc : SortSliceContract sortSlice)
    (s : Sorter)
    (hnum : ∀ r ∈ s.pipeline.data, ∀ sf ∈ s.sorts,
      (getFieldValue r sf.field).isNumber = true) :
    (s.Collect sortSlice).Perm s.pipeline.data ∧
      (s.Collect sortSlice).Pairwise (fun x y => orderedAt s.sorts x y = true) ∧
      (s.Collect sortSlice).Chain' (fun x y => orderedAt s.sorts x y = true) ∧
      (∀ (p : Pipeline Record) (k1 k2 : String),
        (p.OrderBy k1).sorts = [⟨k1, false⟩] ∧
        (p.OrderBy k1).Desc.sorts = [⟨k1, true⟩] ∧
        ((p.OrderBy k1).ThenBy k2).sorts = [⟨k1, false⟩, ⟨k2, false⟩] ∧
        ((p.OrderBy k1).Desc.ThenBy k2).sorts = [⟨k1, true⟩, ⟨k2, false⟩] ∧
        ((p.OrderBy k1).ThenBy k2).Desc.sorts = [⟨k1, false⟩, ⟨k2, true⟩] ∧
        ((p.OrderBy k1).Desc.ThenBy k2).Desc.sorts = [⟨k1, true⟩, ⟨k2, true⟩]) ∧
      (∀ (f : String) (x y : Record),
        orderedAt [⟨f, true⟩] x y = true ↔
          0 ≤ compareValues (getFieldValue x f) (getFieldValue y f)) := by
  have hpair : (s.Collect sortSlice).Pairwise (fun x y => orderedAt s.sorts x y = true) := by
    unfold Sorter.Collect Sorter.execute
    split
    · rename_i h
      rw [List.eq_nil_of_length_eq_zero h]
      exact List.pairwise_of_forall (fun x y => rfl)
    · exact ((hc _ _).2 (Sorter_less_strictWeakOn s.sorts s.pipeline.data hnum)).imp
        (fun h => orderedAt_of_not_less s.sorts _ _ h)
  refine ⟨?_, hpair, hpair.chain', ?_, ?_⟩
  · unfold Sorter.Collect Sorter.execute
    split
    · exact List.Perm.refl _
    · exact (hc _ _).1
  · intro p k1 k2
    refine ⟨rfl, rfl, rfl, rfl, rfl, rfl⟩
  · intro f x y
    unfold orderedAt orderedAt
    generalize compareValues (getFieldValue x f) (getFieldValue y f) = c
    by_cases h0 : c = 0
    · subst h0
      simp
    · simp only [ne_eq, h0, not_false_eq_true, if_true, decide_eq_true_eq]
      omega

/-- C15 at a concrete sorter: four records by `YearsExp` ascending, then `Salary`
descending. -/
theorem C15_sort_order_witness :
    SortSliceContract insertionSortSlice ∧
    (∀ r ∈ ((((From sampleStaff).OrderBy "YearsExp").Asc.ThenBy "Salary").Desc).pipeline.data,
      ∀ sf ∈ ((((From sampleStaff).OrderBy "YearsExp").Asc.ThenBy "Salary").Desc).sorts,
        (getFieldValue r sf.field).isNumber = true) ∧
    (Sorter.Collect insertionSortSlice
        ((((From sampleStaff).OrderBy "YearsExp").Asc.ThenBy "Salary").Desc)).Chain'
      (fun x y => orderedAt
        ((((From sampleStaff).OrderBy "YearsExp").Asc.ThenBy "Salary").Desc).sorts x y = true) ∧
    Sorter.Collect insertionSortSlice
        ((((From sampleStaff).OrderBy "YearsExp").Asc.ThenBy "Salary").Desc) =
      [[("YearsExp", Value.int 3), ("Salary", Value.float 80)],
        [("YearsExp", Value.int 3), ("Salary", Value.float 60)],
        [("YearsExp", Value.int 5), ("Salary", Value.float 90)],
        [("YearsExp", Value.int 5), ("Salary", Value.float 70)]] :=
  ⟨insertionSortSlice_contract, by decide,
    (C15_sort_order insertionSortSlice insertionSortSlice_contract
      ((((From sampleStaff).OrderBy "YearsExp").Asc.ThenBy "Salary").Desc) (by decide)).2.2.1,
    by decide⟩

/-- C16 (the sort is stable), shown not to follow from the code: `Sorter.execute`
calls `sort.Slice`, whose contract allows a result that swaps records equal on
every key.  With the sorting function `reversingSortSlice`, which is within
that contract, two records with the same `k` come out of
`OrderBy("k").Collect()` in reverse order. -/
theorem C16_sort_not_stable :
    SortSliceContract reversingSortSlice ∧
      Sorter.Collect reversingSortSlice
          ((From [[("k", Value.int 1), ("id", Value.str "a")],
            [("k", Value.int 1), ("id", Value.str "b")]]).OrderBy "k") =
        [[("k", Value.int 1), ("id", Value.str "b")],
          [("k", Value.int 1), ("id", Value.str "a")]] ∧
      compareValues
          (getFieldValue [("k", Value.int 1), ("id", Value.str "a")] "k")
          (getFieldValue [("k", Value.int 1), ("id", Value.str "b")] "k") = 0 :=
  ⟨reversingSortSlice_contract, by decide, by decide⟩

/-! ## Positions after a filter -/

theorem positionsFrom_length (sat : Record → Bool) :
    ∀ (data : List Record) (k : Nat),
      (positionsFrom sat k data).length = (data.filter sat).length := by
  intro data
  induction data with
  | nil => intro k; rfl
  | cons r rest ih =>
    intro k
    unfold positionsFrom
    cases h : sat r
    · simp [h, ih]
    · simp [h, ih]

theorem positionsFrom_of_filter_nil (sat : Record → Bool) :
    ∀ (data : List Record) (k : Nat), data.filter sat = [] → positionsFrom sat k data = [] := by
  intro data k h
  have := positionsFrom_length sat data k
  rw [h] at this
  exact List.eq_nil_of_length_eq_zero this

theorem Positions_build_eq :
    ∀ (filtered fm : List Record), (∀ x ∈ filtered, hashable x = true) →
      ∃ fm2, Condition.Positions.build filtered fm = some fm2 ∧
        ∀ x, x ∈ fm2 ↔ x ∈ fm ∨ x ∈ filtered := by
  intro filtered
  induction filtered with
  | nil => intro fm _; exact ⟨fm, rfl, by simp⟩
  | cons item rest ih =>
    intro fm hh
    unfold Condition.Positions.build
    rw [if_pos (hh item (by simp))]
    obtain ⟨fm2, h1, h2⟩ := ih (if item ∈ fm then fm else item :: fm)
      (fun x hx => hh x (List.mem_cons_of_mem _ hx))
    refine ⟨fm2, h1, ?_⟩
    intro x
    rw [h2 x]
    by_cases hm : item ∈ fm
    · rw [if_pos hm]
      constructor
      · rintro (h | h)
        · exact Or.inl h
        · exact Or.inr (List.mem_cons_of_mem _ h)
      · rintro (h | h)
        · exact Or.inl h
        · rcases List.mem_cons.1 h with rfl | h
          · exact Or.inl hm
          · exact Or.inr h
    · rw [if_neg hm]
      simp only [List.mem_cons]
      tauto

theorem From_goIndex {α : Type} (data : List α) (i : Nat) (hi : i < data.length) :
    goIndex (From data).originalIndex (i : Int) = some ((i : Int) + 1) := by
  rw [goIndex_natCast]
  simp [From, List.getElem?_map, List.getElem?_range hi]

theorem Positions_loop_eq (c : Condition) (data : List Record) (hp : c.pipeline = From data)
    (sat : Record → Bool) :
    ∀ (rest : List Record) (i : Nat) (fm : List Record) (indices : List Int),
      data.drop i = rest → rest.Nodup → (∀ x ∈ rest, hashable x = true) →
      (∀ x ∈ rest, (x ∈ fm ↔ sat x = true)) →
      Condition.Positions.loop c rest i fm indices =
        some (indices ++ positionsFrom sat (i + 1) rest) := by
  intro rest
  induction rest with
  | nil => intro i fm indices _ _ _ _; simp [Condition.Positions.loop, positionsFrom]
  | cons item rest ih =>
    intro i fm indices hd hnd hh hfm
    obtain ⟨hi, hd2⟩ := drop_eq_cons hd
    have hlt : i < data.length := (List.getElem?_eq_some.1 hi).1
    have hnd2 := List.nodup_cons.1 hnd
    unfold Condition.Positions.loop positionsFrom
    rw [if_pos (hh item (by simp))]
    by_cases hm : item ∈ fm
    · have hs : sat item = true := (hfm item (by simp)).1 hm
      rw [if_pos hm, hp, From_goIndex data i hlt, if_pos hs]
      simp only []
      rw [ih (i + 1) (fm.erase item) _ hd2 hnd2.2
        (fun x hx => hh x (List.mem_cons_of_mem _ hx))
        (fun x hx => by
          have hne : x ≠ item := fun h => hnd2.1 (h ▸ hx)
          rw [List.mem_erase_of_ne hne]
          exact hfm x (List.mem_cons_of_mem _ hx))]
      simp
    · have hs : ¬ sat item = true := fun h => hm ((hfm item (by simp)).2 h)
      rw [if_neg hm, if_neg hs]
      exact ih (i + 1) fm indices hd2 hnd2.2
        (fun x hx => hh x (List.mem_cons_of_mem _ hx))
        (fun x hx => hfm x (List.mem_cons_of_mem _ hx))

/-- Where the claim on `Positions` holds: over pairwise distinct records none of
which holds a slice or a map, `Positions().Rows` and `Which()` of a condition
on `From(data)` are the ascending positions of the records that satisfy the
condition, as many as `Collect()` has records, and `Cols` is empty. -/
theorem Positions_of_nodup_hashable (c : Condition) (data : List Record)
    (hp : c.pipeline = From data) (hnd : data.Nodup) (hh : ∀ x ∈ data, hashable x = true) :
    c.Positions =
        some ⟨positionsFrom (fun item => andOfOrGroups c.field item c.filters) 1 data, []⟩ ∧
      c.Which =
        some (positionsFrom (fun item => andOfOrGroups c.field item c.filters) 1 data) ∧
      c.Collect.map List.length =
        some (positionsFrom (fun item => andOfOrGroups c.field item c.filters) 1 data).length := by
  have hex := execute_eq c
  rw [hp] at hex
  have hpos : c.Positions =
      some ⟨positionsFrom (fun item => andOfOrGroups c.field item c.filters) 1 data, []⟩ := by
    unfold Condition.Positions
    rw [hp, hex]
    simp only [From]
    split
    · rename_i h0
      rw [positionsFrom_of_filter_nil _ data 1 (List.eq_nil_of_length_eq_zero h0)]
    · obtain ⟨fm2, hb1, hb2⟩ := Positions_build_eq
        (data.filter (fun item => andOfOrGroups c.field item c.filters)) []
        (fun x hx => hh x (List.mem_of_mem_filter hx))
      rw [hb1]
      simp only []
      have hloop := Positions_loop_eq c data hp
        (fun item => andOfOrGroups c.field item c.filters) data 0 fm2 [] rfl hnd hh
        (fun x hx => by
          rw [hb2 x]
          simp [List.mem_filter, hx])
      rw [hloop]
      rfl
  refine ⟨hpos, ?_, ?_⟩
  · unfold Condition.Which
    rw [hpos]
  · unfold Condition.Collect
    rw [hex, positionsFrom_length]
    rfl

/-- C11 (positions after a filter), at the failing input: over one record that
holds a slice in its field `Tags`, `Where("Name").Equals("A").Positions()` and
`Which()` panic, because the record is used as the key of a Go map and cannot
be hashed, while `Collect()` returns the record. -/
theorem C11_positions_failing :
    (((From [[("Name", Value.str "A"), ("Tags", Value.complex 0)]]).Where "Name").Equals
        (Value.str "A")).Positions = none ∧
      (((From [[("Name", Value.str "A"), ("Tags", Value.complex 0)]]).Where "Name").Equals
        (Value.str "A")).Which = none ∧
      (((From [[("Name", Value.str "A"), ("Tags", Value.complex 0)]]).Where "Name").Equals
        (Value.str "A")).Collect =
        some [[("Name", Value.str "A"), ("Tags", Value.complex 0)]] := by
  decide

/-! ## Go maps and the grouping passes -/

theorem mapGet_mapSet_self {β : Type} (m : List (Value × β)) (k : Value) (v : β) :
    mapGet (mapSet m k v) k = some v := by
  induction m with
  | nil => simp [mapSet, mapGet]
  | cons e rest ih =>
    obtain ⟨k0, w⟩ := e
    unfold mapSet
    by_cases h : k0 = k
    · rw [if_pos h]
      unfold mapGet
      rw [if_pos h]
    · rw [if_neg h]
      unfold mapGet
      rw [if_neg h]
      exact ih

theorem mapGet_mapSet_ne {β : Type} (m : List (Value × β)) (k k' : Value) (v : β)
    (hne : k ≠ k') : mapGet (mapSet m k v) k' = mapGet m k' := by
  induction m with
  | nil => simp [mapSet, mapGet, hne]
  | cons e rest ih =>
    obtain ⟨k0, w⟩ := e
    unfold mapSet
    by_cases h : k0 = k
    · rw [if_pos h]
      conv => lhs; unfold mapGet
      conv => rhs; unfold mapGet
      rw [if_neg (by rw [h]; exact hne), if_neg (by rw [h]; exact hne)]
    · rw [if_neg h]
      conv => lhs; unfold mapGet
      conv => rhs; unfold mapGet
      rw [ih]

theorem mapGet_isSome_iff {β : Type} (m : List (Value × β)) (k : Value) :
    (mapGet m k).isSome = true ↔ k ∈ mapKeys m := by
  induction m with
  | nil => simp [mapGet, mapKeys]
  | cons e rest ih =>
    obtain ⟨k0, w⟩ := e
    unfold mapGet
    by_cases h : k0 = k
    · rw [if_pos h]
      simp [mapKeys, h]
    · rw [if_neg h, ih]
      simp only [mapKeys, List.map_cons, List.mem_cons]
      constructor
      · intro hm
        exact Or.inr hm
      · intro hm
        rcases hm with hm | hm
        · exact absurd hm.symm h
        · exact hm

theorem mapGet_eq_none_iff {β : Type} (m : List (Value × β)) (k : Value) :
    mapGet m k = none ↔ k ∉ mapKeys m := by
  rw [← mapGet_isSome_iff]
  cases mapGet m k <;> simp

theorem mapSet_of_not_mem {β : Type} (m : List (Value × β)) (k : Value) (v : β)
    (h : k ∉ mapKeys m) : mapSet m k v = m ++ [(k, v)] := by
  induction m with
  | nil => rfl
  | cons e rest ih =>
    obtain ⟨k0, w⟩ := e
    simp only [mapKeys, List.map_cons, List.mem_cons, not_or] at h
    unfold mapSet
    rw [if_neg (fun hc => h.1 hc.symm)]
    rw [ih h.2]
    rfl

theorem mapKeys_mapSet_of_mem {β : Type} (m : List (Value × β)) (k : Value) (v : β)
    (h : k ∈ mapKeys m) : mapKeys (mapSet m k v) = mapKeys m := by
  induction m with
  | nil => simp [mapKeys] at h
  | cons e rest ih =>
    obtain ⟨k0, w⟩ := e
    unfold mapSet
    by_cases hk : k0 = k
    · rw [if_pos hk]
      rfl
    · rw [if_neg hk]
      simp only [mapKeys, List.map_cons, List.mem_cons] at h
      rcases h with h | h
      · exact absurd h.symm hk
      · simp only [mapKeys, List.map_cons]
        rw [show List.map Prod.fst (mapSet rest k v) = mapKeys (mapSet rest k v) from rfl, ih h]
        rfl

theorem mapKeys_mapSet_nodup {β : Type} (m : List (Value × β)) (k : Value) (v : β)
    (h : (mapKeys m).Nodup) : (mapKeys (mapSet m k v)).Nodup := by
  by_cases hk : k ∈ mapKeys m
  · rw [mapKeys_mapSet_of_mem m k v hk]
    exact h
  · rw [mapSet_of_not_mem m k v hk]
    simp only [mapKeys, List.map_append, List.map_cons, List.map_nil]
    rw [List.nodup_append]
    refine ⟨h, List.nodup_singleton k, ?_⟩
    intro a ha hb
    rw [List.mem_singleton] at hb
    subst hb
    exact hk ha

theorem mem_mapKeys_mapSet {β : Type} (m : List (Value × β)) (k k' : Value) (v : β) :
    k' ∈ mapKeys (mapSet m k v) ↔ k' = k ∨ k' ∈ mapKeys m := by
  rw [← mapGet_isSome_iff, ← mapGet_isSome_iff]
  by_cases h : k = k'
  · subst h
    rw [mapGet_mapSet_self]
    simp
  · rw [mapGet_mapSet_ne m k k' v h]
    constructor
    · intro hm
      exact Or.inr hm
    · intro hm
      rcases hm with hm | hm
      · exact absurd hm.symm h
      · exact hm

/-- The entry of a key after a pass depends on the records of its bucket only. -/
theorem groupFold_get {β : Type} (key : Record → Value) (upd : Option β → Record → β)
    (k : Value) (rest : List Record) :
    ∀ m : List (Value × β), mapGet (groupFold key upd rest m) k =
      bucketFold upd (rest.filter (fun r => decide (key r = k))) (mapGet m k) := by
  induction rest with
  | nil =>
    intro m
    rfl
  | cons item rest ih =>
    intro m
    unfold groupFold
    rw [ih]
    by_cases h : key item = k
    · rw [List.filter_cons_of_pos (by simpa using h)]
      conv => rhs; unfold bucketFold
      rw [← h, mapGet_mapSet_self]
    · rw [List.filter_cons_of_neg (by simpa using h), mapGet_mapSet_ne _ _ _ _ h]

theorem groupFold_nodup {β : Type} (key : Record → Value) (upd : Option β → Record → β)
    (rest : List Record) :
    ∀ m : List (Value × β), (mapKeys m).Nodup → (mapKeys (groupFold key upd rest m)).Nodup := by
  induction rest with
  | nil =>
    intro m h
    exact h
  | cons item rest ih =>
    intro m h
    unfold groupFold
    exact ih _ (mapKeys_mapSet_nodup m _ _ h)

theorem groupFold_keys {β : Type} (key : Record → Value) (upd : Option β → Record → β)
    (k : Value) (rest : List Record) :
    ∀ m : List (Value × β), k ∈ mapKeys (groupFold key upd rest m) ↔
      k ∈ mapKeys m ∨ ∃ r ∈ rest, key r = k := by
  induction rest with
  | nil =>
    intro m
    simp [groupFold]
  | cons item rest ih =>
    intro m
    unfold groupFold
    rw [ih, mem_mapKeys_mapSet]
    simp only [List.mem_cons, exists_eq_or_imp]
    constructor
    · rintro ((h | h) | h)
      · exact Or.inr (Or.inl h.symm)
      · exact Or.inl h
      · exact Or.inr (Or.inr h)
    · rintro (h | h | h)
      · exact Or.inl (Or.inr h)
      · exact Or.inl (Or.inl h.symm)
      · exact Or.inr h

/-- A pass that adds a weight per record leaves the sum of the weights of the
bucket, and no entry for an empty bucket. -/
theorem bucketFold_add {β : Type} [AddCommMonoid β] (w : Record → β) (l : List Record) :
    ∀ acc : Option β, bucketFold (fun acc r => acc.getD 0 + w r) l acc =
      if l = [] then acc else some (acc.getD 0 + (l.map w).sum) := by
  induction l with
  | nil =>
    intro acc
    rfl
  | cons x rest ih =>
    intro acc
    unfold bucketFold
    rw [ih, if_neg (List.cons_ne_nil x rest)]
    by_cases hr : rest = []
    · subst hr
      simp
    · rw [if_neg hr]
      simp [add_assoc]

theorem Count_loop_eq (g : Grouping) (rest : List Record) :
    ∀ m : List (Value × Int), Grouping.Count.loop g rest m =
      groupFold (fun item => valueKey (getFieldValue item g.field))
        (fun acc _ => acc.getD 0 + 1) rest m := by
  induction rest with
  | nil =>
    intro m
    rfl
  | cons item rest ih =>
    intro m
    unfold Grouping.Count.loop groupFold
    exact ih _

theorem Sum_loop_eq (g : Grouping) (sumField : String) (rest : List Record) :
    ∀ m : List (Value × ℚ), Grouping.Sum.loop g sumField rest m =
      groupFold (fun item => valueKey (getFieldValue item g.field))
        (fun acc item => acc.getD 0 + toFloat64 (getFieldValue item sumField)) rest m := by
  induction rest with
  | nil =>
    intro m
    rfl
  | cons item rest ih =>
    intro m
    unfold Grouping.Sum.loop groupFold
    exact ih _

theorem Avg_loop_eq (g : Grouping) (avgField : String) (rest : List Record) :
    ∀ (sums : List (Value × ℚ)) (counts : List (Value × Int)),
      Grouping.Avg.loop g avgField rest sums counts =
        (Grouping.Sum.loop g avgField rest sums, Grouping.Count.loop g rest counts) := by
  induction rest with
  | nil =>
    intro sums counts
    rfl
  | cons item rest ih =>
    intro sums counts
    unfold Grouping.Avg.loop Grouping.Sum.loop Grouping.Count.loop
    exact ih _ _

/-- The entry of a key in the result of `Count`: the size of its bucket, no entry
for an empty bucket. -/
theorem Count_get (p : Pipeline Record) (field : String) (k : Value) :
    mapGet (p.GroupBy field).Count k =
      if bucket field k p.data = [] then none
      else some ((bucket field k p.data).length : Int) := by
  unfold Grouping.Count
  rw [Count_loop_eq, groupFold_get]
  have h := bucketFold_add (fun _ => (1 : Int)) (bucket field k p.data) none
  simp only [Pipeline.GroupBy, Option.getD_none, zero_add] at h ⊢
  rw [show mapGet ([] : List (Value × Int)) k = none from rfl]
  unfold bucket at h ⊢
  rw [h]
  simp

theorem Sum_get (p : Pipeline Record) (field sumField : String) (k : Value) :
    mapGet ((p.GroupBy field).Sum sumField) k =
      if bucket field k p.data = [] then none
      else some (((bucket field k p.data).map
        (fun r => toFloat64 (getFieldValue r sumField))).sum) := by
  unfold Grouping.Sum
  rw [Sum_loop_eq, groupFold_get]
  have h := bucketFold_add (fun r => toFloat64 (getFieldValue r sumField))
    (bucket field k p.data) none
  simp only [Pipeline.GroupBy, Option.getD_none, zero_add] at h ⊢
  rw [show mapGet ([] : List (Value × ℚ)) k = none from rfl]
  unfold bucket at h ⊢
  rw [h]

theorem bucket_eq_nil_iff (field : String) (k : Value) (data : List Record) :
    bucket field k data = [] ↔ ¬ ∃ r ∈ data, valueKey (getFieldValue r field) = k := by
  unfold bucket
  rw [List.filter_eq_nil_iff]
  simp

theorem Count_keys (p : Pipeline Record) (field : String) (k : Value) :
    k ∈ mapKeys (p.GroupBy field).Count ↔
      ∃ r ∈ p.data, valueKey (getFieldValue r field) = k := by
  unfold Grouping.Count
  rw [Count_loop_eq, groupFold_keys]
  simp [mapKeys, Pipeline.GroupBy]

theorem Count_nodup (p : Pipeline Record) (field : String) :
    (mapKeys (p.GroupBy field).Count).Nodup := by
  unfold Grouping.Count
  rw [Count_loop_eq]
  exact groupFold_nodup _ _ _ _ (by simp [mapKeys])

theorem sum_mapSet (m : List (Value × Int)) (k : Value) (v : Int) :
    ((mapSet m k v).map Prod.snd).sum = (m.map Prod.snd).sum - (mapGet m k).getD 0 + v := by
  induction m with
  | nil => simp [mapSet, mapGet]
  | cons e rest ih =>
    obtain ⟨k0, w⟩ := e
    unfold mapSet mapGet
    by_cases h : k0 = k
    · rw [if_pos h, if_pos h]
      simp only [List.map_cons, List.sum_cons, Option.getD_some]
      omega
    · rw [if_neg h, if_neg h]
      simp only [List.map_cons, List.sum_cons]
      rw [ih]
      omega

theorem Count_loop_sum (g : Grouping) (rest : List Record) :
    ∀ m : List (Value × Int), ((Grouping.Count.loop g rest m).map Prod.snd).sum =
      (m.map Prod.snd).sum + (rest.length : Int) := by
  induction rest with
  | nil =>
    intro m
    simp [Grouping.Count.loop]
  | cons item rest ih =>
    intro m
    unfold Grouping.Count.loop
    simp only []
    rw [ih, sum_mapSet]
    simp only [List.length_cons, Nat.cast_add, Nat.cast_one]
    omega

/-- Claim C21.  `GroupBy(field).Count()` counts per bucket: the keys of the
returned map are distinct and are exactly the bucket keys
`valueKey(record.field)` that occur in the data, each key maps to the number of
records with that bucket key (a key that does not occur has no entry), and the
counts sum to `len(data)`. -/
theorem C21_groupBy_count (p : Pipeline Record) (field : String) :
    (mapKeys (p.GroupBy field).Count).Nodup ∧
    (∀ k : Value, k ∈ mapKeys (p.GroupBy field).Count ↔
      ∃ r ∈ p.data, valueKey (getFieldValue r field) = k) ∧
    (∀ k : Value, mapGet (p.GroupBy field).Count k =
      if bucket field k p.data = [] then none
      else some ((bucket field k p.data).length : Int)) ∧
    ((p.GroupBy field).Count.map Prod.snd).sum = (p.data.length : Int) := by
  refine ⟨Count_nodup p field, Count_keys p field, Count_get p field, ?_⟩
  unfold Grouping.Count
  rw [Count_loop_sum]
  simp [Pipeline.GroupBy]

theorem foldl_mapSet_fresh {β γ : Type} (f : Value × β → γ) (l : List (Value × β)) :
    ∀ acc : List (Value × γ), (mapKeys l).Nodup → (∀ k ∈ mapKeys l, k ∉ mapKeys acc) →
      l.foldl (fun result (entry : Value × β) => mapSet result entry.1 (f entry)) acc =
        acc ++ l.map (fun e => (e.1, f e)) := by
  induction l with
  | nil =>
    intro acc _ _
    simp
  | cons e rest ih =>
    intro acc hnd hfresh
    simp only [mapKeys, List.map_cons, List.nodup_cons] at hnd
    rw [List.foldl_cons, mapSet_of_not_mem acc e.1 (f e) (hfresh e.1 (by simp [mapKeys]))]
    rw [ih _ hnd.2]
    · simp
    · intro k hk hmem
      simp only [mapKeys, List.map_append, List.map_cons, List.map_nil, List.mem_append,
        List.mem_singleton] at hmem
      rcases hmem with hmem | hmem
      · exact hfresh k (by simp only [mapKeys, List.map_cons, List.mem_cons]; exact Or.inr hk) hmem
      · subst hmem
        exact hnd.1 hk

theorem mapGet_map {β γ : Type} (f : Value × β → γ) (l : List (Value × β)) (k : Value) :
    mapGet (l.map (fun e => (e.1, f e))) k = (mapGet l k).map (fun s => f (k, s)) := by
  induction l with
  | nil => rfl
  | cons e rest ih =>
    obtain ⟨k0, w⟩ := e
    simp only [List.map_cons]
    unfold mapGet
    by_cases h : k0 = k
    · subst h
      simp
    · rw [if_neg h, if_neg h]
      exact ih

theorem Sum_nodup (p : Pipeline Record) (field sumField : String) :
    (mapKeys ((p.GroupBy field).Sum sumField)).Nodup := by
  unfold Grouping.Sum
  rw [Sum_loop_eq]
  exact groupFold_nodup _ _ _ _ (by simp [mapKeys])

theorem Sum_keys (p : Pipeline Record) (field sumField : String) (k : Value) :
    k ∈ mapKeys ((p.GroupBy field).Sum sumField) ↔ k ∈ mapKeys (p.GroupBy field).Count := by
  unfold Grouping.Sum Grouping.Count
  rw [Sum_loop_eq, Count_loop_eq, groupFold_keys, groupFold_keys]
  simp [mapKeys]

/-- The result of `Avg` holds, for every entry of `Sum`, the sum divided by the
count of the key. -/
theorem Avg_eq (p : Pipeline Record) (field avgField : String) :
    (p.GroupBy field).Avg avgField =
      ((p.GroupBy field).Sum avgField).map (fun e =>
        (e.1, e.2 / (((mapGet (p.GroupBy field).Count e.1).getD 0 : Int) : ℚ))) := by
  unfold Grouping.Avg
  simp only [Avg_loop_eq]
  have h := foldl_mapSet_fresh
    (fun (e : Value × ℚ) => e.2 / (((mapGet (p.GroupBy field).Count e.1).getD 0 : Int) : ℚ))
    ((p.GroupBy field).Sum avgField) [] (Sum_nodup p field avgField) (by simp [mapKeys])
  rw [List.nil_append] at h
  exact h

theorem toFloat64_of_not_isNumber (v : Value) (h : v.isNumber = false) : toFloat64 v = 0 := by
  cases v <;> simp [Value.isNumber, toFloat64] at h ⊢

theorem getFieldValue_of_missing (item : Record) (fieldName : String)
    (h : item.lookup fieldName = none) : getFieldValue item fieldName = Value.nil := by
  unfold getFieldValue
  rw [h]

/-- Claim C22.  `GroupBy(field).Sum(g)` and `Avg(g)`, numbers taken as exact
rationals: the entry of `Sum(g)` for a key is the sum over the records of its
bucket of the numeric value of field `g`, where a value that is not a number
(also the `nil` of a missing field) counts as `0`; `Avg(g)` has distinct keys,
the same keys as `Count()`, and for every such key the count is at least `1` and
the entry of `Avg(g)` is the entry of `Sum(g)` divided by the count. -/
theorem C22_groupBy_sum_avg (p : Pipeline Record) (field g : String) :
    (∀ k : Value, mapGet ((p.GroupBy field).Sum g) k =
      if bucket field k p.data = [] then none
      else some (((bucket field k p.data).map (fun r => toFloat64 (getFieldValue r g))).sum)) ∧
    (∀ v : Value, v.isNumber = false → toFloat64 v = 0) ∧
    (∀ r : Record, r.lookup g = none → toFloat64 (getFieldValue r g) = 0) ∧
    (mapKeys ((p.GroupBy field).Avg g)).Nodup ∧
    (∀ k : Value, k ∈ mapKeys ((p.GroupBy field).Avg g) ↔ k ∈ mapKeys (p.GroupBy field).Count) ∧
    (∀ k : Value, k ∈ mapKeys (p.GroupBy field).Count →
      ∃ (s : ℚ) (c : Int), mapGet ((p.GroupBy field).Sum g) k = some s ∧
        mapGet (p.GroupBy field).Count k = some c ∧ 1 ≤ c ∧
        mapGet ((p.GroupBy field).Avg g) k = some (s / (c : ℚ))) := by
  have hkeys : mapKeys ((p.GroupBy field).Avg g) = mapKeys ((p.GroupBy field).Sum g) := by
    rw [Avg_eq]
    simp [mapKeys, Function.comp_def]
  refine ⟨Sum_get p field g, toFloat64_of_not_isNumber, ?_, ?_, ?_, ?_⟩
  · intro r hr
    rw [getFieldValue_of_missing r g hr]
    rfl
  · rw [hkeys]
    exact Sum_nodup p field g
  · intro k
    rw [hkeys]
    exact Sum_keys p field g k
  · intro k hk
    have hne : bucket field k p.data ≠ [] := by
      rw [Ne, bucket_eq_nil_iff, not_not]
      exact (Count_keys p field k).1 hk
    refine ⟨_, _, (Sum_get p field g k).trans (if_neg hne),
      (Count_get p field k).trans (if_neg hne), ?_, ?_⟩
    · have hpos := List.length_pos.2 hne
      omega
    · rw [Avg_eq, mapGet_map, (Sum_get p field g k).trans (if_neg hne)]
      simp only [Option.map_some']
      rw [(Count_get p field k).trans (if_neg hne)]
      rfl

theorem Count_loop_single (g : Grouping) (K : Value) (rest : List Record)
    (h : ∀ r ∈ rest, valueKey (getFieldValue r g.field) = K) :
    ∀ c : Int, Grouping.Count.loop g rest [(K, c)] = [(K, c + (rest.length : Int))] := by
  induction rest with
  | nil =>
    intro c
    simp [Grouping.Count.loop]
  | cons item rest ih =>
    intro c
    unfold Grouping.Count.loop
    simp only []
    rw [h item (List.mem_cons_self _ _)]
    have hset : mapSet [(K, c)] K ((mapGet [(K, c)] K).getD 0 + 1) = [(K, c + 1)] := by
      simp [mapSet, mapGet]
    rw [hset, ih (fun r hr => h r (List.mem_cons_of_mem _ hr))]
    simp only [List.length_cons, Nat.cast_add, Nat.cast_one]
    congr 2
    omega

/-- When every record has the bucket key `K`, the result of `Count` is empty for
an empty pipeline and the single entry `K ↦ len(data)` otherwise. -/
theorem Count_single_bucket (p : Pipeline Record) (field : String) (K : Value)
    (h : ∀ r ∈ p.data, valueKey (getFieldValue r field) = K) :
    (∀ k ∈ mapKeys (p.GroupBy field).Count, k = K) ∧
    (mapGet (p.GroupBy field).Count K).getD 0 = (p.data.length : Int) ∧
    (p.data ≠ [] → (p.GroupBy field).Count = [(K, (p.data.length : Int))]) := by
  refine ⟨?_, ?_, ?_⟩
  · intro k hk
    obtain ⟨r, hr, hrk⟩ := (Count_keys p field k).1 hk
    rw [← hrk]
    exact h r hr
  · rw [Count_get]
    have hb : bucket field K p.data = p.data := by
      unfold bucket
      rw [List.filter_eq_self]
      intro r hr
      simpa using h r hr
    rw [hb]
    cases hd : p.data with
    | nil => simp
    | cons x rest => simp
  · intro hne
    unfold Grouping.Count
    cases hd : p.data with
    | nil => exact absurd hd hne
    | cons x rest =>
      rw [hd] at h
      simp only [Pipeline.GroupBy, hd]
      unfold Grouping.Count.loop
      simp only []
      rw [h x (List.mem_cons_self _ _)]
      have hset : mapSet ([] : List (Value × Int)) K ((mapGet ([] : List (Value × Int)) K).getD 0 + 1) =
          [(K, 1)] := by
        simp [mapSet, mapGet]
      rw [hset, Count_loop_single ⟨p, field⟩ K rest (fun r hr => h r (List.mem_cons_of_mem _ hr))]
      simp only [List.length_cons, Nat.cast_add, Nat.cast_one]
      congr 2
      omega

/-- The empty pipeline satisfies the condition on the grouping field, and the
result of `Count` for it is the empty map: it has no key `"<complex>"`. -/
theorem C24_empty_pipeline_counterexample :
    (∀ r ∈ (From ([] : List Record)).data, ∃ tag : Nat,
      getFieldValue r "Tags" = Value.complex tag) ∧
    ((From ([] : List Record)).GroupBy "Tags").Count = [] ∧
    Value.str "<complex>" ∉ mapKeys ((From ([] : List Record)).GroupBy "Tags").Count :=
  ⟨by simp [From], rfl, by simp [mapKeys, Grouping.Count, Grouping.Count.loop, Pipeline.GroupBy, From]⟩

/-- Claim C24, amended.  Grouping by a composite or `nil` field yields fixed
buckets; `Count` is a total function.  When the grouping field of every record
is a composite value (slice or map), every key of `GroupBy(field).Count()` is
`"<complex>"`, the lookup of `"<complex>"` (which reads `0` for an absent key)
gives `len(data)`, and for a pipeline that is not empty the map is exactly the
single entry `"<complex>" ↦ len(data)`.  The same holds with the key `"<nil>"`
when the grouping field of every record is `nil`, and a record without the field
has the bucket key `"<nil>"`. -/
theorem C24_fixed_buckets (p : Pipeline Record) (field : String) :
    ((∀ r ∈ p.data, ∃ tag : Nat, getFieldValue r field = Value.complex tag) →
      (∀ k ∈ mapKeys (p.GroupBy field).Count, k = Value.str "<complex>") ∧
      (mapGet (p.GroupBy field).Count (Value.str "<complex>")).getD 0 = (p.data.length : Int) ∧
      (p.data ≠ [] →
        (p.GroupBy field).Count = [(Value.str "<complex>", (p.data.length : Int))])) ∧
    ((∀ r ∈ p.data, getFieldValue r field = Value.nil) →
      (∀ k ∈ mapKeys (p.GroupBy field).Count, k = Value.str "<nil>") ∧
      (mapGet (p.GroupBy field).Count (Value.str "<nil>")).getD 0 = (p.data.length : Int) ∧
      (p.data ≠ [] →
        (p.GroupBy field).Count = [(Value.str "<nil>", (p.data.length : Int))])) ∧
    (∀ r : Record, r.lookup field = none →
      valueKey (getFieldValue r field) = Value.str "<nil>") := by
  refine ⟨?_, ?_, ?_⟩
  · intro h
    apply Count_single_bucket
    intro r hr
    obtain ⟨tag, ht⟩ := h r hr
    rw [ht]
    rfl
  · intro h
    apply Count_single_bucket
    intro r hr
    rw [h r hr]
    rfl
  · intro r hr
    rw [getFieldValue_of_missing r field hr]
    rfl

theorem C24_fixed_buckets_witness :
    ((From [[("Tags", Value.complex 1)], [("Tags", Value.complex 2)]]).GroupBy "Tags").Count =
        [(Value.str "<complex>", 2)] ∧
      ((From [[("Name", Value.str "Ann")], [("Tags", Value.nil)]]).GroupBy "Tags").Count =
        [(Value.str "<nil>", 2)] :=
  ⟨((C24_fixed_buckets (From [[("Tags", Value.complex 1)], [("Tags", Value.complex 2)]])
      "Tags").1 (by
        intro r hr
        simp only [From, List.mem_cons, List.mem_singleton, List.not_mem_nil, or_false] at hr
        rcases hr with hr | hr
        · exact ⟨1, by rw [hr]; rfl⟩
        · exact ⟨2, by rw [hr]; rfl⟩)).2.2 (by simp [From]),
   ((C24_fixed_buckets (From [[("Name", Value.str "Ann")], [("Tags", Value.nil)]])
      "Tags").2.1 (by decide)).2.2 (by simp [From])⟩

theorem mapSet_of_get {β : Type} (m : List (Value × β)) (k : Value) (v : β)
    (h : mapGet m k = some v) : mapSet m k v = m := by
  induction m with
  | nil => simp [mapGet] at h
  | cons e rest ih =>
    obtain ⟨k0, w⟩ := e
    unfold mapGet at h
    unfold mapSet
    by_cases hk : k0 = k
    · rw [if_pos hk] at h
      rw [if_pos hk]
      cases h
      rfl
    · rw [if_neg hk] at h
      rw [if_neg hk, ih h]

theorem Min_loop_eq (g : Grouping) (minField : String) (rest : List Record) :
    ∀ m : List (Value × Value), Grouping.Min.loop g minField rest m =
      groupFold (fun item => valueKey (getFieldValue item g.field))
        (fun acc item => pickBest (fun val existing => decide (compareValues val existing < 0))
          acc (getFieldValue item minField)) rest m := by
  induction rest with
  | nil =>
    intro m
    rfl
  | cons item rest ih =>
    intro m
    unfold Grouping.Min.loop groupFold
    simp only []
    cases hget : mapGet m (valueKey (getFieldValue item g.field)) with
    | none =>
      simp only [pickBest]
      exact ih _
    | some existing =>
      simp only [pickBest]
      by_cases hlt : compareValues (getFieldValue item minField) existing < 0
      · rw [if_pos hlt, if_pos (by simpa using hlt)]
        exact ih _
      · rw [if_neg hlt, if_neg (by simpa using hlt), mapSet_of_get _ _ _ hget]
        exact ih _

theorem Max_loop_eq (g : Grouping) (maxField : String) (rest : List Record) :
    ∀ m : List (Value × Value), Grouping.Max.loop g maxField rest m =
      groupFold (fun item => valueKey (getFieldValue item g.field))
        (fun acc item => pickBest (fun val existing => decide (compareValues val existing > 0))
          acc (getFieldValue item maxField)) rest m := by
  induction rest with
  | nil =>
    intro m
    rfl
  | cons item rest ih =>
    intro m
    unfold Grouping.Max.loop groupFold
    simp only []
    cases hget : mapGet m (valueKey (getFieldValue item g.field)) with
    | none =>
      simp only [pickBest]
      exact ih _
    | some existing =>
      simp only [pickBest]
      by_cases hlt : compareValues (getFieldValue item maxField) existing > 0
      · rw [if_pos hlt, if_pos (by simpa using hlt)]
        exact ih _
      · rw [if_neg hlt, if_neg (by simpa using hlt), mapSet_of_get _ _ _ hget]
        exact ih _

/-- A pass that keeps the better of the entry and the value of each record ends
with a value that was met and that precedes every value met, for an order `le`
that is reflexive and transitive on the values met and agrees with `better`. -/
theorem bucketFold_best (val : Record → Value) (better : Value → Value → Bool)
    (S : Value → Prop) (le : Value → Value → Prop)
    (hrefl : ∀ a, le a a)
    (htrans : ∀ a b c, S a → S b → S c → le a b → le b c → le a c)
    (hbetter : ∀ a b, better a b = true → le a b)
    (hnot : ∀ a b, better a b = false → le b a) (l : List Record)
    (hl : ∀ r ∈ l, S (val r)) :
    ∀ e : Value, S e →
      ∃ m, bucketFold (fun acc item => pickBest better acc (val item)) l (some e) = some m ∧
        S m ∧ (m = e ∨ ∃ r ∈ l, val r = m) ∧ le m e ∧ ∀ r ∈ l, le m (val r) := by
  induction l with
  | nil =>
    intro e he
    exact ⟨e, rfl, he, Or.inl rfl, hrefl e, by simp⟩
  | cons x rest ih =>
    intro e he
    have hx : S (val x) := hl x (List.mem_cons_self _ _)
    have hrest : ∀ r ∈ rest, S (val r) := fun r hr => hl r (List.mem_cons_of_mem _ hr)
    unfold bucketFold
    simp only [pickBest]
    cases hb : better (val x) e with
    | true =>
      simp only [if_true]
      obtain ⟨m, hm, hS, hmem, hle, hall⟩ := ih hrest (val x) hx
      refine ⟨m, hm, hS, ?_, htrans _ _ _ hS hx he hle (hbetter _ _ hb), ?_⟩
      · rcases hmem with hmem | ⟨r, hr, hrm⟩
        · exact Or.inr ⟨x, List.mem_cons_self _ _, hmem.symm⟩
        · exact Or.inr ⟨r, List.mem_cons_of_mem _ hr, hrm⟩
      · intro r hr
        rcases List.mem_cons.1 hr with hr | hr
        · rw [hr]
          exact hle
        · exact hall r hr
    | false =>
      simp only [Bool.false_eq_true, if_false]
      obtain ⟨m, hm, hS, hmem, hle, hall⟩ := ih hrest e he
      refine ⟨m, hm, hS, ?_, hle, ?_⟩
      · rcases hmem with hmem | ⟨r, hr, hrm⟩
        · exact Or.inl hmem
        · exact Or.inr ⟨r, List.mem_cons_of_mem _ hr, hrm⟩
      · intro r hr
        rcases List.mem_cons.1 hr with hr | hr
        · rw [hr]
          exact htrans _ _ _ hS he hx hle (hnot _ _ hb)
        · exact hall r hr

/-- The same pass from an absent entry over a bucket that is not empty. -/
theorem bucketFold_best_none (val : Record → Value) (better : Value → Value → Bool)
    (S : Value → Prop) (le : Value → Value → Prop)
    (hrefl : ∀ a, le a a)
    (htrans : ∀ a b c, S a → S b → S c → le a b → le b c → le a c)
    (hbetter : ∀ a b, better a b = true → le a b)
    (hnot : ∀ a b, better a b = false → le b a) (l : List Record)
    (hl : ∀ r ∈ l, S (val r)) (hne : l ≠ []) :
    ∃ m, bucketFold (fun acc item => pickBest better acc (val item)) l none = some m ∧
      (∃ r ∈ l, val r = m) ∧ ∀ r ∈ l, le m (val r) := by
  cases l with
  | nil => exact absurd rfl hne
  | cons x rest =>
    obtain ⟨m, hm, -, hmem, hle, hall⟩ := bucketFold_best val better S le hrefl htrans hbetter hnot
      rest (fun r hr => hl r (List.mem_cons_of_mem _ hr)) (val x) (hl x (List.mem_cons_self _ _))
    refine ⟨m, hm, ?_, ?_⟩
    · rcases hmem with hmem | ⟨r, hr, hrm⟩
      · exact ⟨x, List.mem_cons_self _ _, hmem.symm⟩
      · exact ⟨r, List.mem_cons_of_mem _ hr, hrm⟩
    · intro r hr
      rcases List.mem_cons.1 hr with hr | hr
      · rw [hr]
        exact hle
      · exact hall r hr

theorem compareValues_self (a : Value) : compareValues a a = 0 := by
  have h := compareValues_antisymm a a
  omega

theorem mem_bucket (field : String) (k : Value) (data : List Record) (r : Record) :
    r ∈ bucket field k data ↔ r ∈ data ∧ valueKey (getFieldValue r field) = k := by
  unfold bucket
  simp

theorem Min_get (p : Pipeline Record) (field minField : String) (k : Value) :
    mapGet ((p.GroupBy field).Min minField) k =
      bucketFold (fun acc item => pickBest
        (fun val existing => decide (compareValues val existing < 0)) acc
        (getFieldValue item minField)) (bucket field k p.data) none := by
  unfold Grouping.Min
  rw [Min_loop_eq, groupFold_get]
  rfl

theorem Max_get (p : Pipeline Record) (field maxField : String) (k : Value) :
    mapGet ((p.GroupBy field).Max maxField) k =
      bucketFold (fun acc item => pickBest
        (fun val existing => decide (compareValues val existing > 0)) acc
        (getFieldValue item maxField)) (bucket field k p.data) none := by
  unfold Grouping.Max
  rw [Max_loop_eq, groupFold_get]
  rfl

theorem Min_keys (p : Pipeline Record) (field minField : String) (k : Value) :
    k ∈ mapKeys ((p.GroupBy field).Min minField) ↔ k ∈ mapKeys (p.GroupBy field).Count := by
  unfold Grouping.Min Grouping.Count
  rw [Min_loop_eq, Count_loop_eq, groupFold_keys, groupFold_keys]
  simp [mapKeys]

theorem Max_keys (p : Pipeline Record) (field maxField : String) (k : Value) :
    k ∈ mapKeys ((p.GroupBy field).Max maxField) ↔ k ∈ mapKeys (p.GroupBy field).Count := by
  unfold Grouping.Max Grouping.Count
  rw [Max_loop_eq, Count_loop_eq, groupFold_keys, groupFold_keys]
  simp [mapKeys]

/-- Claim C23.  `GroupBy(field).Min(g)` and `Max(g)` over a pipeline whose field
`g` holds numbers: both maps have the keys of `Count()`, and for every bucket key
`k` the entry of `Min(g)` is the `g` value of a record of the bucket and compares
`<= 0` (`compareValues`) with the `g` value of every record of the bucket, the
entry of `Max(g)` is the `g` value of a record of the bucket and compares `>= 0`
with every one, and the minimum compares `<= 0` with the maximum. -/
theorem C23_groupBy_min_max (p : Pipeline Record) (field g : String)
    (hnum : ∀ r ∈ p.data, (getFieldValue r g).isNumber = true) :
    (∀ k : Value, k ∈ mapKeys ((p.GroupBy field).Min g) ↔
      k ∈ mapKeys (p.GroupBy field).Count) ∧
    (∀ k : Value, k ∈ mapKeys ((p.GroupBy field).Max g) ↔
      k ∈ mapKeys (p.GroupBy field).Count) ∧
    (∀ k : Value, k ∈ mapKeys (p.GroupBy field).Count →
      ∃ mn mx : Value,
        mapGet ((p.GroupBy field).Min g) k = some mn ∧
        mapGet ((p.GroupBy field).Max g) k = some mx ∧
        (∃ r ∈ bucket field k p.data, getFieldValue r g = mn) ∧
        (∀ r ∈ bucket field k p.data, compareValues mn (getFieldValue r g) ≤ 0) ∧
        (∃ r ∈ bucket field k p.data, getFieldValue r g = mx) ∧
        (∀ r ∈ bucket field k p.data, compareValues mx (getFieldValue r g) ≥ 0) ∧
        compareValues mn mx ≤ 0) := by
  refine ⟨Min_keys p field g, Max_keys p field g, ?_⟩
  intro k hk
  have hne : bucket field k p.data ≠ [] := by
    rw [Ne, bucket_eq_nil_iff, not_not]
    exact (Count_keys p field k).1 hk
  have hS : ∀ r ∈ bucket field k p.data, (getFieldValue r g).isNumber = true :=
    fun r hr => hnum r ((mem_bucket field k p.data r).1 hr).1
  have hex : ∀ a c : Value, a.isNumber = true → ∀ b : Value,
      ¬ (a.isString = true ∧ c.isString = true ∧ b.isString = false ∧
        b ≠ Value.nil ∧ toFloat64 b = 0) :=
    fun a c ha b hc => isNumber_not_isString ha hc.1
  obtain ⟨mn, hmn, hmnMem, hmnLe⟩ := bucketFold_best_none (fun r => getFieldValue r g)
    (fun val existing => decide (compareValues val existing < 0))
    (fun v => v.isNumber = true) (fun a b => compareValues a b ≤ 0)
    (fun a => le_of_eq (compareValues_self a))
    (fun a b c ha _ _ hab hbc => compareValues_trans a b c (hex a c ha b) hab hbc)
    (fun a b h => le_of_lt (by simpa using h))
    (fun a b h => by
      have h1 : ¬ compareValues a b < 0 := by simpa using h
      have h2 := compareValues_antisymm a b
      omega)
    (bucket field k p.data) hS hne
  obtain ⟨mx, hmx, hmxMem, hmxLe⟩ := bucketFold_best_none (fun r => getFieldValue r g)
    (fun val existing => decide (compareValues val existing > 0))
    (fun v => v.isNumber = true) (fun a b => compareValues a b ≥ 0)
    (fun a => le_of_eq (compareValues_self a).symm)
    (fun a b c _ _ hc hab hbc => by
      have h1 := compareValues_antisymm a b
      have h2 := compareValues_antisymm b c
      have h3 := compareValues_antisymm a c
      have h4 := compareValues_trans c b a (hex c a hc b) (by omega) (by omega)
      omega)
    (fun a b h => le_of_lt (by simpa using h))
    (fun a b h => by
      have h1 : ¬ compareValues a b > 0 := by simpa using h
      have h2 := compareValues_antisymm a b
      omega)
    (bucket field k p.data) hS hne
  refine ⟨mn, mx, (Min_get p field g k).trans hmn, (Max_get p field g k).trans hmx,
    hmnMem, hmnLe, hmxMem, hmxLe, ?_⟩
  obtain ⟨r, hr, hrm⟩ := hmxMem
  rw [← hrm]
  exact hmnLe r hr

theorem C23_groupBy_min_max_witness :
    (∀ r ∈ (From sampleTeam).data, (getFieldValue r "Pay").isNumber = true) ∧
    (∀ k : Value, k ∈ mapKeys ((From sampleTeam).GroupBy "Dept").Count →
      ∃ mn mx : Value,
        mapGet (((From sampleTeam).GroupBy "Dept").Min "Pay") k = some mn ∧
        mapGet (((From sampleTeam).GroupBy "Dept").Max "Pay") k = some mx ∧
        (∃ r ∈ bucket "Dept" k (From sampleTeam).data, getFieldValue r "Pay" = mn) ∧
        (∀ r ∈ bucket "Dept" k (From sampleTeam).data,
          compareValues mn (getFieldValue r "Pay") ≤ 0) ∧
        (∃ r ∈ bucket "Dept" k (From sampleTeam).data, getFieldValue r "Pay" = mx) ∧
        (∀ r ∈ bucket "Dept" k (From sampleTeam).data,
          compareValues mx (getFieldValue r "Pay") ≥ 0) ∧
        compareValues mn mx ≤ 0) :=
  ⟨by decide, (C23_groupBy_min_max (From sampleTeam) "Dept" "Pay" (by decide)).2.2⟩

/-! ## Transform, Limit and Skip -/

theorem Transform_loop_eq {α : Type} (fn : α → α) (zero : α) (q : Pipeline α)
    (ri : List Int) (rest : List α) :
    ∀ done : List α,
      Pipeline.Transform.loop fn rest done.length
          ⟨q, done.map fn ++ List.replicate rest.length zero, ri⟩ =
        some ⟨q, done.map fn ++ rest.map fn, ri⟩ := by
  induction rest with
  | nil =>
    intro done
    simp [Pipeline.Transform.loop]
  | cons item rest ih =>
    intro done
    unfold Pipeline.Transform.loop
    have hset : goSet (done.map fn ++ List.replicate (item :: rest).length zero)
        (done.length : Int) (fn item) =
        some ((done ++ [item]).map fn ++ List.replicate rest.length zero) := by
      unfold goSet
      rw [if_pos (by simp)]
      simp only [Int.toNat_ofNat, List.length_cons, List.replicate_succ]
      rw [List.set_append_right _ _ (by simp)]
      simp
    simp only []
    rw [hset]
    have h := ih (done ++ [item])
    simp only [List.length_append, List.length_singleton, List.map_append, List.map_cons,
      List.map_nil, List.append_assoc, List.singleton_append] at h ⊢
    exact h

/-- The state at the end of `Transform` does not depend on the zero value: the
call never panics, the receiver is as before, `result` holds the image of every
record and `resultIdx` a copy of the indices. -/
theorem Transform_run_eq {α : Type} (zero : α) (p : Pipeline α) (fn : α → α) :
    Pipeline.Transform.run zero p fn =
      some ⟨p, p.data.map fn, goCopyInt p.data.length p.originalIndex⟩ := by
  unfold Pipeline.Transform.run
  have h := Transform_loop_eq fn zero p (goCopyInt p.data.length p.originalIndex) p.data []
  simp only [List.length_nil, List.map_nil, List.nil_append] at h
  exact h

/-- Claim C26.  `Transform` maps the records and leaves the indices alone: for a
pipeline `p` with as many indices as records and a total function `fn`, the
call ends without a panic, whatever the zero value of the record type; the
pipeline it returns has `Collect() == map fn (p.Collect())`, of the same length
and order, and `Which() == p.Which()`; and the receiver `p`, its data and its
indices, is at the end of the call what it was. -/
theorem C26_transform (α : Type) (zero : α) (p : Pipeline α) (fn : α → α)
    (hwf : p.data.length = p.originalIndex.length) :
    ∃ (s : TransformState α) (q : Pipeline α),
      Pipeline.Transform.run zero p fn = some s ∧ p.Transform zero fn = some q ∧
      q = ⟨s.result, s.resultIdx⟩ ∧
      q.Collect = p.Collect.map fn ∧
      q.Collect.length = p.Collect.length ∧
      q.Which = p.Which ∧
      s.receiver = p := by
  refine ⟨_, _, Transform_run_eq zero p fn, ?_, rfl, rfl, ?_, ?_, rfl⟩
  · unfold Pipeline.Transform
    rw [Transform_run_eq]
  · simp [Pipeline.Collect]
  · simp only [Pipeline.Which]
    exact goCopyInt_of_length hwf.symm

theorem C26_transform_witness :
    (From [1, 2, 3]).data.length = (From [1, 2, 3]).originalIndex.length ∧
    ∃ (s : TransformState Nat) (q : Pipeline Nat),
      Pipeline.Transform.run 0 (From [1, 2, 3]) (fun (n : Nat) => n * 10) = some s ∧
      (From [1, 2, 3]).Transform 0 (fun (n : Nat) => n * 10) = some q ∧
      q = ⟨s.result, s.resultIdx⟩ ∧
      q.Collect = (From [1, 2, 3]).Collect.map (fun (n : Nat) => n * 10) ∧
      q.Collect.length = (From [1, 2, 3]).Collect.length ∧
      q.Which = (From [1, 2, 3]).Which ∧
      s.receiver = From [1, 2, 3] :=
  ⟨by decide, C26_transform Nat 0 (From [1, 2, 3]) (fun n => n * 10) (by decide)⟩

/-- Claim C27.  `Limit` and `Skip` split the pipeline: for a pipeline `p` with as
many indices as records and `n >= 0`, `Limit(n)` holds the first
`min(n, len)` records with their indices, `Skip(n)` holds the records after
them with their indices, and the results of `Collect` and of `Which`
concatenate to those of `p`. -/
theorem C27_limit_skip_split {α : Type} (p : Pipeline α)
    (hwf : p.data.length = p.originalIndex.length) (n : Int) (hn : 0 ≤ n) :
    ∃ l s : Pipeline α, p.Limit n = some l ∧ p.Skip n = some s ∧
      l.data = p.data.take (min n.toNat p.data.length) ∧
      l.originalIndex = p.originalIndex.take (min n.toNat p.data.length) ∧
      s.data = p.data.drop (min n.toNat p.data.length) ∧
      s.originalIndex = p.originalIndex.drop (min n.toNat p.data.length) ∧
      l.Collect ++ s.Collect = p.Collect ∧
      l.Which ++ s.Which = p.Which := by
  have key : ∃ l s : Pipeline α, p.Limit n = some l ∧ p.Skip n = some s ∧
      l.data = p.data.take (min n.toNat p.data.length) ∧
      l.originalIndex = p.originalIndex.take (min n.toNat p.data.length) ∧
      s.data = p.data.drop (min n.toNat p.data.length) ∧
      s.originalIndex = p.originalIndex.drop (min n.toNat p.data.length) := by
    unfold Pipeline.Limit Pipeline.Skip
    by_cases hge : n ≥ (p.data.length : Int)
    · rw [if_pos hge, if_pos hge]
      have hmin : min n.toNat p.data.length = p.data.length := by omega
      refine ⟨p, Pipeline.empty, rfl, rfl, ?_, ?_, ?_, ?_⟩
      · rw [hmin, List.take_length]
      · rw [hmin, hwf, List.take_length]
      · rw [hmin, List.drop_length]
        rfl
      · rw [hmin, hwf, List.drop_length]
        rfl
    · rw [if_neg hge, if_neg hge]
      have hmin : min n.toNat p.data.length = n.toNat := by omega
      rw [goSlice_of_bounds p.data 0 n (by omega) (by omega) (by omega),
        goSlice_of_bounds p.originalIndex 0 n (by omega) (by omega) (by omega),
        goSlice_of_bounds p.data n _ (by omega) (by omega) (by omega),
        goSlice_of_bounds p.originalIndex n _ (by omega) (by omega) (by omega)]
      refine ⟨_, _, rfl, rfl, ?_, ?_, ?_, ?_⟩
      · rw [hmin]
        simp
      · rw [hmin]
        simp
      · rw [hmin]
        simp
      · rw [hmin]
        simp
  obtain ⟨l, s, hl, hs, h1, h2, h3, h4⟩ := key
  refine ⟨l, s, hl, hs, h1, h2, h3, h4, ?_, ?_⟩
  · simp only [Pipeline.Collect]
    rw [h1, h3, List.take_append_drop]
  · simp only [Pipeline.Which]
    rw [h2, h4, List.take_append_drop]

theorem C27_limit_skip_split_witness :
    (From ["A", "B", "C"]).data.length = (From ["A", "B", "C"]).originalIndex.length ∧
    (0 : Int) ≤ 2 ∧
    ∃ l s : Pipeline String, (From ["A", "B", "C"]).Limit 2 = some l ∧
      (From ["A", "B", "C"]).Skip 2 = some s ∧
      l.data = (From ["A", "B", "C"]).data.take (min (2 : Int).toNat (From ["A", "B", "C"]).data.length) ∧
      l.originalIndex =
        (From ["A", "B", "C"]).originalIndex.take (min (2 : Int).toNat (From ["A", "B", "C"]).data.length) ∧
      s.data = (From ["A", "B", "C"]).data.drop (min (2 : Int).toNat (From ["A", "B", "C"]).data.length) ∧
      s.originalIndex =
        (From ["A", "B", "C"]).originalIndex.drop (min (2 : Int).toNat (From ["A", "B", "C"]).data.length) ∧
      l.Collect ++ s.Collect = (From ["A", "B", "C"]).Collect ∧
      l.Which ++ s.Which = (From ["A", "B", "C"]).Which :=
  ⟨by decide, by decide, C27_limit_skip_split (From ["A", "B", "C"]) (by decide) 2 (by decide)⟩

/-- A negative count makes the slice expressions `p.data[:n]` and `p.data[n:]`
panic, for every pipeline. -/
theorem Limit_Skip_of_neg {α : Type} (p : Pipeline α) (n : Int) (hn : n < 0) :
    p.Limit n = none ∧ p.Skip n = none := by
  have h1 : goSlice p.data 0 n = none := by
    unfold goSlice
    rw [if_neg (by omega)]
  have h2 : goSlice p.data n p.data.length = none := by
    unfold goSlice
    rw [if_neg (by omega)]
  unfold Pipeline.Limit Pipeline.Skip
  rw [if_neg (by omega), if_neg (by omega), h1, h2]
  exact ⟨rfl, rfl⟩

/-- Claim C29, failing input.  `Limit(-1)` and `Skip(-1)` on the pipeline of one
record panic (`p.data[:-1]`, `p.data[-1:]`): no pipeline is returned. -/
theorem C29_limit_skip_negative_failing :
    (From ["A"]).Limit (-1) = none ∧ (From ["A"]).Skip (-1) = none := by
  decide

/-! ## Where the positional operators return a pipeline -/

theorem Slice_forward_total {α : Type} (p : Pipeline α)
    (hwf : p.data.length = p.originalIndex.length) (endPos step : Int) (hstep : 0 < step)
    (hend : endPos ≤ (p.data.length : Int)) (hwrap : (p.data.length : Int) + step ≤ 2 ^ 63) :
    ∀ (fuel : Nat) (i : Int) (r : List α) (ri : List Int), 0 ≤ i →
      (endPos - i).toNat ≤ fuel →
      ∃ q, Pipeline.Slice.forward p endPos step fuel i r ri = some q := by
  intro fuel
  induction fuel with
  | zero =>
    intro i r ri _ hf
    unfold Pipeline.Slice.forward
    rw [if_neg (by omega)]
    exact ⟨_, rfl⟩
  | succ fuel ih =>
    intro i r ri h0 hf
    unfold Pipeline.Slice.forward
    by_cases hlt : i < endPos
    · rw [if_pos hlt]
      obtain ⟨x, hx, -⟩ := goIndex_of_lt p.data i h0 (by omega)
      obtain ⟨k, hk, -⟩ := goIndex_of_lt p.originalIndex i h0 (by omega)
      rw [hx, hk]
      simp only []
      rw [wrapInt_of_inRange _ (by omega) (by omega)]
      exact ih _ _ _ (by omega) (by omega)
    · rw [if_neg hlt]
      exact ⟨_, rfl⟩

theorem Slice_backward_total {α : Type} (p : Pipeline α)
    (hwf : p.data.length = p.originalIndex.length) (startPos step : Int) (hstep : step < 0)
    (hlo : -2 ^ 63 ≤ step) (hstart : 0 ≤ startPos) (hlen : (p.data.length : Int) < 2 ^ 63) :
    ∀ (fuel : Nat) (i : Int) (r : List α) (ri : List Int), i < (p.data.length : Int) →
      (i + 1 - startPos).toNat ≤ fuel →
      ∃ q, Pipeline.Slice.backward p startPos step fuel i r ri = some q := by
  intro fuel
  induction fuel with
  | zero =>
    intro i r ri _ hf
    unfold Pipeline.Slice.backward
    rw [if_neg (by omega)]
    exact ⟨_, rfl⟩
  | succ fuel ih =>
    intro i r ri hi hf
    unfold Pipeline.Slice.backward
    by_cases hge : i ≥ startPos
    · rw [if_pos hge]
      obtain ⟨x, hx, -⟩ := goIndex_of_lt p.data i (by omega) hi
      obtain ⟨k, hk, -⟩ := goIndex_of_lt p.originalIndex i (by omega) (by omega)
      rw [hx, hk]
      simp only []
      rw [wrapInt_of_inRange _ (by omega) (by omega)]
      exact ih _ _ _ (by omega) (by omega)
    · rw [if_neg hge]
      exact ⟨_, rfl⟩

theorem rangeBounds_snd_ge {α : Type} (p : Pipeline α) (start endArg : Int)
    (hlo : -2 ^ 63 ≤ endArg) (hend : -2 ^ 63 < endArg ∨ 0 < p.data.length) :
    -2 ^ 63 < (p.rangeBounds start endArg).2 := by
  simp only [Pipeline.rangeBounds, Pipeline.normalizeIndex]
  split
  · split <;> omega
  · split
    · split
      · split <;> omega
      · split <;> omega
    · split
      · split
        · split <;> omega
        · split <;> omega
      · split
        · split <;> omega
        · split <;> omega

/-- `Slice` returns a pipeline whenever its counter cannot leave the range of a
Go `int`: the step added to the length stays within `1<<63`, and for a negative
step the end argument is not the least `int` on an empty pipeline. -/
theorem Slice_total_of_no_wrap {α : Type} (p : Pipeline α)
    (hwf : p.data.length = p.originalIndex.length) (start endArg step : Int)
    (hlen : (p.data.length : Int) < 2 ^ 63) (hlo : -2 ^ 63 ≤ step)
    (hwrap : (p.data.length : Int) + step ≤ 2 ^ 63) (hendLo : -2 ^ 63 ≤ endArg)
    (hend : step < 0 → -2 ^ 63 < endArg ∨ 0 < p.data.length) :
    ∃ q, p.Slice start endArg step = some q := by
  have h0 := rangeBounds_fst_nonneg p start endArg
  have h1 := rangeBounds_snd_le p start endArg
  unfold Pipeline.Slice
  simp only []
  by_cases hpos : (if step = 0 then 1 else step) > 0
  · rw [if_pos hpos]
    exact Slice_forward_total p hwf _ _ hpos h1 (by split <;> omega) _ _ _ _ h0 (by omega)
  · rw [if_neg hpos]
    have hneg : step < 0 := by
      split at hpos <;> omega
    have h2 := rangeBounds_snd_ge p start endArg hendLo (hend hneg)
    rw [wrapInt_of_inRange _ (by omega) (by omega)]
    exact Slice_backward_total p hwf _ _ (by split <;> omega) (by split <;> omega) h0 hlen
      _ _ _ _ (by omega) (by omega)

/-- `AtRow`, `RowRange` and `Tail` return a pipeline for all arguments. -/
theorem AtRow_RowRange_Tail_total {α : Type} (p : Pipeline α)
    (hwf : p.data.length = p.originalIndex.length) (indices : List Int) (start endArg n : Int) :
    (∃ q, p.AtRow indices = some q) ∧ (∃ q, p.RowRange start endArg = some q) ∧
      (∃ q, p.Tail n = some q) := by
  obtain ⟨q1, h1, -⟩ := AtRow_drawn p hwf indices
  obtain ⟨q2, h2, -⟩ := RowRange_drawn p hwf start endArg
  obtain ⟨q3, h3, -⟩ := Tail_drawn p hwf n
  exact ⟨⟨q1, h1⟩, ⟨q2, h2⟩, ⟨q3, h3⟩⟩

/-- Claim C28, failing inputs.  `Slice` is not total: on the pipeline of two
records `Slice(2, -1, 1<<63 - 1)` reads the second record, its counter wraps to
the least `int` and the next read panics; on the empty pipeline
`Slice(1, -1<<63, -1)` starts its counter at `endPos - 1`, which wraps to the
largest `int`, and the first read panics.  Both pipelines have as many indices
as records. -/
theorem C28_slice_panic_failing :
    (From ["A", "B"]).data.length = (From ["A", "B"]).originalIndex.length ∧
    (From ["A", "B"]).Slice 2 (-1) (2 ^ 63 - 1) = none ∧
    (From ([] : List String)).data.length = (From ([] : List String)).originalIndex.length ∧
    (From ([] : List String)).Slice 1 (-2 ^ 63) (-1) = none := by
  decide

/-! ## Numeric operators on values that are not numbers -/

theorem evaluate_single (p : Pipeline Record) (field : String)
    (fn : String → Record → Bool) (item : Record) :
    ((p.Where field).appendFilter fn).evaluate item = some (fn field item) := by
  rw [evaluate_eq]
  simp [Pipeline.Where, Condition.appendFilter, andOfOrGroups, splitGroups, groupsFrom]

theorem compareNumeric_of_not_isNumber (a b : Value) (h : a.isNumber = false) :
    compareNumeric a b ">" = decide (0 > toFloat64 b) ∧
    compareNumeric a b ">=" = decide (0 ≥ toFloat64 b) ∧
    compareNumeric a b "<" = decide (0 < toFloat64 b) ∧
    compareNumeric a b "<=" = decide (0 ≤ toFloat64 b) := by
  have h0 := toFloat64_of_not_isNumber a h
  refine ⟨?_, ?_, ?_, ?_⟩ <;> simp [compareNumeric, h0]

/-- Claim C30, failing input.  On the record `{Name: "Bob"}` the string field
`Name` passes `GreaterThan(-1)`: the field counts as `0`, which is greater than
`-1`; and the missing field `Age` passes `LessOrEqual(0)`. -/
theorem C30_string_field_failing :
    (getFieldValue [("Name", Value.str "Bob")] "Name").isNumber = false ∧
    (((From [[("Name", Value.str "Bob")]]).Where "Name").GreaterThan (Value.int (-1))).evaluate
      [("Name", Value.str "Bob")] = some true ∧
    (((From [[("Name", Value.str "Bob")]]).Where "Name").GreaterThan (Value.int (-1))).Collect =
      some [[("Name", Value.str "Bob")]] ∧
    (((From [[("Name", Value.str "Bob")]]).Where "Age").LessOrEqual (Value.int 0)).Collect =
      some [[("Name", Value.str "Bob")]] := by
  decide

/-- What the numeric operators compute on a record whose field value is not a
number (a string, a boolean, `nil`, a missing field, a composite value): they
compare `0` with the operand, whose numeric value is `0` as well when it is not
a number.  `GreaterThan(v)` holds iff `0 > v`, `GreaterOrEqual(v)` iff `0 >= v`,
`LessThan(v)` iff `0 < v`, `LessOrEqual(v)` iff `0 <= v`, and `Between(lo, hi)`
iff `lo <= 0 <= hi`. -/
theorem numeric_operators_on_non_numbers (p : Pipeline Record) (field : String)
    (item : Record) (v lo hi : Value) (h : (getFieldValue item field).isNumber = false) :
    ((p.Where field).GreaterThan v).evaluate item = some (decide (0 > toFloat64 v)) ∧
    ((p.Where field).GreaterOrEqual v).evaluate item = some (decide (0 ≥ toFloat64 v)) ∧
    ((p.Where field).LessThan v).evaluate item = some (decide (0 < toFloat64 v)) ∧
    ((p.Where field).LessOrEqual v).evaluate item = some (decide (0 ≤ toFloat64 v)) ∧
    ((p.Where field).Between lo hi).evaluate item =
      some (decide (toFloat64 lo ≤ 0) && decide (0 ≤ toFloat64 hi)) := by
  have hv := compareNumeric_of_not_isNumber (getFieldValue item field) v h
  have hlo := compareNumeric_of_not_isNumber (getFieldValue item field) lo h
  have hhi := compareNumeric_of_not_isNumber (getFieldValue item field) hi h
  refine ⟨?_, ?_, ?_, ?_, ?_⟩
  · unfold Condition.GreaterThan
    rw [evaluate_single, hv.1]
  · unfold Condition.GreaterOrEqual
    rw [evaluate_single, hv.2.1]
  · unfold Condition.LessThan
    rw [evaluate_single, hv.2.2.1]
  · unfold Condition.LessOrEqual
    rw [evaluate_single, hv.2.2.2]
  · unfold Condition.Between
    rw [evaluate_single, hlo.2.1, hhi.2.2.2]

theorem numeric_operators_on_non_numbers_example :
    (getFieldValue [("Name", Value.str "Bob")] "Name").isNumber = false ∧
    ((Pipeline.empty.Where "Name").GreaterThan (Value.int 5)).evaluate
      [("Name", Value.str "Bob")] = some (decide ((0 : ℚ) > toFloat64 (Value.int 5))) :=
  ⟨by decide,
   (numeric_operators_on_non_numbers Pipeline.empty "Name" [("Name", Value.str "Bob")]
      (Value.int 5) (Value.int 1) (Value.int 2) (by decide)).1⟩

/-! ## Distinct keeps the first record of every bucket -/

theorem zip_map_fst_map_snd {α β : Type} (l : List (α × β)) :
    (l.map Prod.fst).zip (l.map Prod.snd) = l := by
  induction l with
  | nil => rfl
  | cons x rest ih => simp [ih]

theorem keepFirst_sublist {α : Type} (key : α → Value) (l : List α) :
    ∀ seen : List Value, (keepFirst key seen l).Sublist l := by
  induction l with
  | nil =>
    intro seen
    exact List.Sublist.refl _
  | cons x rest ih =>
    intro seen
    unfold keepFirst
    split
    · exact (ih seen).cons x
    · exact (ih _).cons₂ x

theorem keepFirst_filter {α : Type} (key : α → Value) (k : Value) (l : List α) :
    ∀ seen : List Value, (keepFirst key seen l).filter (fun e => decide (key e = k)) =
      if k ∈ seen then [] else (l.find? (fun e => decide (key e = k))).toList := by
  induction l with
  | nil =>
    intro seen
    simp [keepFirst]
  | cons x rest ih =>
    intro seen
    unfold keepFirst
    by_cases hx : key x ∈ seen
    · rw [if_pos hx, ih]
      by_cases hk : k ∈ seen
      · rw [if_pos hk, if_pos hk]
      · rw [if_neg hk, if_neg hk]
        have hne : ¬ key x = k := fun h => hk (h ▸ hx)
        rw [List.find?_cons_of_neg _ (by simpa using hne)]
    · rw [if_neg hx]
      by_cases hkx : key x = k
      · rw [List.filter_cons_of_pos (by simpa using hkx), ih,
          if_pos (by rw [hkx]; exact List.mem_cons_self _ _),
          if_neg (by rw [← hkx]; exact hx),
          List.find?_cons_of_pos _ (by simpa using hkx)]
        rfl
      · rw [List.filter_cons_of_neg (by simpa using hkx), ih,
          List.find?_cons_of_neg _ (by simpa using hkx)]
        by_cases hk : k ∈ seen
        · rw [if_pos hk, if_pos (List.mem_cons_of_mem _ hk)]
        · rw [if_neg hk, if_neg (by
            intro hc
            rcases List.mem_cons.1 hc with hc | hc
            · exact hkx hc.symm
            · exact hk hc)]

theorem keepFirst_nodup {α : Type} (key : α → Value) (l : List α) :
    ∀ seen : List Value, ((keepFirst key seen l).map key).Nodup ∧
      ∀ y ∈ keepFirst key seen l, key y ∉ seen := by
  induction l with
  | nil =>
    intro seen
    simp [keepFirst]
  | cons x rest ih =>
    intro seen
    unfold keepFirst
    by_cases hx : key x ∈ seen
    · rw [if_pos hx]
      exact ih seen
    · rw [if_neg hx]
      obtain ⟨hnd, hfresh⟩ := ih (key x :: seen)
      refine ⟨?_, ?_⟩
      · rw [List.map_cons, List.nodup_cons]
        refine ⟨?_, hnd⟩
        intro hmem
        obtain ⟨y, hy, hyk⟩ := List.mem_map.1 hmem
        exact hfresh y hy (by rw [hyk]; exact List.mem_cons_self _ _)
      · intro y hy
        rcases List.mem_cons.1 hy with hy | hy
        · rw [hy]
          exact hx
        · exact fun hc => hfresh y hy (List.mem_cons_of_mem _ hc)

/-- The closed form of the loop of `Distinct` on a pipeline with as many indices
as records. -/
theorem Distinct_loop_eq (p : Pipeline Record)
    (hwf : p.data.length = p.originalIndex.length) (field : String) :
    ∀ (rest : List Record) (i : Nat) (seen : List Value) (r : List Record) (ri : List Int),
      p.data.drop i = rest →
      Pipeline.Distinct.loop p field rest i seen r ri =
        some ⟨r ++ (keepFirst (fun z : Record × Int => valueKey (getFieldValue z.1 field)) seen
            (rest.zip (p.originalIndex.drop i))).map Prod.fst,
          ri ++ (keepFirst (fun z : Record × Int => valueKey (getFieldValue z.1 field)) seen
            (rest.zip (p.originalIndex.drop i))).map Prod.snd⟩ := by
  intro rest
  induction rest with
  | nil => intro i seen r ri _; simp [Pipeline.Distinct.loop, keepFirst]
  | cons item rest ih =>
    intro i seen r ri hd
    obtain ⟨hi, hd2⟩ := drop_eq_cons hd
    have hlt : i < p.originalIndex.length := by
      have := (List.getElem?_eq_some.1 hi).1
      omega
    unfold Pipeline.Distinct.loop
    rw [List.drop_eq_getElem_cons hlt, List.zip_cons_cons]
    unfold keepFirst
    simp only []
    by_cases hc : valueKey (getFieldValue item field) ∈ seen
    · rw [if_pos hc, if_pos hc, ih _ _ _ _ hd2]
    · rw [if_neg hc, if_neg hc, goIndex_natCast, List.getElem?_eq_getElem hlt]
      simp only []
      rw [ih _ _ _ _ hd2]
      simp

/-- Claim C25.  `Distinct` keeps first-seen records: on a pipeline with as many
indices as records, `Distinct(field)` returns a pipeline with as many indices as
records whose pairs of record and index are a sub-list, in the original order,
of the pairs of the input; for every pair of the input, the result holds exactly
one pair with its bucket key, namely the first pair of the input with that key;
and no two records of the result share a bucket key. -/
theorem C25_distinct_first_seen (p : Pipeline Record)
    (hwf : p.data.length = p.originalIndex.length) (field : String) :
    ∃ q, p.Distinct field = some q ∧
      q.data.length = q.originalIndex.length ∧
      (q.data.zip q.originalIndex).Sublist (p.data.zip p.originalIndex) ∧
      q.data.Sublist p.data ∧
      (∀ z ∈ p.data.zip p.originalIndex, ∃ x,
        (p.data.zip p.originalIndex).find? (fun e =>
          decide (valueKey (getFieldValue e.1 field) = valueKey (getFieldValue z.1 field))) =
            some x ∧
        (q.data.zip q.originalIndex).filter (fun e =>
          decide (valueKey (getFieldValue e.1 field) = valueKey (getFieldValue z.1 field))) =
            [x]) ∧
      (q.data.map (fun r => valueKey (getFieldValue r field))).Nodup := by
  have hloop := Distinct_loop_eq p hwf field p.data 0 [] [] [] rfl
  simp only [List.drop_zero, List.nil_append] at hloop
  refine ⟨_, hloop, ?_, ?_, ?_, ?_, ?_⟩
  · simp
  · simp only []
    rw [zip_map_fst_map_snd]
    exact keepFirst_sublist _ _ _
  · simp only []
    have h := (keepFirst_sublist (fun z : Record × Int => valueKey (getFieldValue z.1 field))
      (p.data.zip p.originalIndex) []).map Prod.fst
    rw [List.map_fst_zip _ _ (by omega)] at h
    exact h
  · intro z hz
    simp only []
    rw [zip_map_fst_map_snd, keepFirst_filter, if_neg (List.not_mem_nil _)]
    cases hf : (p.data.zip p.originalIndex).find? (fun e =>
        decide (valueKey (getFieldValue e.1 field) = valueKey (getFieldValue z.1 field))) with
    | none =>
      rw [List.find?_eq_none] at hf
      exact absurd (by simp) (hf z hz)
    | some x => exact ⟨x, rfl, rfl⟩
  · simp only []
    have h := (keepFirst_nodup (fun z : Record × Int => valueKey (getFieldValue z.1 field))
      (p.data.zip p.originalIndex) []).1
    rw [List.map_map]
    exact h

theorem C25_distinct_first_seen_witness :
    (From sampleTeam).data.length = (From sampleTeam).originalIndex.length ∧
    ∃ q, (From sampleTeam).Distinct "Dept" = some q ∧
      q.data.length = q.originalIndex.length ∧
      (q.data.zip q.originalIndex).Sublist
        ((From sampleTeam).data.zip (From sampleTeam).originalIndex) ∧
      q.data.Sublist (From sampleTeam).data ∧
      (∀ z ∈ (From sampleTeam).data.zip (From sampleTeam).originalIndex, ∃ x,
        ((From sampleTeam).data.zip (From sampleTeam).originalIndex).find? (fun e =>
          decide (valueKey (getFieldValue e.1 "Dept") = valueKey (getFieldValue z.1 "Dept"))) =
            some x ∧
        (q.data.zip q.originalIndex).filter (fun e =>
          decide (valueKey (getFieldValue e.1 "Dept") = valueKey (getFieldValue z.1 "Dept"))) =
            [x]) ∧
      (q.data.map (fun r => valueKey (getFieldValue r "Dept"))).Nodup :=
  ⟨by decide, C25_distinct_first_seen (From sampleTeam) (by decide) "Dept"⟩

/-! ## Tail, RowRange and Slice against their reference definitions -/

/-- Claim C31.  `Tail(n)` on a pipeline with as many indices as records: the
empty pipeline when `n <= 0`, the pipeline itself when `n >= len`, and for
`0 < n < len` exactly the last `n` records, in their order, with the last `n`
indices. -/
theorem C31_tail (α : Type) (p : Pipeline α) (n : Int)
    (hwf : p.data.length = p.originalIndex.length) :
    (n ≤ 0 → p.Tail n = some ⟨[], []⟩) ∧
    (0 < n → n ≥ (p.data.length : Int) → p.Tail n = some p) ∧
    (0 < n → n < (p.data.length : Int) →
      p.Tail n = some ⟨p.data.drop (p.data.length - n.toNat),
        p.originalIndex.drop (p.data.length - n.toNat)⟩ ∧
      (p.data.drop (p.data.length - n.toNat)).length = n.toNat ∧
      (p.originalIndex.drop (p.data.length - n.toNat)).length = n.toNat) := by
  refine ⟨?_, ?_, ?_⟩
  · intro hn
    unfold Pipeline.Tail
    rw [if_pos hn]
    rfl
  · intro hn hge
    unfold Pipeline.Tail
    rw [if_neg (by omega), if_pos hge]
  · intro hn hlt
    refine ⟨?_, ?_, ?_⟩
    · unfold Pipeline.Tail
      rw [if_neg (by omega), if_neg (by omega)]
      simp only []
      rw [goSlice_of_bounds p.data _ _ (by omega) (by omega) (by omega),
        goSlice_of_bounds p.originalIndex _ _ (by omega) (by omega) (by omega)]
      simp only []
      rw [goCopyInt_of_length (by
        rw [length_take_drop p.originalIndex _ _ (by omega) (by omega) (by omega)]
        omega)]
      have h1 : ((p.data.length : Int) - n).toNat = p.data.length - n.toNat := by omega
      have h2 : ((p.data.length : Int)).toNat = p.data.length := by omega
      have h3 : ((p.originalIndex.length : Int)).toNat = p.originalIndex.length := by omega
      rw [h1, h2, h3, List.take_length, List.take_length]
    · rw [List.length_drop]
      omega
    · rw [List.length_drop]
      omega

theorem C31_tail_witness :
    (From ["A", "B", "C", "D", "E"]).data.length =
      (From ["A", "B", "C", "D", "E"]).originalIndex.length ∧
    (From ["A", "B", "C", "D", "E"]).Tail 2 = some ⟨["D", "E"], [4, 5]⟩ :=
  ⟨by decide,
   (((C31_tail String (From ["A", "B", "C", "D", "E"]) 2 (by decide)).2.2
      (by decide) (by decide)).1).trans (by decide)⟩

/-- The closed form of `RowRange` on a pipeline with as many indices as records:
the records and indices from the start position up to the end position. -/
theorem RowRange_eq_take_drop {α : Type} (p : Pipeline α)
    (hwf : p.data.length = p.originalIndex.length) (start endArg : Int) :
    p.RowRange start endArg =
      some ⟨(p.data.take (p.rangeBounds start endArg).2.toNat).drop
          (p.rangeBounds start endArg).1.toNat,
        (p.originalIndex.take (p.rangeBounds start endArg).2.toNat).drop
          (p.rangeBounds start endArg).1.toNat⟩ := by
  have h0 := rangeBounds_fst_nonneg p start endArg
  have h1 := rangeBounds_snd_le p start endArg
  unfold Pipeline.RowRange
  simp only []
  generalize (p.rangeBounds start endArg).1 = lo at h0 ⊢
  generalize (p.rangeBounds start endArg).2 = hi at h1 ⊢
  by_cases hge : lo ≥ hi
  · rw [if_pos hge]
    have hd : ∀ (β : Type) (l : List β), (l.take hi.toNat).drop lo.toNat = [] := by
      intro β l
      apply List.drop_eq_nil_of_le
      rw [List.length_take]
      omega
    rw [hd, hd]
    rfl
  · rw [if_neg hge]
    rw [goSlice_of_bounds p.data _ _ h0 (by omega) h1,
      goSlice_of_bounds p.originalIndex _ _ h0 (by omega) (by omega)]
    simp only []
    rw [goCopyInt_of_length (length_take_drop p.originalIndex _ _ h0 (by omega) (by omega))]

theorem rangeBounds_snd_toEnd {α : Type} (p : Pipeline α) (start endArg : Int)
    (h : endArg = -1 ∨ endArg = 0 ∨ endArg = -((p.data.length : Int) + 1)) :
    (p.rangeBounds start endArg).2 = (p.data.length : Int) := by
  simp only [Pipeline.rangeBounds, Pipeline.normalizeIndex]
  split_ifs <;> omega

theorem rangeBounds_snd_neg {α : Type} (p : Pipeline α) (start endArg : Int)
    (h : endArg < -((p.data.length : Int) + 1)) :
    (p.rangeBounds start endArg).2 < 0 := by
  simp only [Pipeline.rangeBounds, Pipeline.normalizeIndex]
  split_ifs <;> omega

theorem rangeBounds_snd_of_neg {α : Type} (p : Pipeline α) (start : Int) (k : Nat)
    (h2 : 2 ≤ k) (hk : k ≤ p.data.length) :
    (p.rangeBounds start (-(k : Int))).2 = ((p.data.length - k : Nat) : Int) := by
  simp only [Pipeline.rangeBounds, Pipeline.normalizeIndex]
  split_ifs <;> omega

/-- Claim C38.  `RowRange` reads every end bound that normalises to `-1` as "to
the end": on a pipeline of length `n` with as many indices as records,
`RowRange(start, -1)` returns the records from the start position `lo` on,
`RowRange(start, 0)` and `RowRange(start, -(n+1))` return the same pipeline,
`RowRange(start, end)` is empty for every `end < -(n+1)`, and
`RowRange(start, -k)` for `2 <= k <= n` returns the records from `lo` up to, not
including, the last `k` records. -/
theorem C38_rowRange_end (α : Type) (p : Pipeline α) (start : Int)
    (hwf : p.data.length = p.originalIndex.length) :
    p.RowRange start (-1) =
      some ⟨p.data.drop (p.rangeBounds start (-1)).1.toNat,
        p.originalIndex.drop (p.rangeBounds start (-1)).1.toNat⟩ ∧
    p.RowRange start 0 = p.RowRange start (-1) ∧
    p.RowRange start (-((p.data.length : Int) + 1)) = p.RowRange start (-1) ∧
    (∀ endArg : Int, endArg < -((p.data.length : Int) + 1) →
      p.RowRange start endArg = some ⟨[], []⟩) ∧
    (∀ k : Nat, 2 ≤ k → k ≤ p.data.length →
      p.RowRange start (-(k : Int)) =
        some ⟨(p.data.take (p.data.length - k)).drop (p.rangeBounds start (-1)).1.toNat,
          (p.originalIndex.take (p.data.length - k)).drop
            (p.rangeBounds start (-1)).1.toNat⟩) := by
  have hfst : ∀ e : Int, (p.rangeBounds start e).1 = (p.rangeBounds start (-1)).1 :=
    fun _ => rfl
  have hend : ∀ e : Int, (e = -1 ∨ e = 0 ∨ e = -((p.data.length : Int) + 1)) →
      p.RowRange start e =
        some ⟨p.data.drop (p.rangeBounds start (-1)).1.toNat,
          p.originalIndex.drop (p.rangeBounds start (-1)).1.toNat⟩ := by
    intro e he
    rw [RowRange_eq_take_drop p hwf, rangeBounds_snd_toEnd p start e he, hfst e]
    have h1 : ((p.data.length : Int)).toNat = p.data.length := by omega
    rw [h1, List.take_length, hwf, List.take_length]
  refine ⟨hend _ (Or.inl rfl), ?_, ?_, ?_, ?_⟩
  · rw [hend 0 (Or.inr (Or.inl rfl)), hend _ (Or.inl rfl)]
  · rw [hend _ (Or.inr (Or.inr rfl)), hend _ (Or.inl rfl)]
  · intro e he
    have hneg := rangeBounds_snd_neg p start e he
    rw [RowRange_eq_take_drop p hwf]
    have h0 : (p.rangeBounds start e).2.toNat = 0 := by omega
    rw [h0]
    simp
  · intro k h2 hk
    rw [RowRange_eq_take_drop p hwf, rangeBounds_snd_of_neg p start k h2 hk, hfst]
    simp

theorem C38_rowRange_end_witness :
    (From ["A", "B", "C", "D", "E"]).data.length =
      (From ["A", "B", "C", "D", "E"]).originalIndex.length ∧
    (From ["A", "B", "C", "D", "E"]).RowRange 2 0 = some ⟨["B", "C", "D", "E"], [2, 3, 4, 5]⟩ ∧
    (From ["A", "B", "C", "D", "E"]).RowRange 2 (-6) =
      some ⟨["B", "C", "D", "E"], [2, 3, 4, 5]⟩ ∧
    (From ["A", "B", "C", "D", "E"]).RowRange 2 (-7) = some ⟨[], []⟩ ∧
    (From ["A", "B", "C", "D", "E"]).RowRange 2 (-2) = some ⟨["B", "C"], [2, 3]⟩ :=
  have h := C38_rowRange_end String (From ["A", "B", "C", "D", "E"]) 2 (by decide)
  ⟨by decide, h.2.1.trans (by decide), h.2.2.1.trans (by decide),
    h.2.2.2.1 (-7) (by decide), (h.2.2.2.2 2 (by decide) (by decide)).trans (by decide)⟩

theorem Slice_forward_eq_stepsUp {α : Type} (p : Pipeline α)
    (hwf : p.data.length = p.originalIndex.length) (endPos step : Int) (hstep : 0 < step)
    (hend : endPos ≤ (p.data.length : Int)) (hwrap : (p.data.length : Int) + step ≤ 2 ^ 63) :
    ∀ (fuel : Nat) (i : Int) (r : List α) (ri : List Int), 0 ≤ i →
      (endPos - i).toNat ≤ fuel →
      Pipeline.Slice.forward p endPos step fuel i r ri =
        some ⟨r ++ (stepsUp endPos step fuel i).filterMap (goIndex p.data),
          ri ++ (stepsUp endPos step fuel i).filterMap (goIndex p.originalIndex)⟩ := by
  intro fuel
  induction fuel with
  | zero =>
    intro i r ri _ hf
    unfold Pipeline.Slice.forward
    rw [if_neg (by omega)]
    simp [stepsUp]
  | succ fuel ih =>
    intro i r ri h0 hf
    unfold Pipeline.Slice.forward stepsUp
    by_cases hlt : i < endPos
    · rw [if_pos hlt, if_pos hlt]
      obtain ⟨x, hx, -⟩ := goIndex_of_lt p.data i h0 (by omega)
      obtain ⟨k, hk, -⟩ := goIndex_of_lt p.originalIndex i h0 (by omega)
      rw [hx, hk]
      simp only []
      rw [wrapInt_of_inRange _ (by omega) (by omega), ih _ _ _ (by omega) (by omega)]
      simp [List.filterMap_cons, hx, hk]
    · rw [if_neg hlt, if_neg hlt]
      simp

theorem Slice_backward_eq_stepsDown {α : Type} (p : Pipeline α)
    (hwf : p.data.length = p.originalIndex.length) (startPos step : Int) (hstep : step < 0)
    (hlo : -2 ^ 63 ≤ step) (hstart : 0 ≤ startPos) (hlen : (p.data.length : Int) < 2 ^ 63) :
    ∀ (fuel : Nat) (i : Int) (r : List α) (ri : List Int), i < (p.data.length : Int) →
      (i + 1 - startPos).toNat ≤ fuel →
      Pipeline.Slice.backward p startPos step fuel i r ri =
        some ⟨r ++ (stepsDown startPos step fuel i).filterMap (goIndex p.data),
          ri ++ (stepsDown startPos step fuel i).filterMap (goIndex p.originalIndex)⟩ := by
  intro fuel
  induction fuel with
  | zero =>
    intro i r ri _ hf
    unfold Pipeline.Slice.backward
    rw [if_neg (by omega)]
    simp [stepsDown]
  | succ fuel ih =>
    intro i r ri hi hf
    unfold Pipeline.Slice.backward stepsDown
    by_cases hge : i ≥ startPos
    · rw [if_pos hge, if_pos hge]
      obtain ⟨x, hx, -⟩ := goIndex_of_lt p.data i (by omega) hi
      obtain ⟨k, hk, -⟩ := goIndex_of_lt p.originalIndex i (by omega) (by omega)
      rw [hx, hk]
      simp only []
      rw [wrapInt_of_inRange _ (by omega) (by omega), ih _ _ _ (by omega) (by omega)]
      simp [List.filterMap_cons, hx, hk]
    · rw [if_neg hge, if_neg hge]
      simp

theorem range_succ_map {β : Type} (f : Nat → β) (n : Nat) :
    (List.range (n + 1)).map f = f 0 :: (List.range n).map (fun t => f (t + 1)) := by
  rw [List.range_succ_eq_map, List.map_cons, List.map_map]
  rfl

theorem stepsUp_eq_positionsUp (hi step : Int) (hstep : 0 < step) :
    ∀ (n : Nat) (i : Int), stepsUp hi step n i = positionsUp i hi step n := by
  intro n
  induction n with
  | zero =>
    intro i
    rfl
  | succ n ih =>
    intro i
    unfold stepsUp positionsUp
    rw [range_succ_map]
    have hmap : (List.range n).map (fun (t : Nat) => i + ((t + 1 : Nat) : Int) * step) =
        (List.range n).map (fun (t : Nat) => i + step + (t : Int) * step) := by
      apply List.map_congr_left
      intro t _
      push_cast
      ring
    rw [hmap]
    have h0 : i + ((0 : Nat) : Int) * step = i := by simp
    rw [h0]
    by_cases hlt : i < hi
    · rw [if_pos hlt, List.filter_cons_of_pos (by simpa using hlt), ih]
      rfl
    · rw [if_neg hlt, List.filter_cons_of_neg (by simpa using hlt)]
      symm
      rw [List.filter_eq_nil_iff]
      intro x hx
      obtain ⟨t, -, rfl⟩ := List.mem_map.1 hx
      have : 0 ≤ (t : Int) * step := Int.mul_nonneg (by omega) (by omega)
      simp only [decide_eq_true_eq]
      omega

theorem stepsDown_eq_positionsDown (lo step : Int) (hstep : step < 0) :
    ∀ (n : Nat) (i : Int), stepsDown lo step n i = positionsDown lo (i + 1) step n := by
  intro n
  induction n with
  | zero =>
    intro i
    rfl
  | succ n ih =>
    intro i
    unfold stepsDown positionsDown
    rw [range_succ_map]
    have hmap : (List.range n).map (fun (t : Nat) => i + 1 - 1 + ((t + 1 : Nat) : Int) * step) =
        (List.range n).map (fun (t : Nat) => i + step + 1 - 1 + (t : Int) * step) := by
      apply List.map_congr_left
      intro t _
      push_cast
      ring
    rw [hmap]
    have h0 : i + 1 - 1 + ((0 : Nat) : Int) * step = i := by simp
    rw [h0]
    by_cases hge : i ≥ lo
    · rw [if_pos hge, List.filter_cons_of_pos (by simpa using hge), ih]
      rfl
    · rw [if_neg hge, List.filter_cons_of_neg (by simpa using hge)]
      symm
      rw [List.filter_eq_nil_iff]
      intro x hx
      obtain ⟨t, -, rfl⟩ := List.mem_map.1 hx
      have : (t : Int) * step ≤ 0 := Int.mul_nonpos_of_nonneg_of_nonpos (by omega) (by omega)
      simp only [decide_eq_true_eq]
      omega

theorem positionsUp_succ (lo hi step : Int) (n : Nat) (hlo : 0 ≤ lo) (hstep : 0 < step)
    (hhi : hi ≤ (n : Int)) : positionsUp lo hi step (n + 1) = positionsUp lo hi step n := by
  unfold positionsUp
  rw [List.range_succ, List.map_append, List.filter_append, List.map_singleton,
    List.filter_cons_of_neg, List.filter_nil, List.append_nil]
  have : (n : Int) ≤ (n : Int) * step := by nlinarith
  simp only [decide_eq_true_eq]
  omega

theorem positionsDown_succ (lo hi step : Int) (n : Nat) (hlo : 0 ≤ lo) (hstep : step < 0)
    (hhi : hi ≤ (n : Int)) : positionsDown lo hi step (n + 1) = positionsDown lo hi step n := by
  unfold positionsDown
  rw [List.range_succ, List.map_append, List.filter_append, List.map_singleton,
    List.filter_cons_of_neg, List.filter_nil, List.append_nil]
  have : (n : Int) * step ≤ -(n : Int) := by nlinarith
  simp only [decide_eq_true_eq]
  omega

/-- `Slice` equals its reference definition whenever its counter cannot leave
the range of a Go `int` (the conditions of `Slice_total_of_no_wrap`). -/
theorem Slice_eq_reference {α : Type} (p : Pipeline α)
    (hwf : p.data.length = p.originalIndex.length) (start endArg step : Int)
    (hlen : (p.data.length : Int) < 2 ^ 63) (hlo : -2 ^ 63 ≤ step)
    (hwrap : (p.data.length : Int) + step ≤ 2 ^ 63) (hendLo : -2 ^ 63 ≤ endArg)
    (hend : step < 0 → -2 ^ 63 < endArg ∨ 0 < p.data.length) :
    p.Slice start endArg step = some (Slice.reference p start endArg step) := by
  have h0 := rangeBounds_fst_nonneg p start endArg
  have h1 := rangeBounds_snd_le p start endArg
  unfold Pipeline.Slice Slice.reference
  simp only []
  by_cases hpos : (if step = 0 then 1 else step) > 0
  · rw [if_pos hpos, if_pos hpos]
    rw [Slice_forward_eq_stepsUp p hwf _ _ hpos h1 (by split <;> omega) _ _ _ _ h0 (by omega),
      stepsUp_eq_positionsUp _ _ hpos, positionsUp_succ _ _ _ _ h0 hpos h1]
    rfl
  · rw [if_neg hpos, if_neg hpos]
    have hneg : step < 0 := by
      split at hpos <;> omega
    have h2 := rangeBounds_snd_ge p start endArg hendLo (hend hneg)
    rw [wrapInt_of_inRange _ (by omega) (by omega)]
    rw [Slice_backward_eq_stepsDown p hwf _ _ (by split <;> omega) (by split <;> omega) h0 hlen
        _ _ _ _ (by omega) (by omega),
      stepsDown_eq_positionsDown _ _ (by split <;> omega),
      positionsDown_succ _ _ _ _ h0 (by split <;> omega) (by omega)]
    simp

theorem filterMap_stepsUp_one {β : Type} (l : List β) (hi : Int) (hhi : hi ≤ (l.length : Int)) :
    ∀ (n : Nat) (i : Int), 0 ≤ i → (hi - i).toNat ≤ n →
      (stepsUp hi 1 n i).filterMap (goIndex l) = (l.take hi.toNat).drop i.toNat := by
  intro n
  induction n with
  | zero =>
    intro i _ hf
    unfold stepsUp
    symm
    apply List.drop_eq_nil_of_le
    rw [List.length_take]
    omega
  | succ n ih =>
    intro i h0 hf
    unfold stepsUp
    by_cases hlt : i < hi
    · rw [if_pos hlt]
      obtain ⟨x, hx, hx2⟩ := goIndex_of_lt l i h0 (by omega)
      rw [List.filterMap_cons, hx]
      simp only []
      rw [ih (i + 1) (by omega) (by omega)]
      have hlt2 : i.toNat < (l.take hi.toNat).length := by
        rw [List.length_take]
        omega
      rw [List.drop_eq_getElem_cons hlt2]
      have hx3 : (l.take hi.toNat)[i.toNat] = x := by
        have h3 : (l.take hi.toNat)[i.toNat]? = some x := by
          rw [List.getElem?_take]
          rw [if_pos (by omega)]
          exact hx2
        rw [List.getElem?_eq_getElem hlt2] at h3
        exact Option.some.inj h3
      rw [hx3]
      have h4 : (i + 1).toNat = i.toNat + 1 := by omega
      rw [h4]
    · rw [if_neg hlt]
      symm
      simp only [List.filterMap_nil]
      apply List.drop_eq_nil_of_le
      rw [List.length_take]
      omega

/-- `Slice` with step `1` on a pipeline with as many indices as records, whose
length fits a Go `int`: the records and indices between the bounds. -/
theorem Slice_one_eq_take_drop {α : Type} (p : Pipeline α)
    (hwf : p.data.length = p.originalIndex.length) (hlen : (p.data.length : Int) < 2 ^ 63)
    (start endArg : Int) :
    p.Slice start endArg 1 =
      some ⟨(p.data.take (p.rangeBounds start endArg).2.toNat).drop
          (p.rangeBounds start endArg).1.toNat,
        (p.originalIndex.take (p.rangeBounds start endArg).2.toNat).drop
          (p.rangeBounds start endArg).1.toNat⟩ := by
  have h0 := rangeBounds_fst_nonneg p start endArg
  have h1 := rangeBounds_snd_le p start endArg
  unfold Pipeline.Slice
  simp only []
  rw [if_neg (by decide : ¬ (1 : Int) = 0), if_pos (by decide : (1 : Int) > 0)]
  rw [Slice_forward_eq_stepsUp p hwf _ 1 (by decide) h1 (by omega) _ _ _ _ h0 (by omega),
    filterMap_stepsUp_one p.data _ h1 _ _ h0 (by omega),
    filterMap_stepsUp_one p.originalIndex _ (by omega) _ _ h0 (by omega)]
  rfl

/-- Claim C37.  `Slice` with step `1` is `RowRange`: on a pipeline with as many
indices as records, whose length fits a Go `int`, `Slice(start, end, 1)`,
`Slice(start, end, 0)` and `RowRange(start, end)` return the same pipeline, the
same records with the same original indices, for all `start` and `end`. -/
theorem C37_slice_one_is_rowRange (α : Type) (p : Pipeline α) (start endArg : Int)
    (hwf : p.data.length = p.originalIndex.length) (hlen : (p.data.length : Int) < 2 ^ 63) :
    ∃ q, p.RowRange start endArg = some q ∧ p.Slice start endArg 1 = some q ∧
      p.Slice start endArg 0 = some q := by
  refine ⟨_, RowRange_eq_take_drop p hwf start endArg,
    Slice_one_eq_take_drop p hwf hlen start endArg, ?_⟩
  have h : p.Slice start endArg 0 = p.Slice start endArg 1 := by
    unfold Pipeline.Slice
    rfl
  rw [h]
  exact Slice_one_eq_take_drop p hwf hlen start endArg

theorem C37_slice_one_is_rowRange_witness :
    (From ["A", "B", "C", "D", "E"]).data.length =
      (From ["A", "B", "C", "D", "E"]).originalIndex.length ∧
    ((From ["A", "B", "C", "D", "E"]).data.length : Int) < 2 ^ 63 ∧
    ∃ q, (From ["A", "B", "C", "D", "E"]).RowRange 2 4 = some q ∧
      (From ["A", "B", "C", "D", "E"]).Slice 2 4 1 = some q ∧
      (From ["A", "B", "C", "D", "E"]).Slice 2 4 0 = some q :=
  ⟨by decide, by decide,
    C37_slice_one_is_rowRange String (From ["A", "B", "C", "D", "E"]) 2 4 (by decide) (by decide)⟩

theorem filterMap_stepsDown_one {β : Type} (l : List β) :
    ∀ (k n : Nat), k < l.length → k + 1 ≤ n →
      (stepsDown 0 (-1) n (k : Int)).filterMap (goIndex l) = (l.take (k + 1)).reverse := by
  intro k
  induction k with
  | zero =>
    intro n hk hn
    obtain ⟨m, rfl⟩ : ∃ m, n = m + 1 := ⟨n - 1, by omega⟩
    obtain ⟨x, hx, hx2⟩ := goIndex_of_lt l 0 (by omega) (by omega)
    have hrest : stepsDown 0 (-1) m ((0 : Nat) + -1 : Int) = [] := by
      cases m with
      | zero => rfl
      | succ m =>
        unfold stepsDown
        rw [if_neg (by simp)]
    unfold stepsDown
    rw [if_pos (by simp), hrest, List.filterMap_cons]
    simp only [Nat.cast_zero]
    rw [hx]
    simp only [List.filterMap_nil]
    cases l with
    | nil => simp at hk
    | cons y rest =>
      simp only [Int.toNat_zero, List.getElem?_cons_zero, Option.some.injEq] at hx2
      rw [hx2]
      rfl
  | succ k ih =>
    intro n hk hn
    obtain ⟨m, rfl⟩ : ∃ m, n = m + 1 := ⟨n - 1, by omega⟩
    obtain ⟨x, hx, hx2⟩ := goIndex_of_lt l ((k + 1 : Nat) : Int) (by omega) (by omega)
    unfold stepsDown
    rw [if_pos (by omega), List.filterMap_cons, hx]
    simp only []
    have hstep : (((k + 1 : Nat) : Int) + -1) = (k : Int) := by omega
    rw [hstep, ih m (by omega) (by omega)]
    have hx3 : l[k + 1]? = some x := by
      have h4 : (((k + 1 : Nat) : Int)).toNat = k + 1 := by omega
      rw [h4] at hx2
      exact hx2
    have ht : List.take (k + 1 + 1) l = List.take (k + 1) l ++ l[k + 1]?.toList :=
      List.take_succ
    rw [ht, hx3]
    simp

/-- `Slice(1, -1, -1)` is the reversed pipeline. -/
theorem Slice_reversed {α : Type} (p : Pipeline α)
    (hwf : p.data.length = p.originalIndex.length) (hlen : (p.data.length : Int) < 2 ^ 63) :
    p.Slice 1 (-1) (-1) = some ⟨p.data.reverse, p.originalIndex.reverse⟩ := by
  unfold Pipeline.Slice
  simp only []
  rw [rangeBounds_toEnd p 1 (by decide)]
  rw [if_neg (by decide : ¬ (-1 : Int) = 0), if_neg (by decide : ¬ (-1 : Int) > 0)]
  simp only []
  rw [wrapInt_of_inRange _ (by omega) (by omega),
    Slice_backward_eq_stepsDown p hwf _ (-1) (by decide) (by decide) (by decide) hlen
      _ _ _ _ (by omega) (by omega)]
  cases hd : p.data.length with
  | zero =>
    have h1 : p.data = [] := List.eq_nil_of_length_eq_zero hd
    have h2 : p.originalIndex = [] := List.eq_nil_of_length_eq_zero (by omega)
    have h3 : stepsDown (1 - 1) (-1) (0 + 1) (((0 : Nat) : Int) - 1) = [] := by
      unfold stepsDown
      rw [if_neg (by simp)]
    rw [h3, h1, h2]
    rfl
  | succ k =>
    have h3 : (((k + 1 : Nat) : Int) - 1) = (k : Int) := by omega
    have h4 : ((1 : Int) - 1) = 0 := by decide
    rw [h3, h4, filterMap_stepsDown_one p.data k _ (by omega) (by omega),
      filterMap_stepsDown_one p.originalIndex k _ (by omega) (by omega)]
    rw [← hd, List.take_length, hwf, List.take_length]
    rfl

/-- Claim C32, failing input.  On the pipeline of three records, which has as
many indices as records, `Slice(3, -1, 1<<63 - 1)` reads the third record, its
counter wraps around and the next read panics, while the reference definition
gives the third record with its index. -/
theorem C32_slice_reference_failing :
    (From ["A", "B", "C"]).data.length = (From ["A", "B", "C"]).originalIndex.length ∧
    (From ["A", "B", "C"]).Slice 3 (-1) (2 ^ 63 - 1) = none ∧
    Slice.reference (From ["A", "B", "C"]) 3 (-1) (2 ^ 63 - 1) = ⟨["C"], [3]⟩ := by
  decide

/-! ## Columns and projection -/

/-- The closed form of the loop of `AtCol` for one index. -/
theorem AtCol_single (p : Pipeline Record) (idx : Int) :
    Option.map Selection.fields (p.AtCol [idx]) =
      some (if 0 ≤ p.normalizeIndex idx ∧ p.normalizeIndex idx < (p.FieldNames.length : Int)
        then (p.FieldNames[(p.normalizeIndex idx).toNat]?).toList else []) := by
  unfold Pipeline.AtCol
  rw [if_neg (by simp)]
  unfold Pipeline.AtCol.loop
  simp only []
  by_cases h : p.normalizeIndex idx ≥ 0 ∧ p.normalizeIndex idx < (p.FieldNames.length : Int)
  · rw [if_pos h, if_pos h]
    obtain ⟨name, hn, hn2⟩ := goIndex_of_lt p.FieldNames _ h.1 h.2
    rw [hn, hn2]
    rfl
  · rw [if_neg h, if_neg h]
    rfl

/-- `AtCol(-j)` counts from the number of records: it selects the field at the
zero-based position `len(data) - j` of the field names, if there is one. -/
theorem AtCol_negative (p : Pipeline Record) (j : Nat) (hj : 1 ≤ j) :
    Option.map Selection.fields (p.AtCol [-(j : Int)]) =
      some (if j ≤ p.data.length then (p.FieldNames[p.data.length - j]?).toList else []) := by
  rw [AtCol_single]
  have hn : p.normalizeIndex (-(j : Int)) = (p.data.length : Int) - j := by
    unfold Pipeline.normalizeIndex
    rw [if_neg (by omega), if_pos (by omega)]
    omega
  rw [hn]
  by_cases hle : j ≤ p.data.length
  · rw [if_pos hle]
    have h1 : ((p.data.length : Int) - (j : Int)).toNat = p.data.length - j := by omega
    by_cases hlt : (p.data.length : Int) - (j : Int) < (p.FieldNames.length : Int)
    · rw [if_pos ⟨by omega, hlt⟩, h1]
    · rw [if_neg (fun h => hlt h.2)]
      rw [List.getElem?_eq_none (by omega)]
      rfl
  · rw [if_neg hle, if_neg (fun h => hle (by omega))]

/-- Claim C33, failing input.  Over three people with the five fields `Name`,
`Age`, `City`, `Salary`, `Active`, `AtCol(-1)` selects `City`, the third field,
not the last field `Active`; `AtCol(-2)` selects `Age`, not `Salary`; and
`AtCol(-5)` selects nothing, not `Name`. -/
theorem C33_atCol_negative_failing :
    (From samplePeople).FieldNames = ["Name", "Age", "City", "Salary", "Active"] ∧
    (From samplePeople).data.length = 3 ∧
    Option.map Selection.fields ((From samplePeople).AtCol [-1]) = some ["City"] ∧
    Option.map Selection.fields ((From samplePeople).AtCol [-2]) = some ["Age"] ∧
    Option.map Selection.fields ((From samplePeople).AtCol [-5]) = some [] := by
  decide

theorem AtCol_loop_eq (p : Pipeline Record) (names : List String) :
    ∀ (idx : List Int) (selected : List String),
      (∀ i ∈ idx, 1 ≤ i ∧ i ≤ (names.length : Int)) →
      Pipeline.AtCol.loop p names idx selected =
        some (selected ++ idx.filterMap (fun i => atPosition names i.toNat)) ∧
      (idx.filterMap (fun i => atPosition names i.toNat)).length = idx.length := by
  intro idx
  induction idx with
  | nil =>
    intro selected _
    simp [Pipeline.AtCol.loop]
  | cons i rest ih =>
    intro selected h
    obtain ⟨h1, h2⟩ := h i (List.mem_cons_self _ _)
    have hn : p.normalizeIndex i = i - 1 := by
      unfold Pipeline.normalizeIndex
      rw [if_pos (by omega)]
    obtain ⟨name, hname, hname2⟩ := goIndex_of_lt names (i - 1) (by omega) (by omega)
    have hat : atPosition names i.toNat = some name := by
      unfold atPosition
      rw [if_neg (by omega)]
      have h3 : i.toNat - 1 = (i - 1).toNat := by omega
      rw [h3]
      exact hname2
    obtain ⟨ih1, ih2⟩ := ih (selected ++ [name]) (fun k hk => h k (List.mem_cons_of_mem _ hk))
    unfold Pipeline.AtCol.loop
    simp only []
    rw [hn, if_pos ⟨by omega, by omega⟩, hname]
    simp only []
    rw [ih1, List.filterMap_cons, hat]
    simp only [List.length_cons, ih2]
    simp

theorem Positions_find_of_nodup (f : String) :
    ∀ (l : List String) (o j : Nat), l.Nodup → l[j]? = some f →
      Selection.Positions.find f l o = some (((o + j : Nat) : Int) + 1) := by
  intro l
  induction l with
  | nil =>
    intro o j _ h
    simp at h
  | cons a rest ih =>
    intro o j hnd h
    rw [List.nodup_cons] at hnd
    unfold Selection.Positions.find
    cases j with
    | zero =>
      simp only [List.getElem?_cons_zero, Option.some.injEq] at h
      rw [if_pos h]
      rfl
    | succ j =>
      simp only [List.getElem?_cons_succ] at h
      have hne : ¬ a = f := by
        intro hc
        rw [hc] at hnd
        exact hnd.1 (List.mem_iff_getElem?.2 ⟨j, h⟩)
      rw [if_neg hne, ih (o + 1) j hnd.2 h]
      congr 2
      omega

theorem Positions_loop_of_nodup (names : List String) (hnd : names.Nodup) :
    ∀ (idx : List Int) (cols : List Int),
      (∀ i ∈ idx, 1 ≤ i ∧ i ≤ (names.length : Int)) →
      Selection.Positions.loop names (idx.filterMap (fun i => atPosition names i.toNat)) cols =
        cols ++ idx := by
  intro idx
  induction idx with
  | nil =>
    intro cols _
    simp [Selection.Positions.loop]
  | cons i rest ih =>
    intro cols h
    obtain ⟨h1, h2⟩ := h i (List.mem_cons_self _ _)
    have hlt : i.toNat - 1 < names.length := by omega
    have hat : atPosition names i.toNat = some names[i.toNat - 1] := by
      unfold atPosition
      rw [if_neg (by omega)]
      exact List.getElem?_eq_getElem hlt
    rw [List.filterMap_cons, hat]
    simp only []
    unfold Selection.Positions.loop
    rw [Positions_find_of_nodup _ names 0 (i.toNat - 1) hnd (List.getElem?_eq_getElem hlt)]
    simp only []
    rw [ih _ (fun k hk => h k (List.mem_cons_of_mem _ hk))]
    have h3 : (((0 + (i.toNat - 1) : Nat) : Int) + 1) = i := by omega
    rw [h3]
    simp

/-- Claim C34.  Column positions round-trip: on a pipeline whose records have the
`k` distinct field names `FieldNames()`, for every list `idx` of integers in
`1..k`, `AtCol(idx...)` is a selection on the same pipeline of the field names at
those 1-based positions, in the order requested and one for every index; its
`Positions().Cols` is `idx`, its `Positions().Rows` are the original indices of
the pipeline, and `IsMatrix()` is true exactly when `idx` is not empty. -/
theorem C34_column_positions (p : Pipeline Record) (idx : List Int)
    (hnd : p.FieldNames.Nodup)
    (hidx : ∀ i ∈ idx, 1 ≤ i ∧ i ≤ (p.FieldNames.length : Int)) :
    ∃ s, p.AtCol idx = some s ∧
      s.pipeline = p ∧
      s.fields = idx.filterMap (fun i => atPosition p.FieldNames i.toNat) ∧
      s.fields.length = idx.length ∧
      s.Positions.Cols = idx ∧
      s.Positions.Rows = p.originalIndex ∧
      (s.Positions.IsMatrix = true ↔ idx ≠ []) := by
  obtain ⟨hloop, hlen⟩ := AtCol_loop_eq p p.FieldNames idx [] hidx
  rw [List.nil_append] at hloop
  have hcols : Selection.Positions.loop p.FieldNames
      (idx.filterMap (fun i => atPosition p.FieldNames i.toNat)) [] = idx := by
    rw [Positions_loop_of_nodup p.FieldNames hnd idx [] hidx, List.nil_append]
  cases idx with
  | nil =>
    refine ⟨⟨p, []⟩, ?_, rfl, rfl, rfl, rfl, rfl, ?_⟩
    · unfold Pipeline.AtCol
      rfl
    · simp [Selection.Positions, Selection.Positions.loop, PositionIndex.IsMatrix]
  | cons i rest =>
    refine ⟨⟨p, (i :: rest).filterMap (fun i => atPosition p.FieldNames i.toNat)⟩,
      ?_, rfl, rfl, hlen, ?_, rfl, ?_⟩
    · unfold Pipeline.AtCol
      rw [if_neg (by simp), hloop]
    · exact hcols
    · simp only [Selection.Positions, PositionIndex.IsMatrix, hcols]
      simp

theorem C34_column_positions_witness :
    (From samplePeople).FieldNames.Nodup ∧
    (∀ i ∈ ([1, 3] : List Int), 1 ≤ i ∧ i ≤ ((From samplePeople).FieldNames.length : Int)) ∧
    ∃ s, (From samplePeople).AtCol [1, 3] = some s ∧
      s.pipeline = From samplePeople ∧
      s.fields = ([1, 3] : List Int).filterMap
        (fun i => atPosition (From samplePeople).FieldNames i.toNat) ∧
      s.fields.length = ([1, 3] : List Int).length ∧
      s.Positions.Cols = [1, 3] ∧
      s.Positions.Rows = (From samplePeople).originalIndex ∧
      (s.Positions.IsMatrix = true ↔ ([1, 3] : List Int) ≠ []) :=
  ⟨by decide, by decide, C34_column_positions (From samplePeople) [1, 3] (by decide) (by decide)⟩

theorem lookup_rowSet_self (row : Record) (name : String) (v : Value) :
    (rowSet row name v).lookup name = some v := by
  induction row with
  | nil => simp [rowSet, List.lookup]
  | cons e rest ih =>
    obtain ⟨k, w⟩ := e
    unfold rowSet
    by_cases h : k = name
    · rw [if_pos h]
      simp [List.lookup, h]
    · rw [if_neg h]
      have h2 : (name == k) = false := by simpa using fun hc => h hc.symm
      simp only [List.lookup, h2]
      exact ih

theorem lookup_rowSet_ne (row : Record) (name other : String) (v : Value)
    (hne : other ≠ name) : (rowSet row name v).lookup other = row.lookup other := by
  induction row with
  | nil =>
    have h2 : (other == name) = false := by simpa using hne
    simp [rowSet, List.lookup, h2]
  | cons e rest ih =>
    obtain ⟨k, w⟩ := e
    unfold rowSet
    by_cases h : k = name
    · rw [if_pos h]
      have h2 : (other == k) = false := by simpa [h] using hne
      simp [List.lookup, h2]
    · rw [if_neg h]
      by_cases h3 : other = k
      · simp [List.lookup, h3]
      · have h4 : (other == k) = false := by simpa using h3
        simp only [List.lookup, h4]
        exact ih

theorem mem_keys_rowSet (row : Record) (name k : String) (v : Value)
    (h : k ∈ (rowSet row name v).map Prod.fst) : k = name ∨ k ∈ row.map Prod.fst := by
  induction row with
  | nil =>
    simp only [rowSet, List.map_cons, List.map_nil, List.mem_singleton] at h
    exact Or.inl h
  | cons e rest ih =>
    obtain ⟨k0, w⟩ := e
    unfold rowSet at h
    by_cases hk : k0 = name
    · rw [if_pos hk] at h
      exact Or.inr h
    · rw [if_neg hk] at h
      simp only [List.map_cons, List.mem_cons] at h ⊢
      rcases h with h | h
      · exact Or.inr (Or.inl h)
      · rcases ih h with h2 | h2
        · exact Or.inl h2
        · exact Or.inr (Or.inr h2)

theorem rowSet_keys_nodup (row : Record) (name : String) (v : Value)
    (h : (row.map Prod.fst).Nodup) : ((rowSet row name v).map Prod.fst).Nodup := by
  induction row with
  | nil => simp [rowSet]
  | cons e rest ih =>
    obtain ⟨k, w⟩ := e
    simp only [List.map_cons, List.nodup_cons] at h
    unfold rowSet
    by_cases hk : k = name
    · rw [if_pos hk]
      simp only [List.map_cons, List.nodup_cons]
      exact h
    · rw [if_neg hk]
      simp only [List.map_cons, List.nodup_cons]
      refine ⟨?_, ih h.2⟩
      intro hmem
      rcases mem_keys_rowSet rest name k v hmem with h2 | h2
      · exact hk h2
      · exact h.1 h2

/-- The row built for one struct record: distinct keys, and for every name the
entry of the record when the name is requested, the entry of the row so far
otherwise. -/
theorem execute_row_spec (item : Record) :
    ∀ (fields : List String) (row : Record), (row.map Prod.fst).Nodup →
      ((Selection.execute.row item fields row).map Prod.fst).Nodup ∧
      ∀ name : String, (Selection.execute.row item fields row).lookup name =
        if name ∈ fields ∧ item.lookup name ≠ none then item.lookup name
        else row.lookup name := by
  intro fields
  induction fields with
  | nil =>
    intro row h
    simp [Selection.execute.row, h]
  | cons f rest ih =>
    intro row h
    unfold Selection.execute.row
    cases hf : item.lookup f with
    | none =>
      simp only []
      obtain ⟨ih1, ih2⟩ := ih row h
      refine ⟨ih1, ?_⟩
      intro name
      rw [ih2]
      by_cases hn : name = f
      · subst hn
        simp [hf]
      · simp only [List.mem_cons, hn, false_or]
    | some v =>
      simp only []
      obtain ⟨ih1, ih2⟩ := ih (rowSet row f v) (rowSet_keys_nodup row f v h)
      refine ⟨ih1, ?_⟩
      intro name
      rw [ih2]
      by_cases hn : name = f
      · subst hn
        simp [hf, lookup_rowSet_self]
      · rw [lookup_rowSet_ne row f name v hn]
        simp only [List.mem_cons, hn, false_or]

theorem execute_loop_eq_map (fields : List String) (rest : List Record) :
    ∀ done : List Record,
      Selection.execute.loop fields rest done.length
          (done.map (fun item => Selection.execute.row item fields []) ++
            List.replicate rest.length []) =
        some ((done ++ rest).map (fun item => Selection.execute.row item fields [])) := by
  induction rest with
  | nil =>
    intro done
    simp [Selection.execute.loop]
  | cons item rest ih =>
    intro done
    unfold Selection.execute.loop
    have hset : goSet (done.map (fun item => Selection.execute.row item fields []) ++
          List.replicate (item :: rest).length [])
        (done.length : Int) (Selection.execute.row item fields []) =
        some ((done ++ [item]).map (fun item => Selection.execute.row item fields []) ++
          List.replicate rest.length []) := by
      unfold goSet
      rw [if_pos (by simp)]
      simp only [Int.toNat_ofNat, List.length_cons, List.replicate_succ]
      rw [List.set_append_right _ _ (by simp)]
      simp
    rw [hset]
    simp only []
    have h := ih (done ++ [item])
    simp only [List.length_append, List.length_singleton, List.append_assoc,
      List.singleton_append] at h
    exact h

/-- The method `Selection.execute` never panics: it returns the row of every
record, in the order of the records. -/
theorem Selection_execute_eq (s : Selection) :
    s.execute = some (s.pipeline.data.map (fun item => Selection.execute.row item s.fields [])) := by
  unfold Selection.execute
  have h := execute_loop_eq_map s.fields s.pipeline.data []
  simp only [List.length_nil, List.map_nil, List.nil_append] at h
  exact h

/-- Claim C35.  Projection narrows each record to the named fields: for every
pipeline of struct records and every list of field names,
`Select(fields...).Collect()` returns one row per record, in the order of the
records; the keys of a row are distinct, and a name has an entry in the row
exactly when it is requested and is a field of the record, the entry being the
value of the record for that field. -/
theorem C35_select_projection (p : Pipeline Record) (fields : List String) :
    ∃ rows, (p.Select fields).Collect = some rows ∧
      rows.length = p.data.length ∧
      List.Forall₂ (fun item row =>
        (row.map Prod.fst).Nodup ∧
        ∀ name : String, row.lookup name =
          if name ∈ fields then item.lookup name else none) p.data rows := by
  refine ⟨_, Selection_execute_eq (p.Select fields), by simp [Pipeline.Select], ?_⟩
  simp only [Pipeline.Select]
  rw [List.forall₂_map_right_iff]
  apply List.forall₂_same.2
  intro item _
  obtain ⟨h1, h2⟩ := execute_row_spec item fields [] (by simp)
  refine ⟨h1, ?_⟩
  intro name
  rw [h2]
  by_cases hn : name ∈ fields
  · by_cases hl : item.lookup name = none
    · simp [hn, hl]
    · simp [hn, hl]
  · simp [hn]

/-! ## Conditions on projected rows -/

theorem ConditionMap_loop_eq (c : ConditionMap) :
    ∀ (rest result : List Record),
      ConditionMap.execute.loop c rest result =
        result ++ rest.filter (fun item => c.filters.all (fun f => f.fn c.field item)) := by
  intro rest
  induction rest with
  | nil =>
    intro result
    simp [ConditionMap.execute.loop]
  | cons item rest ih =>
    intro result
    unfold ConditionMap.execute.loop
    by_cases h : c.filters.all (fun f => f.fn c.field item) = true
    · rw [if_pos h, ih]
      simp [List.filter_cons, h]
    · rw [if_neg h, ih]
      simp [List.filter_cons, h]

/-- The method `ConditionMap.execute` keeps the rows on which every filter holds,
whatever the `orMode` flags of the filters. -/
theorem ConditionMap_execute_eq (c : ConditionMap) :
    c.execute = c.pipeline.data.filter (fun item => c.filters.all (fun f => f.fn c.field item)) := by
  unfold ConditionMap.execute
  split
  · rename_i h
    rw [List.eq_nil_of_length_eq_zero h]
    simp
  · rw [ConditionMap_loop_eq]
    simp

/-- What the chain `Where(f).Equals(a).Or(g).GreaterThan(b)` on a selection
returns in general: the projected rows on which both closures are true, in
their order, whatever the `orMode` flags (`false` and `true`); both closures
read the field `g` that `Or` has set, so these are the rows with `row[g] == a`
and `row[g] > b`, and the field `f` is never read.  The same chain on a
`Condition` over unprojected records returns the records with `r[g] == a` or
`r[g] > b`. -/
theorem ConditionMap_chain_collect (s : Selection) (f g : String) (a b : Value) :
    ∃ cm rows, s.Where f = some cm ∧ s.Collect = some rows ∧ cm.pipeline.data = rows ∧
      (((cm.Equals a).Or g).GreaterThan b).filters.map filter.orMode = [false, true] ∧
      (((cm.Equals a).Or g).GreaterThan b).Collect =
        rows.filter (fun row =>
          (((cm.Equals a).Or g).GreaterThan b).filters.all
            (fun flt => flt.fn (((cm.Equals a).Or g).GreaterThan b).field row)) ∧
      (((cm.Equals a).Or g).GreaterThan b).Collect =
        rows.filter (fun row =>
          compareEqual (getFieldValue row g) a && compareNumeric (getFieldValue row g) b ">") ∧
      ((((s.pipeline.Where f).Equals a).Or g).GreaterThan b).Collect =
        some (s.pipeline.data.filter (fun r =>
          compareEqual (getFieldValue r g) a || compareNumeric (getFieldValue r g) b ">")) := by
  refine ⟨⟨⟨s.pipeline.data.map (fun item => Selection.execute.row item s.fields []), []⟩,
    f, [], false⟩, _, ?_, Selection_execute_eq s, rfl, rfl, ?_, ?_, ?_⟩
  · unfold Selection.Where
    rw [Selection_execute_eq]
  · unfold ConditionMap.Collect
    rw [ConditionMap_execute_eq]
    rfl
  · unfold ConditionMap.Collect
    rw [ConditionMap_execute_eq]
    simp [ConditionMap.Equals, ConditionMap.Or, ConditionMap.GreaterThan]
  · unfold Condition.Collect
    rw [execute_eq]
    simp [Pipeline.Where, Condition.Equals, Condition.Or, Condition.GreaterThan,
      Condition.appendFilter, andOfOrGroups, splitGroups, groupsFrom]

/-- Claim C36, failing input.  Over the three people projected to `Name`, `City`
and `Age`, the chain `Where("City").Equals("NYC").Or("Age").GreaterThan(26)`
returns no row, while the rows with `City == "NYC"` and `Age > 26`, on which
both filters of the chain are true, are those of Alice and Charlie: the closure
of `Equals("NYC")` reads the field `Age` that `Or` has set. -/
theorem C36_projected_chain_failing :
    Option.map
        (fun cm => (((cm.Equals (Value.str "NYC")).Or "Age").GreaterThan (Value.int 26)).Collect)
        (((From samplePeople).Select ["Name", "City", "Age"]).Where "City") = some [] ∧
    Option.map
        (fun rows => rows.filter (fun row =>
          compareEqual (getFieldValue row "City") (Value.str "NYC") &&
            compareNumeric (getFieldValue row "Age") (Value.int 26) ">"))
        ((From samplePeople).Select ["Name", "City", "Age"]).Collect =
      some [[("Name", Value.str "Alice"), ("City", Value.str "NYC"), ("Age", Value.int 30)],
        [("Name", Value.str "Charlie"), ("City", Value.str "NYC"), ("Age", Value.int 35)]] := by
  decide

/-! ## Equality against the ordering operators -/

theorem float64OfNat_of_small (m : Nat) (h : m ≤ 2 ^ 53) : float64OfNat m = m := by
  have hu : float64Ulp 11 1 m = 1 := by
    unfold float64Ulp
    rw [if_pos (by omega)]
  unfold float64OfNat
  simp only [hu, Nat.div_one, Nat.mod_one, Nat.mul_zero, Nat.mul_one]
  rw [if_pos (by decide)]

/-- The conversion of an integer to `float64` is exact up to magnitude `1<<53`. -/
theorem float64OfInt_of_small (n : Int) (h : n.natAbs ≤ 2 ^ 53) : float64OfInt n = (n : ℚ) := by
  unfold float64OfInt
  rw [float64OfNat_of_small _ h]
  by_cases hn : n < 0
  · rw [if_pos hn]
    obtain ⟨k, hk⟩ : ∃ k : Nat, n = -(k : Int) := ⟨n.natAbs, by omega⟩
    subst hk
    simp
  · rw [if_neg hn]
    obtain ⟨k, hk⟩ : ∃ k : Nat, n = (k : Int) := ⟨n.natAbs, by omega⟩
    subst hk
    simp

theorem Equals_evaluate (p : Pipeline Record) (field : String) (item : Record) (v : Value) :
    ((p.Where field).Equals v).evaluate item = some (decide (getFieldValue item field = v)) := by
  unfold Condition.Equals
  rw [evaluate_single, compareEqual_eq]

theorem GreaterOrEqual_evaluate (p : Pipeline Record) (field : String) (item : Record)
    (v : Value) :
    ((p.Where field).GreaterOrEqual v).evaluate item =
      some (decide (toFloat64 (getFieldValue item field) ≥ toFloat64 v)) := by
  unfold Condition.GreaterOrEqual
  rw [evaluate_single]
  simp [compareNumeric]

theorem LessOrEqual_evaluate (p : Pipeline Record) (field : String) (item : Record)
    (v : Value) :
    ((p.Where field).LessOrEqual v).evaluate item =
      some (decide (toFloat64 (getFieldValue item field) ≤ toFloat64 v)) := by
  unfold Condition.LessOrEqual
  rw [evaluate_single]
  simp [compareNumeric]

/-- Two different integers of the same type above `1<<53` that convert to the
same `float64`: the field holds `9007199254740993` and the operand is
`9007199254740992`; `GreaterOrEqual` and `LessOrEqual` both hold and `Equals`
does not. -/
theorem C39_large_integers_counterexample :
    (((From [[("Id", Value.int 9007199254740993)]]).Where "Id").GreaterOrEqual
      (Value.int 9007199254740992)).evaluate [("Id", Value.int 9007199254740993)] = some true ∧
    (((From [[("Id", Value.int 9007199254740993)]]).Where "Id").LessOrEqual
      (Value.int 9007199254740992)).evaluate [("Id", Value.int 9007199254740993)] = some true ∧
    (((From [[("Id", Value.int 9007199254740993)]]).Where "Id").Equals
      (Value.int 9007199254740992)).evaluate [("Id", Value.int 9007199254740993)] = some false := by
  decide

/-- Claim C39, amended.  `Equals(v)` holds exactly when the field value and `v`
are the same value of the same type.  An integer field holding `30` passes
`GreaterOrEqual` and `LessOrEqual` with the float operand `30` and fails
`Equals`, and so does a float field holding `75000` with the integer operand
`75000`.  For a field and an operand of the same numeric type, `Equals(v)`
implies `GreaterOrEqual(v)` and `LessOrEqual(v)`; the converse holds for two
floats, and for two integers of magnitude at most `1<<53`, which `float64`
represents exactly. -/
theorem C39_equals_vs_ordering (p : Pipeline Record) (field : String) (item : Record)
    (v : Value) :
    ((p.Where field).Equals v).evaluate item = some (decide (getFieldValue item field = v)) ∧
    ((((From [[("Age", Value.int 30)]]).Where "Age").GreaterOrEqual (Value.float 30)).evaluate
        [("Age", Value.int 30)] = some true ∧
      (((From [[("Age", Value.int 30)]]).Where "Age").LessOrEqual (Value.float 30)).evaluate
        [("Age", Value.int 30)] = some true ∧
      (((From [[("Age", Value.int 30)]]).Where "Age").Equals (Value.float 30)).evaluate
        [("Age", Value.int 30)] = some false) ∧
    ((((From [[("Salary", Value.float 75000)]]).Where "Salary").GreaterOrEqual
        (Value.int 75000)).evaluate [("Salary", Value.float 75000)] = some true ∧
      (((From [[("Salary", Value.float 75000)]]).Where "Salary").LessOrEqual
        (Value.int 75000)).evaluate [("Salary", Value.float 75000)] = some true ∧
      (((From [[("Salary", Value.float 75000)]]).Where "Salary").Equals
        (Value.int 75000)).evaluate [("Salary", Value.float 75000)] = some false) ∧
    (((p.Where field).Equals v).evaluate item = some true →
      ((p.Where field).GreaterOrEqual v).evaluate item = some true ∧
      ((p.Where field).LessOrEqual v).evaluate item = some true) ∧
    (∀ x y : ℚ, getFieldValue item field = Value.float x → v = Value.float y →
      (((p.Where field).Equals v).evaluate item = some true ↔
        ((p.Where field).GreaterOrEqual v).evaluate item = some true ∧
        ((p.Where field).LessOrEqual v).evaluate item = some true)) ∧
    (∀ m n : Int, getFieldValue item field = Value.int m → v = Value.int n →
      m.natAbs ≤ 2 ^ 53 → n.natAbs ≤ 2 ^ 53 →
      (((p.Where field).Equals v).evaluate item = some true ↔
        ((p.Where field).GreaterOrEqual v).evaluate item = some true ∧
        ((p.Where field).LessOrEqual v).evaluate item = some true)) := by
  refine ⟨Equals_evaluate p field item v, by decide, by decide, ?_, ?_, ?_⟩
  · intro h
    rw [Equals_evaluate] at h
    have hv : getFieldValue item field = v := by simpa using h
    rw [GreaterOrEqual_evaluate, LessOrEqual_evaluate, hv]
    simp
  · intro x y hx hy
    rw [Equals_evaluate, GreaterOrEqual_evaluate, LessOrEqual_evaluate, hx, hy]
    simp only [toFloat64, Option.some.injEq, decide_eq_true_eq, Value.float.injEq]
    constructor
    · intro h
      exact ⟨le_of_eq h.symm, le_of_eq h⟩
    · intro h
      exact le_antisymm h.2 h.1
  · intro m n hm hn hms hns
    rw [Equals_evaluate, GreaterOrEqual_evaluate, LessOrEqual_evaluate, hm, hn]
    simp only [toFloat64, Option.some.injEq, decide_eq_true_eq, Value.int.injEq,
      float64OfInt_of_small m hms, float64OfInt_of_small n hns]
    constructor
    · intro h
      rw [h]
      exact ⟨le_refl _, le_refl _⟩
    · intro h
      exact_mod_cast le_antisymm h.2 h.1

theorem C39_equals_vs_ordering_witness :
    getFieldValue [("Age", Value.int 30)] "Age" = Value.int 30 ∧
    (30 : Int).natAbs ≤ 2 ^ 53 ∧
    ((((From [[("Age", Value.int 30)]]).Where "Age").Equals (Value.int 30)).evaluate
        [("Age", Value.int 30)] = some true ↔
      (((From [[("Age", Value.int 30)]]).Where "Age").GreaterOrEqual (Value.int 30)).evaluate
        [("Age", Value.int 30)] = some true ∧
      (((From [[("Age", Value.int 30)]]).Where "Age").LessOrEqual (Value.int 30)).evaluate
        [("Age", Value.int 30)] = some true) :=
  ⟨by decide, by decide,
    (C39_equals_vs_ordering (From [[("Age", Value.int 30)]]) "Age" [("Age", Value.int 30)]
      (Value.int 30)).2.2.2.2.2 30 30 (by decide) rfl (by decide) (by decide)⟩

/-! ## Safety of the grouping pass -/

theorem stateAt_succ (filters : List filter) (i : Nat) (g : List (List filter))
    (c : List filter) (h : Condition.evaluate.stateAt filters i = some (g, c)) :
    Condition.evaluate.stateAt filters (i + 1) = Condition.evaluate.step filters i g c := by
  conv => lhs; unfold Condition.evaluate.stateAt
  rw [h]

theorem stateAt_none (filters : List filter) (i : Nat)
    (h : Condition.evaluate.stateAt filters i = none) :
    ∀ k : Nat, Condition.evaluate.stateAt filters (i + k) = none := by
  intro k
  induction k with
  | zero => exact h
  | succ k ih =>
    rw [← Nat.add_assoc]
    conv => lhs; unfold Condition.evaluate.stateAt
    rw [ih]

/-- The first loop of `Condition.evaluate` from iteration `i` on returns the
groups of the state after its last iteration. -/
theorem grouping_eq_stateAt (filters : List filter) :
    ∀ (left i : Nat) (g : List (List filter)) (c : List filter),
      Condition.evaluate.stateAt filters i = some (g, c) →
      Condition.evaluate.grouping filters i left g c =
        (Condition.evaluate.stateAt filters (i + left)).map Prod.fst := by
  intro left
  induction left with
  | zero =>
    intro i g c h
    rw [grouping_zero, Nat.add_zero, h]
    rfl
  | succ left ih =>
    intro i g c h
    have hs := stateAt_succ filters i g c h
    conv => lhs; unfold Condition.evaluate.grouping
    cases hstep : Condition.evaluate.step filters i g c with
    | none =>
      rw [hstep] at hs
      have hn := stateAt_none filters (i + 1) hs left
      rw [Nat.add_assoc, Nat.add_comm 1 left] at hn
      rw [hn]
      rfl
    | some st =>
      obtain ⟨g2, c2⟩ := st
      rw [hstep] at hs
      simp only []
      rw [ih (i + 1) g2 c2 hs, Nat.add_assoc, Nat.add_comm 1 left]

theorem pop_of_last (filters : List filter) (i : Nat) (prev : filter)
    (g0 : List (List filter)) (hi : i > 0) (hprev : filters[i - 1]? = some prev) :
    Condition.evaluate.pop filters i (g0 ++ [[prev]]) [] = some (g0, [prev]) := by
  unfold Condition.evaluate.pop
  rw [if_pos ⟨rfl, hi⟩, hprev]
  cases g0 with
  | nil => rfl
  | cons hd tl =>
    simp only [List.cons_append, List.nil_append]
    rw [← List.cons_append, List.dropLast_concat]

/-- The state of the grouping loop before iteration `len(pre)` on the filters
`pre ++ suf`: the groups and the open group concatenate to `pre`; a group is
open only when the next filter is flagged; right after a filter without the flag
the last group is the singleton of that filter; and right after a flagged filter
with no open group the next filter is not flagged. -/
theorem stateAt_spec (pre : List filter) :
    ∀ suf : List filter, ∃ (g : List (List filter)) (c : List filter),
      Condition.evaluate.stateAt (pre ++ suf) pre.length = some (g, c) ∧
      g.flatten ++ c = pre ∧
      (c ≠ [] → suf.head?.map filter.orMode = some true) ∧
      (c = [] → ∀ (pre0 : List filter) (prev : filter), pre = pre0 ++ [prev] →
        prev.orMode = false → ∃ g0, g = g0 ++ [[prev]]) ∧
      (c = [] → ∀ (pre0 : List filter) (prev : filter), pre = pre0 ++ [prev] →
        prev.orMode = true → suf.head?.map filter.orMode ≠ some true) := by
  induction pre using List.reverseRecOn with
  | nil =>
    intro suf
    refine ⟨[], [], rfl, rfl, fun h => absurd rfl h, ?_, ?_⟩
    · intro _ pre0 prev h
      simp at h
    · intro _ pre0 prev h
      simp at h
  | append_singleton pre0 f ih =>
    intro suf
    obtain ⟨g, c, hst, hjoin, hopen, hsingle, hclosed⟩ := ih (f :: suf)
    have hfilters : pre0 ++ [f] ++ suf = pre0 ++ f :: suf := by simp
    have hlen : (pre0 ++ [f]).length = pre0.length + 1 := by simp
    rw [hfilters, hlen, stateAt_succ _ _ g c hst]
    have hsnoc : ∀ (p0 : List filter) (pv : filter), pre0 ++ [f] = p0 ++ [pv] → pv = f := by
      intro p0 pv h
      exact ((List.append_inj' h rfl).2 ▸ rfl : [pv] = [f]) |> fun h2 => by simpa using h2
    by_cases hf : f.orMode = true
    · -- a flagged filter
      by_cases hpop : c.length = 0 ∧ pre0.length > 0
      · -- the previous filter is taken back from `groups`
        have hc : c = [] := List.eq_nil_of_length_eq_zero hpop.1
        obtain ⟨pre1, prev, hpre⟩ : ∃ pre1 prev, pre0 = pre1 ++ [prev] := by
          cases h : pre0.getLast? with
          | none =>
            rw [List.getLast?_eq_none_iff] at h
            rw [h] at hpop
            simp at hpop
          | some last =>
            exact ⟨pre0.dropLast, last, (List.dropLast_append_getLast? last h).symm⟩
        have hprevFlag : prev.orMode = false := by
          by_contra hcon
          have := hclosed hc pre1 prev hpre (by simpa using hcon)
          simp [hf] at this
        obtain ⟨g0, hg0⟩ := hsingle hc pre1 prev hpre hprevFlag
        subst hc
        subst hg0
        subst hpre
        cases suf with
        | nil =>
          rw [step_pop_last pre1 prev f hf g0]
          refine ⟨_, _, rfl, ?_, fun h => absurd rfl h, ?_, ?_⟩
          · have h2 := congrArg (fun l => l ++ [f]) hjoin
            simpa using h2
          · intro _ p0 pv h hpv
            rw [hsnoc p0 pv h] at hpv
            rw [hf] at hpv
            cases hpv
          · intro _ p0 pv h _
            simp
        | cons nxt tl =>
          rw [step_pop_next pre1 prev f nxt tl hf g0]
          by_cases hn : nxt.orMode = true
          · rw [if_pos hn]
            refine ⟨_, _, rfl, ?_, fun _ => by simp [hn], fun h => absurd h (by simp),
              fun h => absurd h (by simp)⟩
            have h2 := congrArg (fun l => l ++ [f]) hjoin
            simpa using h2
          · rw [if_neg hn]
            refine ⟨_, _, rfl, ?_, fun h => absurd rfl h, ?_, ?_⟩
            · have h2 := congrArg (fun l => l ++ [f]) hjoin
              simpa using h2
            · intro _ p0 pv h hpv
              rw [hsnoc p0 pv h] at hpv
              rw [hf] at hpv
              cases hpv
            · intro _ p0 pv h _
              simpa using hn
      · -- the flagged filter joins the open group, or opens the first group
        cases suf with
        | nil =>
          rw [step_or_last pre0 f hf g c hpop]
          refine ⟨_, _, rfl, ?_, fun h => absurd rfl h, ?_, ?_⟩
          · have h2 := congrArg (fun l => l ++ [f]) hjoin
            simpa using h2
          · intro _ p0 pv h hpv
            rw [hsnoc p0 pv h] at hpv
            rw [hf] at hpv
            cases hpv
          · intro _ p0 pv h _
            simp
        | cons nxt tl =>
          rw [step_or_next pre0 f nxt tl hf g c hpop]
          by_cases hn : nxt.orMode = true
          · rw [if_pos hn]
            refine ⟨_, _, rfl, ?_, fun _ => by simp [hn], fun h => absurd h (by simp),
              fun h => absurd h (by simp)⟩
            have h2 := congrArg (fun l => l ++ [f]) hjoin
            simpa using h2
          · rw [if_neg hn]
            refine ⟨_, _, rfl, ?_, fun h => absurd rfl h, ?_, ?_⟩
            · have h2 := congrArg (fun l => l ++ [f]) hjoin
              simpa using h2
            · intro _ p0 pv h hpv
              rw [hsnoc p0 pv h] at hpv
              rw [hf] at hpv
              cases hpv
            · intro _ p0 pv h _
              simpa using hn
    · -- a filter without the flag: no group is open
      have hf2 : f.orMode = false := by simpa using hf
      have hc : c = [] := by
        by_contra hcon
        have := hopen hcon
        simp [hf2] at this
      subst hc
      rw [step_notOr pre0 f suf hf2 g]
      refine ⟨_, _, rfl, ?_, fun h => absurd rfl h, ?_, ?_⟩
      · have h2 := congrArg (fun l => l ++ [f]) hjoin
        simpa using h2
      · intro _ p0 pv h _
        rw [hsnoc p0 pv h]
        exact ⟨g, rfl⟩
      · intro _ p0 pv h hpv
        rw [hsnoc p0 pv h] at hpv
        rw [hf2] at hpv
        cases hpv

/-- Claim C40.  The grouping pass of `Condition.evaluate` is safe and loses no
filter, for every filter list with any `orMode` flags.  Before every iteration
`i` the loop has a state, and the iteration ends without a panic; when the
iteration takes the step that removes the last group (the filter is flagged, no
group is open and `i > 0`), `groups` ends with the singleton of the previous
filter; and the loop returns groups whose concatenation, in order, is the filter
list. -/
theorem C40_grouping_safe (filters : List filter) :
    (∀ i : Nat, i < filters.length →
      ∃ (g : List (List filter)) (c : List filter) (f : filter),
        Condition.evaluate.stateAt filters i = some (g, c) ∧ filters[i]? = some f ∧
        (f.orMode = true → c.length = 0 → i > 0 →
          ∃ (g0 : List (List filter)) (prev : filter),
            filters[i - 1]? = some prev ∧ g = g0 ++ [[prev]]) ∧
        ∃ st, Condition.evaluate.step filters i g c = some st) ∧
    ∃ groups : List (List filter),
      Condition.evaluate.grouping filters 0 filters.length [] [] = some groups ∧
      Condition.evaluate.stateAt filters filters.length = some (groups, []) ∧
      groups.flatten = filters := by
  constructor
  · intro i hi
    have hsplit : filters = filters.take i ++ filters[i] :: filters.drop (i + 1) := by
      rw [← List.drop_eq_getElem_cons hi, List.take_append_drop]
    have hlen : (filters.take i).length = i := by
      rw [List.length_take]
      omega
    obtain ⟨g, c, hst, -, -, hsingle, hclosed⟩ :=
      stateAt_spec (filters.take i) (filters[i] :: filters.drop (i + 1))
    rw [← hsplit, hlen] at hst
    obtain ⟨g2, c2, hst2, -, -, -, -⟩ :=
      stateAt_spec (filters.take i ++ [filters[i]]) (filters.drop (i + 1))
    have hsplit2 : filters.take i ++ [filters[i]] ++ filters.drop (i + 1) = filters := by
      rw [List.append_assoc, List.singleton_append]
      exact hsplit.symm
    rw [hsplit2, List.length_append, hlen, List.length_singleton,
      stateAt_succ filters i g c hst] at hst2
    refine ⟨g, c, filters[i], hst, List.getElem?_eq_getElem hi, ?_, ⟨_, hst2⟩⟩
    intro hf hc hpos
    have hc2 : c = [] := List.eq_nil_of_length_eq_zero hc
    have hlt : i - 1 < (filters.take i).length := by omega
    have hpre : filters.take i = (filters.take i).dropLast ++ [filters[i - 1]] := by
      have hne : filters.take i ≠ [] := by
        intro h
        rw [h] at hlen
        simp at hlen
        omega
      have h1 := (List.dropLast_append_getLast hne).symm
      have h2 : (filters.take i).getLast hne = filters[i - 1] := by
        rw [List.getLast_eq_getElem]
        simp only [hlen]
        rw [List.getElem_take]
      rw [h2] at h1
      exact h1
    have hprevFlag : (filters[i - 1]).orMode = false := by
      by_contra hcon
      exact hclosed hc2 _ _ hpre (by simpa using hcon)
        (by rw [List.head?_cons, Option.map_some', hf])
    obtain ⟨g0, hg0⟩ := hsingle hc2 _ _ hpre hprevFlag
    exact ⟨g0, filters[i - 1], List.getElem?_eq_getElem (by omega), hg0⟩
  · obtain ⟨g, c, hst, hjoin, hopen, -, -⟩ := stateAt_spec filters []
    rw [List.append_nil] at hst
    have hc : c = [] := by
      by_contra hcon
      have := hopen hcon
      simp at this
    subst hc
    rw [List.append_nil] at hjoin
    refine ⟨g, ?_, hst, hjoin⟩
    rw [grouping_eq_stateAt filters filters.length 0 [] [] rfl, Nat.zero_add, hst]
    rfl

end Plygo
